import Mathlib

/-!
The tangle engine of lmt, a literate-programming tool (`main.go`).

A shallow embedding of `ProcessFile`, `parseHeader`, `CodeBlock.Replace` and
`CodeBlock.Finalize`, and the properties of them that the specification states.

Modelling conventions.

* A Go `string` is a list of characters (`Str`); the texts are valid UTF-8, so a
  rune of the regular-expression engine is a `Char`.
* A Go `int` is an `Int` kept in the 64-bit two's-complement range by `wrapInt`
  wherever the program does arithmetic on it.
* The package-level maps `blocks` and `files` are passed explicitly
  (`Registry`); a map is a function to `Option`, `none` standing for an absent
  key.
* The four regular expressions compiled in `main` are embedded as the
  deterministic recognisers `replaceRe`, `blockStartRe`, `namedBlockRe` and
  `fileBlockRe`, each returning the captured groups of `FindStringSubmatch`.
* `CodeBlock.Replace` recurses through the registry without bound, so its
  embedding takes the permitted recursion depth as fuel and returns `none`
  when the depth is exhausted.
-/

namespace Lmt

/-! ## Strings and character classes -/

/-- Go `string`. -/
abbrev Str := List Char

/-- Go `type File string`. -/
abbrev File := Str

/-- Go `type BlockName string`. -/
abbrev BlockName := Str

/-- Go `type language string`. -/
abbrev language := Str

/-- The class `\s` of Go's `regexp` (RE2): tab, newline, form feed, carriage
return and space. -/
def isReSpace (c : Char) : Bool :=
  c = '\t' || c = '\n' || c = '\x0c' || c = '\r' || c = ' '

/-- The class `\w` of Go's `regexp` (RE2), by code point: the digits `0`-`9`
(48-57), the letters `A`-`Z` (65-90) and `a`-`z` (97-122), and the underscore
(95). -/
def isWord (c : Char) : Bool :=
  let n := c.toNat
  (48 ≤ n && n ≤ 57) || (65 ≤ n && n ≤ 90) || (97 ≤ n && n ≤ 122) || n = 95

/-- The class `[\w\+]` of the language token. -/
def isLangChar (c : Char) : Bool :=
  isWord c || c = '+'

/-- The class `[\w\.\-\/]` of the file path. -/
def isPathChar (c : Char) : Bool :=
  isWord c || c = '.' || c = '-' || c = '/'

/-- The class `.` of Go's `regexp` without the `s` flag: any character but newline. -/
def isDot (c : Char) : Bool :=
  c ≠ '\n'

/-- Go `unicode.IsSpace`: the Latin-1 spaces and the `White_Space` table. -/
def unicodeIsSpace (c : Char) : Bool :=
  let n := c.toNat
  (0x09 ≤ n && n ≤ 0x0d) || n = 0x20 || n = 0x85 || n = 0xa0 || n = 0x1680 ||
  (0x2000 ≤ n && n ≤ 0x200a) || n = 0x2028 || n = 0x2029 || n = 0x202f ||
  n = 0x205f || n = 0x3000

/-- Drops the longest suffix whose characters satisfy `p`. -/
def dropWhileEnd (p : Char → Bool) (s : Str) : Str :=
  (s.reverse.dropWhile p).reverse

/-- Go `strings.TrimSpace`. -/
def TrimSpace (s : Str) : Str :=
  dropWhileEnd unicodeIsSpace (s.dropWhile unicodeIsSpace)

/-- Tells whether `p` is a prefix of `s` and returns what follows it
(Go `strings.CutPrefix`). -/
def cutPrefix : Str → Str → Option Str
  | [], s => some s
  | _ :: _, [] => none
  | a :: p, b :: s => if a = b then cutPrefix p s else none

/-- Go `strings.TrimPrefix`: `s` without the leading `p` when `s` starts with
`p`, else `s`. -/
def TrimPrefix (s p : Str) : Str :=
  (cutPrefix p s).getD s

/-- Tells whether `p` is a suffix of `s` and returns what precedes it. -/
def cutSuffix (p s : Str) : Option Str :=
  (cutPrefix p.reverse s.reverse).map List.reverse

/-- The alternation `(?:` three backticks `|` three tildes `)` at the start of
`s`: what follows the fence marker. -/
def cutFence (s : Str) : Option Str :=
  match cutPrefix ['\x60', '\x60', '\x60'] s with
  | some r => some r
  | none => cutPrefix ['~', '~', '~'] s

/-! ## The regular expressions of `main` -/

/-- The expression `^([\s]*)<<<(.+)>>>[\s]*$`, returning groups 1 and 2.
The first group is the whole leading run of `\s` (a `<` must follow it), the
trailing `[\s]*` is the whole trailing run of `\s` (a `>` must precede it), and
group 2 is what stands between the two markers: one or more characters, none
a newline. -/
def replaceRe (s : Str) : Option (Str × Str) :=
  match cutPrefix ['<', '<', '<'] (s.dropWhile isReSpace) with
  | none => none
  | some body =>
    match cutSuffix ['>', '>', '>'] (dropWhileEnd isReSpace body) with
    | none => none
    | some name => if name ≠ [] ∧ name.all isDot then some (s.takeWhile isReSpace, name) else none

/-- The expression `^([\s]*)(?:` three backticks `|` three tildes `)`, not
anchored at the end, returning group 1: the leading run of `\s`. -/
def blockStartRe (s : Str) : Option Str :=
  match cutFence (s.dropWhile isReSpace) with
  | none => none
  | some _ => some (s.takeWhile isReSpace)

/-- The part `\s?` of a header: one leading `\s` is consumed when there is
one. -/
def dropOneSpace : Str → Str
  | [] => []
  | c :: s => if isReSpace c then s else c :: s

/-- The expression `^(?:` fence `)\s?([\w\+]*)\s*"(.+)"$`, returning groups 1
(language) and 2 (block name). No character before the opening quote can be a
quote, so the opening quote is the first quote of the string; the closing
quote is the last character. -/
def namedBlockRe (s : Str) : Option (Str × Str) :=
  match cutFence s with
  | none => none
  | some rest =>
    let head := rest.takeWhile (fun c => c ≠ '"')
    match rest.dropWhile (fun c => c ≠ '"') with
    | [] => none
    | _ :: quoted =>
      match cutSuffix ['"'] quoted with
      | none => none
      | some name =>
        let h := dropOneSpace head
        let lang := h.takeWhile isLangChar
        if (h.dropWhile isLangChar).all isReSpace ∧ name ≠ [] ∧ name.all isDot then
          some (lang, name)
        else none

/-- The expression `^(?:` fence `)\s?([\w\+]+)\s+>\s*([\w\.\-\/]*)$`, returning
groups 1 (language) and 2 (file path). -/
def fileBlockRe (s : Str) : Option (Str × Str) :=
  match cutFence s with
  | none => none
  | some rest =>
    let h := dropOneSpace rest
    let lang := h.takeWhile isLangChar
    let afterLang := h.dropWhile isLangChar
    match (afterLang.dropWhile isReSpace) with
    | '>' :: afterGt =>
      let path := afterGt.dropWhile isReSpace
      if lang ≠ [] ∧ afterLang.takeWhile isReSpace ≠ [] ∧ path.all isPathChar then
        some (lang, path)
      else none
    | _ => none

/-! ## Data model -/

/-- Go `type CodeLine struct`. -/
structure CodeLine where
  text : Str
  file : File
  lang : language
  number : Int
deriving DecidableEq, Repr

/-- Go `type CodeBlock []CodeLine`. -/
abbrev CodeBlock := List CodeLine

/-- Go `int` arithmetic: the value reduced to the 64-bit two's-complement range. -/
def wrapInt (x : Int) : Int :=
  (x + 9223372036854775808) % 18446744073709551616 - 9223372036854775808

/-- The package-level maps `blocks` and `files`. -/
structure Registry where
  blocks : BlockName → Option CodeBlock
  files : File → Option CodeBlock

/-- Go `m[k] = append(m[k], block...)`: an absent key reads as the empty block
and is present afterwards. -/
def appendAt (m : Str → Option CodeBlock) (k : Str) (block : CodeBlock) : Str → Option CodeBlock :=
  fun x => if x = k then some ((m k).getD [] ++ block) else m x

/-! ## `CodeBlock.Replace` -/

/-- The loop of `CodeBlock.Replace` over the lines of the block, `recurse`
being the recursive call `val.Replace`. -/
def replaceLoop (blocks : BlockName → Option CodeBlock)
    (recurse : CodeBlock → Str → Option CodeBlock) (pre : Str) :
    CodeBlock → Option CodeBlock
  | [] => some []
  | v :: c =>
    match replaceRe v.text with
    | none =>
      let v1 := if v.text ≠ ['\n'] then { v with text := pre ++ v.text } else v
      (replaceLoop blocks recurse pre c).map (fun ret => v1 :: ret)
    | some (p, bname) =>
      match blocks bname with
      | some val =>
        match recurse val (pre ++ p) with
        | none => none
        | some sub => (replaceLoop blocks recurse pre c).map (fun ret => sub ++ ret)
      | none => (replaceLoop blocks recurse pre c).map (fun ret => v :: ret)

/-- Go `func (c CodeBlock) Replace(prefix string) (ret CodeBlock)`, with the
permitted recursion depth as first argument: `none` when the depth is
exhausted. -/
def Replace (blocks : BlockName → Option CodeBlock) : Nat → CodeBlock → Str → Option CodeBlock
  | 0, _, _ => none
  | fuel + 1, c, pre => replaceLoop blocks (Replace blocks fuel) pre c

/-! ## `CodeBlock.Finalize` -/

/-- Go `%v` of an `int`: its decimal digits, with a minus sign when negative. -/
def decimal (n : Int) : Str :=
  if n < 0 then '-' :: Nat.toDigits 10 n.natAbs else Nat.toDigits 10 n.natAbs

/-- The directive `fmt.Sprintf("//line %[2]v:%[1]v\n", number, file)`. -/
def goDirective (number : Int) (file : File) : Str :=
  "//line ".toList ++ file ++ [':'] ++ decimal number ++ ['\n']

/-- The directive `fmt.Sprintf("#line %v \"%v\"\n", number, file)`. -/
def cDirective (number : Int) (file : File) : Str :=
  "#line ".toList ++ decimal number ++ [' ', '"'] ++ file ++ ['"', '\n']

/-- The `switch l.lang` of `Finalize` followed by the `Sprintf`: the directive
of the line, `none` in the `default` case. -/
def directive (l : CodeLine) : Option Str :=
  if l.lang = "go".toList ∨ l.lang = "golang".toList then
    some (goDirective l.number l.file)
  else if l.lang = "C".toList ∨ l.lang = "c".toList ∨ l.lang = "cpp".toList then
    some (cDirective l.number l.file)
  else none

/-- The variables of `Finalize` that live across iterations. -/
structure FinalizeState where
  ret : Str
  file : File
  linenumber : Int
deriving DecidableEq, Repr

/-- One iteration of the loop of `Finalize`. In the `default` case of the
switch the text is emitted and the iteration ends (`continue`) before
`linenumber` and `file` are assigned. -/
def finalizeStep (s : FinalizeState) (l : CodeLine) : FinalizeState :=
  if wrapInt (s.linenumber + 1) ≠ l.number ∨ s.file ≠ l.file then
    match directive l with
    | none => { s with ret := s.ret ++ l.text }
    | some d => { ret := s.ret ++ d ++ l.text, file := l.file, linenumber := l.number }
  else
    { ret := s.ret ++ l.text, file := l.file, linenumber := l.number }

/-- The loop of `Finalize` from a given state. -/
def finalizeLoop (s : FinalizeState) (c : CodeBlock) : FinalizeState :=
  c.foldl finalizeStep s

/-- Go `func (c CodeBlock) Finalize() (ret string)`. -/
def Finalize (c : CodeBlock) : Str :=
  (finalizeLoop { ret := [], file := [], linenumber := 0 } c).ret

/-! ## `parseHeader` and `ProcessFile` -/

/-- Go `func parseHeader(line string) (File, BlockName, language)`. -/
def parseHeader (line : Str) : File × BlockName × language :=
  let line := TrimSpace line
  match namedBlockRe line with
  | some (lang, name) => ([], name, lang)
  | none =>
    match fileBlockRe line with
    | some (lang, path) => (path, [], lang)
    | none => ([], [], [])

/-- The input of `ProcessFile`: the bytes the reader delivers, and the error
it reports once they are exhausted (`none` for `io.EOF`). -/
structure Reader where
  data : Str
  failure : Option Str

/-- The successive results of `scanner.ReadString` that come without an error:
the complete lines of the data, each with its newline. `cur` is the line being
read. What follows the last newline is returned together with the error, and
`ProcessFile` returns without looking at it. -/
def readStrings (cur : Str) : Str → List Str
  | [] => []
  | ch :: data =>
    if ch = '\n' then (cur ++ [ch]) :: readStrings [] data
    else readStrings (cur ++ [ch]) data

/-- The variables of `ProcessFile` that live across iterations, and the two
package-level maps. -/
structure ScanState where
  reg : Registry
  line : CodeLine
  inBlock : Bool
  bname : BlockName
  fname : File
  block : CodeBlock
  blockPrefix : Str

/-- The closing fence lines: three backticks, or three tildes, and a newline. -/
def isFenceClose (text : Str) : Bool :=
  text = ['\x60', '\x60', '\x60', '\n'] || text = ['~', '~', '~', '\n']

/-- One iteration of the loop of `ProcessFile` in which `ReadString` returned
`text` without error. -/
def scanLine (st : ScanState) (text : Str) : ScanState :=
  let line := { st.line with number := wrapInt (st.line.number + 1), text := text }
  if st.inBlock then
    let line := { line with text := TrimPrefix line.text st.blockPrefix }
    if isFenceClose line.text then
      let files := if st.fname ≠ [] then appendAt st.reg.files st.fname st.block else st.reg.files
      let blocks := if st.bname ≠ [] then appendAt st.reg.blocks st.bname st.block else st.reg.blocks
      { st with reg := { blocks := blocks, files := files }, line := line, inBlock := false }
    else
      { st with line := line, block := st.block ++ [line] }
  else
    match blockStartRe line.text with
    | some blockPrefix =>
      let line := { line with text := TrimPrefix line.text blockPrefix }
      let (fname, bname, lang) := parseHeader line.text
      let line := { line with lang := lang }
      let fname := if fname = [] ∧ bname = [] ∧ lang ≠ [] then line.file ++ ['.'] ++ lang else fname
      { reg := st.reg, line := line, inBlock := true, bname := bname, fname := fname,
        block := [], blockPrefix := blockPrefix }
    | none => { st with line := line }

/-- The loop of `ProcessFile` over the lines read without error. -/
def scanLoop (st : ScanState) (lines : List Str) : ScanState :=
  lines.foldl scanLine st

/-- The state of `ProcessFile` before the first iteration. -/
def initState (reg : Registry) (inputfilename : Str) : ScanState :=
  { reg := reg, line := { text := [], file := inputfilename, lang := [], number := 0 },
    inBlock := false, bname := [], fname := [], block := [], blockPrefix := [] }

/-- Go `func ProcessFile(r io.Reader, inputfilename string) error`: the maps
after the call, and the error returned (`none` for `nil`). -/
def ProcessFile (r : Reader) (inputfilename : Str) (reg : Registry) : Registry × Option Str :=
  ((scanLoop (initState reg inputfilename) (readStrings [] r.data)).reg, r.failure)

/-- The registry of `main` before the first document: both maps empty. -/
def emptyRegistry : Registry :=
  { blocks := fun _ => none, files := fun _ => none }

/-- A block reaches itself, and every block reached from the registry value of
a name that one of its reference lines resolves to. -/
inductive Reaches (blocks : BlockName → Option CodeBlock) : CodeBlock → CodeBlock → Prop
  | refl (c : CodeBlock) : Reaches blocks c c
  | step (c val d : CodeBlock) (v : CodeLine) (p : Str) (bname : BlockName) :
      v ∈ c → replaceRe v.text = some (p, bname) → blocks bname = some val →
      Reaches blocks val d → Reaches blocks c d

/-! ## Vocabulary of the specification -/

/-- The block `c` holds a reference line that resolves to the registry block
`val`. -/
def Refs (blocks : BlockName → Option CodeBlock) (c val : CodeBlock) : Prop :=
  ∃ v ∈ c, ∃ (p : Str) (bname : BlockName),
    replaceRe v.text = some (p, bname) ∧ blocks bname = some val

/-- The registry block `val` references itself, directly or transitively: one
of its reference lines resolves to a block that reaches `val`. -/
def SelfReferencing (blocks : BlockName → Option CodeBlock) (val : CodeBlock) : Prop :=
  ∃ mid, Refs blocks val mid ∧ Reaches blocks mid val

/-- Tells whether every chain of resolved references that starts in the block
`c` is shorter than `depth`: no line of `c` is a resolved reference when
`depth` is 1, and so on. -/
def expandsWithin (blocks : BlockName → Option CodeBlock) : Nat → CodeBlock → Bool
  | 0, _ => false
  | depth + 1, c =>
    c.all fun v =>
      match replaceRe v.text with
      | none => true
      | some (_, bname) =>
        match blocks bname with
        | none => true
        | some val => expandsWithin blocks depth val

/-- The languages with a known directive format: go, golang, c, C and cpp. -/
def knownFormat (lang : language) : Bool :=
  lang = "go".toList || lang = "golang".toList || lang = "c".toList ||
  lang = "C".toList || lang = "cpp".toList

/-- The concatenation of the line texts of a block, in block order. -/
def texts : CodeBlock → Str
  | [] => []
  | l :: c => l.text ++ texts c

/-- The line number of a source line is a positive integer (1-based within its
document) that a Go `int` holds. -/
def numbered (l : CodeLine) : Prop :=
  1 ≤ l.number ∧ l.number < 9223372036854775808

instance (l : CodeLine) : Decidable (numbered l) :=
  inferInstanceAs (Decidable (1 ≤ l.number ∧ l.number < 9223372036854775808))

/-- Discontinuity of a line against the line before it, `none` when it is the
first line of the block: the first line is discontinuous unless it is line 1
of the document with the empty name; a later line is discontinuous when its
number is not the previous number plus one or its document is another one. -/
def discontinuous (prev : Option CodeLine) (l : CodeLine) : Prop :=
  match prev with
  | none => l.number ≠ 1 ∨ l.file ≠ []
  | some q => l.number ≠ q.number + 1 ∨ l.file ≠ q.file

instance (prev : Option CodeLine) (l : CodeLine) : Decidable (discontinuous prev l) := by
  unfold discontinuous
  cases prev <;> exact inferInstance

/-- The line of the lines already rendered that `Finalize` compares the next
line with, `t` being the one compared with before them: the last of them,
except that a line whose language has no directive format and that is itself
discontinuous is passed over, the comparison staying with the line before
it. `none` when there is no such line. -/
def comparedLine : Option CodeLine → CodeBlock → Option CodeLine
  | t, [] => t
  | t, l :: c =>
    comparedLine (if knownFormat l.lang = false ∧ discontinuous t l then t else some l) c

/-- The variables `file` and `linenumber` of `Finalize` hold the provenance of
the line `t`, a line with a positive number that a Go `int` holds; they hold
their initial values when there is no such line. -/
def tracks (s : FinalizeState) (t : Option CodeLine) : Prop :=
  match t with
  | none => s.file = [] ∧ s.linenumber = 0
  | some q => s.file = q.file ∧ s.linenumber = q.number ∧ numbered q

/-- A fence of a document that was closed: the target path and the block name
of its header (empty when it has none) and the lines collected in it. -/
structure ClosedFence where
  fname : File
  bname : BlockName
  block : CodeBlock
deriving DecidableEq, Repr

/-- The fences closed while the loop of `ProcessFile` reads `lines` from the
state `st`, in the order they are met: an iteration closes a fence when it
starts inside one and ends outside. -/
def closedFences (st : ScanState) : List Str → List ClosedFence
  | [] => []
  | text :: lines =>
    (if st.inBlock = true ∧ (scanLine st text).inBlock = false then
      [{ fname := st.fname, bname := st.bname, block := st.block }] else []) ++
    closedFences (scanLine st text) lines

/-- The lines of the closed fences registered under the target path `k`, in
order. A fence without target path (`fname` empty) is registered under none. -/
def linesForFile (k : File) : List ClosedFence → CodeBlock
  | [] => []
  | f :: fs => (if f.fname = k ∧ f.fname ≠ [] then f.block else []) ++ linesForFile k fs

/-- The lines of the closed fences registered under the block name `k`, in
order. A fence without name (`bname` empty) is registered under none. -/
def linesForName (k : BlockName) : List ClosedFence → CodeBlock
  | [] => []
  | f :: fs => (if f.bname = k ∧ f.bname ≠ [] then f.block else []) ++ linesForName k fs

/-- Tells whether one of the closed fences is registered under the target path `k`. -/
def registersFile (k : File) (fs : List ClosedFence) : Bool :=
  fs.any fun f => f.fname = k && f.fname ≠ []

/-- Tells whether one of the closed fences is registered under the block name `k`. -/
def registersName (k : BlockName) (fs : List ClosedFence) : Bool :=
  fs.any fun f => f.bname = k && f.bname ≠ []

/-- A line as `ReadString` returns it without error: it ends with its only
newline. -/
def isLine (t : Str) : Bool :=
  match t.reverse with
  | [] => false
  | ch :: u => ch = '\n' && u.all fun x => x ≠ '\n'

/-- The bytes of a document made of the given lines. -/
def joinLines : List Str → Str
  | [] => []
  | t :: ts => t ++ joinLines ts

/-- The fence marker of three backticks. -/
def backtickFence : Str := ['\x60', '\x60', '\x60']

/-- The fence marker of three tildes. -/
def tildeFence : Str := ['~', '~', '~']

/-- The target path, the block name and the language that `ProcessFile`
records when a fence of document `d` opens on `header`, the opening line
without its indentation: the result of `parseHeader`, with the implicit target
when there is a language and neither path nor name. -/
def headerOf (d : File) (header : Str) : File × BlockName × language :=
  let (fname, bname, lang) := parseHeader header
  (if fname = [] ∧ bname = [] ∧ lang ≠ [] then d ++ ['.'] ++ lang else fname, bname, lang)

/-- The content lines of a fence as `ProcessFile` tags them: the text without
the indentation `pfx` of the fence, the document `d`, the language `lang` of
the fence, and consecutive line numbers from `first`. -/
def contentLines (d : File) (lang : language) (pfx : Str) (first : Int) : List Str → CodeBlock
  | [] => []
  | t :: ts => ⟨TrimPrefix t pfx, d, lang, first⟩ :: contentLines d lang pfx (first + 1) ts

/-- The lines `seen` of document `d` end inside a fence: they are the lines
`pre` after which the scan is outside a fence, an opening line with
indentation `pfx`, and content lines `body` none of which closes the fence;
and the state of `ProcessFile` after them holds what the opening line gave and
the content lines, tagged. -/
def OpenFence (reg : Registry) (d : Str) (seen : List Str) : Prop :=
  ∃ (pre : List Str) (opener : Str) (body : List Str) (pfx : Str),
    seen = pre ++ opener :: body ∧
    (scanLoop (initState reg d) pre).inBlock = false ∧
    blockStartRe opener = some pfx ∧
    (∀ t ∈ body, isFenceClose (TrimPrefix t pfx) = false) ∧
    (scanLoop (initState reg d) seen).blockPrefix = pfx ∧
    (scanLoop (initState reg d) seen).line.lang = (headerOf d (TrimPrefix opener pfx)).2.2 ∧
    (scanLoop (initState reg d) seen).bname = (headerOf d (TrimPrefix opener pfx)).2.1 ∧
    (scanLoop (initState reg d) seen).fname = (headerOf d (TrimPrefix opener pfx)).1 ∧
    (scanLoop (initState reg d) seen).block =
      contentLines d (headerOf d (TrimPrefix opener pfx)).2.2 pfx (pre.length + 2) body

/-- The closed fence `f` of the document `lines` of `d`: the document is made
of lines `pre` after which the scan is outside a fence, an opening line with
indentation `pfx`, content lines `body` none of which closes the fence, a
closing line, and lines `post`; the fence holds what the opening line gave
and the content lines, tagged. -/
def FenceOf (reg : Registry) (d : Str) (lines : List Str) (f : ClosedFence) : Prop :=
  ∃ (pre : List Str) (opener : Str) (body : List Str) (closer : Str) (post : List Str)
      (pfx : Str),
    lines = pre ++ opener :: body ++ closer :: post ∧
    (scanLoop (initState reg d) pre).inBlock = false ∧
    blockStartRe opener = some pfx ∧
    (∀ t ∈ body, isFenceClose (TrimPrefix t pfx) = false) ∧
    isFenceClose (TrimPrefix closer pfx) = true ∧
    f.bname = (headerOf d (TrimPrefix opener pfx)).2.1 ∧
    f.fname = (headerOf d (TrimPrefix opener pfx)).1 ∧
    f.block = contentLines d (headerOf d (TrimPrefix opener pfx)).2.2 pfx (pre.length + 2) body

/-- The opening lines met while the loop of `ProcessFile` reads `lines` from
the state `st`, each without its indentation, in order: a line opens a fence
when it is read outside a fence and `blockStartRe` matches it. -/
def openedBy (st : ScanState) : List Str → List Str
  | [] => []
  | text :: lines =>
    (if st.inBlock = false then
      match blockStartRe text with
      | some pfx => [TrimPrefix text pfx]
      | none => []
    else []) ++ openedBy (scanLine st text) lines

/-! ## Strings: basic facts -/

theorem cutPrefix_append (p s : Str) : cutPrefix p (p ++ s) = some s := by
  induction p with
  | nil => cases s <;> rfl
  | cons a p ih => simp [cutPrefix, ih]

theorem cutSuffix_append (p s : Str) : cutSuffix p (s ++ p) = some s := by
  simp [cutSuffix, cutPrefix_append]

theorem dropWhileEnd_append_of_pos (q : Char → Bool) (s w : Str) (hw : ∀ c ∈ w, q c = true) :
    dropWhileEnd q (s ++ w) = dropWhileEnd q s := by
  unfold dropWhileEnd
  rw [List.reverse_append, List.dropWhile_append_of_pos]
  intro c hc
  exact hw c (List.mem_reverse.mp hc)

theorem dropWhileEnd_concat_of_neg (q : Char → Bool) (s : Str) (c : Char) (hc : q c = false) :
    dropWhileEnd q (s ++ [c]) = s ++ [c] := by
  simp [dropWhileEnd, hc]

/-! ## The reference expression -/

/-- A line made of whitespace, the opening marker, a name, the closing marker
and whitespace is a reference, and the groups are the leading whitespace and
the name. -/
theorem replaceRe_reference (p name w : Str) (hp : p.all isReSpace = true)
    (hw : w.all isReSpace = true) (hn : name ≠ []) (hd : name.all isDot = true) :
    replaceRe (p ++ "<<<".toList ++ name ++ ">>>".toList ++ w) = some (p, name) := by
  have hp1 : ∀ c ∈ p, isReSpace c = true := by simpa using hp
  have hw1 : ∀ c ∈ w, isReSpace c = true := by simpa using hw
  have e1 : p ++ "<<<".toList ++ name ++ ">>>".toList ++ w
      = p ++ ('<' :: ("<<".toList ++ name ++ ">>>".toList ++ w)) := by simp
  have e2 : ("<<<".toList ++ name ++ ">>>".toList ++ w : Str)
      = "<<<".toList ++ (name ++ ">>>".toList ++ w) := by simp
  have e3 : (name ++ ">>>".toList ++ w : Str) = (name ++ ">>".toList ++ ['>']) ++ w := by simp
  have e4 : (name ++ ">>".toList ++ ['>'] : Str) = name ++ ">>>".toList := by simp
  have hlt : isReSpace '<' = false := by decide
  have hgt : isReSpace '>' = false := by decide
  unfold replaceRe
  have hd1 : (p ++ "<<<".toList ++ name ++ ">>>".toList ++ w).dropWhile isReSpace
      = "<<<".toList ++ (name ++ ">>>".toList ++ w) := by
    rw [e1, List.dropWhile_append_of_pos hp1, List.dropWhile_cons_of_neg (by simp [hlt])]
    simp
  have ht1 : (p ++ "<<<".toList ++ name ++ ">>>".toList ++ w).takeWhile isReSpace = p := by
    rw [e1, List.takeWhile_append_of_pos hp1, List.takeWhile_cons_of_neg (by simp [hlt])]
    simp
  rw [hd1, ht1]
  have hc : cutPrefix ['<', '<', '<'] ("<<<".toList ++ (name ++ ">>>".toList ++ w))
      = some (name ++ ">>>".toList ++ w) := cutPrefix_append "<<<".toList _
  rw [hc]
  simp only []
  rw [e3, dropWhileEnd_append_of_pos _ _ _ hw1, dropWhileEnd_concat_of_neg _ _ _ hgt, e4]
  have hs : cutSuffix ['>', '>', '>'] (name ++ ">>>".toList) = some name :=
    cutSuffix_append ">>>".toList name
  rw [hs]
  simp [hn, hd]

/-- A blank line is no reference. -/
theorem replaceRe_blank : replaceRe ['\n'] = none := by decide

/-! ## `Replace`: the loop -/

theorem replaceLoop_cons_literal (blocks : BlockName → Option CodeBlock)
    (recurse : CodeBlock → Str → Option CodeBlock) (pre : Str) (v : CodeLine) (c : CodeBlock)
    (h : replaceRe v.text = none) :
    replaceLoop blocks recurse pre (v :: c) =
      (replaceLoop blocks recurse pre c).map fun ret =>
        (if v.text ≠ ['\n'] then { v with text := pre ++ v.text } else v) :: ret := by
  simp only [replaceLoop, h]

theorem replaceLoop_cons_found (blocks : BlockName → Option CodeBlock)
    (recurse : CodeBlock → Str → Option CodeBlock) (pre : Str) (v : CodeLine) (c : CodeBlock)
    (p : Str) (bname : BlockName) (val : CodeBlock)
    (h : replaceRe v.text = some (p, bname)) (hb : blocks bname = some val) :
    replaceLoop blocks recurse pre (v :: c) =
      (recurse val (pre ++ p)).bind fun sub =>
        (replaceLoop blocks recurse pre c).map fun ret => sub ++ ret := by
  simp only [replaceLoop, h, hb]
  cases recurse val (pre ++ p) <;> rfl

theorem replaceLoop_cons_missing (blocks : BlockName → Option CodeBlock)
    (recurse : CodeBlock → Str → Option CodeBlock) (pre : Str) (v : CodeLine) (c : CodeBlock)
    (p : Str) (bname : BlockName)
    (h : replaceRe v.text = some (p, bname)) (hb : blocks bname = none) :
    replaceLoop blocks recurse pre (v :: c) =
      (replaceLoop blocks recurse pre c).map fun ret => v :: ret := by
  simp only [replaceLoop, h, hb]

theorem replaceLoop_append (blocks : BlockName → Option CodeBlock)
    (recurse : CodeBlock → Str → Option CodeBlock) (pre : Str) (c1 c2 : CodeBlock) :
    replaceLoop blocks recurse pre (c1 ++ c2) =
      (replaceLoop blocks recurse pre c1).bind fun a =>
        (replaceLoop blocks recurse pre c2).map fun r => a ++ r := by
  induction c1 with
  | nil => simp [replaceLoop]
  | cons v c ih =>
    rw [List.cons_append]
    cases h : replaceRe v.text with
    | none =>
      rw [replaceLoop_cons_literal _ _ _ _ _ h, replaceLoop_cons_literal _ _ _ _ _ h, ih]
      cases replaceLoop blocks recurse pre c <;> simp
      cases replaceLoop blocks recurse pre c2 <;> simp
    | some pn =>
      obtain ⟨p, bname⟩ := pn
      cases hb : blocks bname with
      | none =>
        rw [replaceLoop_cons_missing _ _ _ _ _ _ _ h hb,
          replaceLoop_cons_missing _ _ _ _ _ _ _ h hb, ih]
        cases replaceLoop blocks recurse pre c <;> simp
        cases replaceLoop blocks recurse pre c2 <;> simp
      | some val =>
        rw [replaceLoop_cons_found _ _ _ _ _ _ _ _ h hb,
          replaceLoop_cons_found _ _ _ _ _ _ _ _ h hb, ih]
        cases recurse val (pre ++ p) <;> simp
        cases replaceLoop blocks recurse pre c <;> simp
        cases replaceLoop blocks recurse pre c2 <;> simp

/-- A literal line of the block is in the result, with the prefix in front of
its text unless it is blank. -/
theorem replaceLoop_mem_literal (blocks : BlockName → Option CodeBlock)
    (recurse : CodeBlock → Str → Option CodeBlock) (pre : Str) (l : CodeLine)
    (hl : replaceRe l.text = none) :
    ∀ (c r : CodeBlock), replaceLoop blocks recurse pre c = some r → l ∈ c →
      (if l.text ≠ ['\n'] then { l with text := pre ++ l.text } else l) ∈ r := by
  intro c
  induction c with
  | nil => intro r _ hmem; simp at hmem
  | cons v c ih =>
    intro r hr hmem
    have hsplit : replaceLoop blocks recurse pre ([v] ++ c) = some r := hr
    rw [replaceLoop_append] at hsplit
    obtain ⟨a, ha, hrest⟩ := Option.bind_eq_some.mp hsplit
    obtain ⟨r2, hr2, rfl⟩ := Option.map_eq_some'.mp hrest
    rcases List.mem_cons.mp hmem with rfl | hin
    · rw [replaceLoop_cons_literal _ _ _ _ _ hl] at ha
      simp [replaceLoop] at ha
      subst ha
      simp
    · exact List.mem_append_right a (ih r2 hr2 hin)

/-- The expansion of a resolved reference line of the block is in the result. -/
theorem replaceLoop_mem_found (blocks : BlockName → Option CodeBlock)
    (recurse : CodeBlock → Str → Option CodeBlock) (pre : Str) (v : CodeLine)
    (p : Str) (bname : BlockName) (val : CodeBlock)
    (hv : replaceRe v.text = some (p, bname)) (hb : blocks bname = some val) :
    ∀ (c r : CodeBlock), replaceLoop blocks recurse pre c = some r → v ∈ c →
      ∃ sub, recurse val (pre ++ p) = some sub ∧ ∀ x ∈ sub, x ∈ r := by
  intro c
  induction c with
  | nil => intro r _ hmem; simp at hmem
  | cons u c ih =>
    intro r hr hmem
    have hsplit : replaceLoop blocks recurse pre ([u] ++ c) = some r := hr
    rw [replaceLoop_append] at hsplit
    obtain ⟨a, ha, hrest⟩ := Option.bind_eq_some.mp hsplit
    obtain ⟨r2, hr2, rfl⟩ := Option.map_eq_some'.mp hrest
    rcases List.mem_cons.mp hmem with rfl | hin
    · rw [replaceLoop_cons_found _ _ _ _ _ _ _ _ hv hb] at ha
      obtain ⟨sub, hsub, hmap⟩ := Option.bind_eq_some.mp ha
      simp [replaceLoop] at hmap
      subst hmap
      exact ⟨sub, hsub, fun x hx => by simp [hx]⟩
    · obtain ⟨sub, hsub, hall⟩ := ih r2 hr2 hin
      exact ⟨sub, hsub, fun x hx => List.mem_append_right a (hall x hx)⟩

theorem Replace_succ (blocks : BlockName → Option CodeBlock) (fuel : Nat) (c : CodeBlock)
    (pre : Str) :
    Replace blocks (fuel + 1) c pre = replaceLoop blocks (Replace blocks fuel) pre c := rfl

/-- `Replace` returns a result when the permitted depth exceeds the length of
every chain of resolved references. -/
theorem Replace_terminates (blocks : BlockName → Option CodeBlock) :
    ∀ (fuel : Nat) (c : CodeBlock), expandsWithin blocks fuel c = true →
      ∀ e : Str, ∃ r, Replace blocks fuel c e = some r := by
  intro fuel
  induction fuel with
  | zero => intro c h; simp [expandsWithin] at h
  | succ n ih =>
    intro c
    induction c with
    | nil => intro _ e; exact ⟨[], rfl⟩
    | cons v c ihc =>
      intro h e
      have hv : (match replaceRe v.text with
          | none => true
          | some (_, bname) =>
            match blocks bname with
            | none => true
            | some val => expandsWithin blocks n val) = true ∧
          expandsWithin blocks (n + 1) c = true := by
        simpa [expandsWithin] using h
      obtain ⟨r, hr⟩ := ihc hv.2 e
      rw [Replace_succ] at hr
      rw [Replace_succ]
      cases href : replaceRe v.text with
      | none =>
        rw [replaceLoop_cons_literal _ _ _ _ _ href, hr]
        exact ⟨_, rfl⟩
      | some pn =>
        obtain ⟨p, bname⟩ := pn
        cases hb : blocks bname with
        | none =>
          rw [replaceLoop_cons_missing _ _ _ _ _ _ _ href hb, hr]
          exact ⟨_, rfl⟩
        | some val =>
          have hval : expandsWithin blocks n val = true := by
            have h1 := hv.1
            simp only [href, hb] at h1
            exact h1
          obtain ⟨sub, hsub⟩ := ih val hval (e ++ p)
          rw [replaceLoop_cons_found _ _ _ _ _ _ _ _ href hb, hsub, hr]
          exact ⟨_, rfl⟩

/-! ## Claims about `CodeBlock.Replace` -/

/-- C1: a reference line whose text is whitespace `p`, the opening marker, a
name, the closing marker and whitespace, and whose name the registry defines,
is replaced by exactly the lines of `blocks[name].Replace(e ++ p)`, whatever
stands before and after it in the block: outer and inner indentation
concatenate. In particular, with `greet` holding the line `"  hello\n"`, the
line `"    <<<greet>>>\n"` expands under the empty prefix to the single line
`"      hello\n"`. -/
theorem C1_reference_replaced_by_expansion_under_concatenated_prefix :
    (∀ (blocks : BlockName → Option CodeBlock) (fuel : Nat) (e p name w : Str)
        (v : CodeLine) (val c1 c2 : CodeBlock),
        p.all isReSpace = true → w.all isReSpace = true → name ≠ [] → name.all isDot = true →
        v.text = p ++ "<<<".toList ++ name ++ ">>>".toList ++ w →
        blocks name = some val →
        Replace blocks (fuel + 1) (c1 ++ v :: c2) e =
          (Replace blocks (fuel + 1) c1 e).bind fun a =>
            (Replace blocks fuel val (e ++ p)).bind fun sub =>
              (Replace blocks (fuel + 1) c2 e).map fun r => a ++ sub ++ r) ∧
    (∀ (blocks : BlockName → Option CodeBlock) (ref hello : CodeLine),
        ref.text = "    <<<greet>>>\n".toList → hello.text = "  hello\n".toList →
        blocks "greet".toList = some [hello] →
        Replace blocks 2 [ref] [] = some [{ hello with text := "      hello\n".toList }]) := by
  have general : ∀ (blocks : BlockName → Option CodeBlock) (fuel : Nat) (e p name w : Str)
      (v : CodeLine) (val c1 c2 : CodeBlock),
      p.all isReSpace = true → w.all isReSpace = true → name ≠ [] → name.all isDot = true →
      v.text = p ++ "<<<".toList ++ name ++ ">>>".toList ++ w →
      blocks name = some val →
      Replace blocks (fuel + 1) (c1 ++ v :: c2) e =
        (Replace blocks (fuel + 1) c1 e).bind fun a =>
          (Replace blocks fuel val (e ++ p)).bind fun sub =>
            (Replace blocks (fuel + 1) c2 e).map fun r => a ++ sub ++ r := by
    intro blocks fuel e p name w v val c1 c2 hp hw hn hd hv hb
    have href : replaceRe v.text = some (p, name) := by
      rw [hv]; exact replaceRe_reference p name w hp hw hn hd
    simp only [Replace_succ]
    rw [replaceLoop_append, replaceLoop_cons_found _ _ _ _ _ _ _ _ href hb]
    cases replaceLoop blocks (Replace blocks fuel) e c1 <;> simp
    cases Replace blocks fuel val (e ++ p) <;> simp
    cases replaceLoop blocks (Replace blocks fuel) e c2 <;> simp
  refine ⟨general, ?_⟩
  intro blocks ref hello href hhello hb
  have h := general blocks 1 [] "    ".toList "greet".toList "\n".toList ref [hello] [] []
    (by decide) (by decide) (by decide) (by decide) (by rw [href]; rfl) hb
  have hlit : replaceRe hello.text = none := by rw [hhello]; decide
  have hne : hello.text ≠ ['\n'] := by rw [hhello]; decide
  have hsub : Replace blocks 1 [hello] ([] ++ "    ".toList)
      = some [{ hello with text := "      hello\n".toList }] := by
    rw [Replace_succ, replaceLoop_cons_literal _ _ _ _ _ hlit]
    simp [replaceLoop, hne, hhello]
  rw [List.nil_append] at h
  rw [h, hsub]
  simp [Replace, replaceLoop]

/-- C1, at a concrete input: the example of the specification. -/
theorem C1_witness :
    Replace (fun k => if k = "greet".toList then
        some [⟨"  hello\n".toList, "doc.md".toList, "go".toList, 8⟩] else none) 2
      [⟨"    <<<greet>>>\n".toList, "doc.md".toList, "go".toList, 3⟩] []
      = some [⟨"      hello\n".toList, "doc.md".toList, "go".toList, 8⟩] := by
  have h := C1_reference_replaced_by_expansion_under_concatenated_prefix.1
    (fun k => if k = "greet".toList then
        some [⟨"  hello\n".toList, "doc.md".toList, "go".toList, 8⟩] else none)
    1 [] "    ".toList "greet".toList "\n".toList
    ⟨"    <<<greet>>>\n".toList, "doc.md".toList, "go".toList, 3⟩
    [⟨"  hello\n".toList, "doc.md".toList, "go".toList, 8⟩] [] []
    (by decide) (by decide) (by decide) (by decide) (by decide) (by decide)
  rw [List.nil_append] at h
  rw [h]
  decide

/-- C2: when block A holds a reference line to B capturing indentation `p1`,
B holds a reference line to C capturing indentation `p2`, and C holds a
literal non-blank line with text `t`, every result of `A.Replace(e)` holds
that line, with its provenance, under the text `e ++ p1 ++ p2 ++ t`; and
`A.Replace(e)` returns such a result as soon as the permitted depth exceeds
the length of every chain of resolved references from A. -/
theorem C2_three_level_nesting_concatenates_prefixes
    (blocks : BlockName → Option CodeBlock) (A B C : CodeBlock)
    (e p1 p2 : Str) (nameB nameC : BlockName) (vA vB l : CodeLine)
    (hA : vA ∈ A) (hrefA : replaceRe vA.text = some (p1, nameB)) (hB : blocks nameB = some B)
    (hvB : vB ∈ B) (hrefB : replaceRe vB.text = some (p2, nameC)) (hC : blocks nameC = some C)
    (hl : l ∈ C) (hlit : replaceRe l.text = none) (hne : l.text ≠ ['\n']) :
    (∀ (fuel : Nat) (r : CodeBlock), Replace blocks fuel A e = some r →
      { l with text := e ++ p1 ++ p2 ++ l.text } ∈ r) ∧
    (∀ fuel : Nat, expandsWithin blocks fuel A = true →
      ∃ r, Replace blocks fuel A e = some r ∧ { l with text := e ++ p1 ++ p2 ++ l.text } ∈ r) := by
  have content : ∀ (fuel : Nat) (r : CodeBlock), Replace blocks fuel A e = some r →
      { l with text := e ++ p1 ++ p2 ++ l.text } ∈ r := by
    intro fuel r hr
    cases fuel with
    | zero => simp [Replace] at hr
    | succ f1 =>
      rw [Replace_succ] at hr
      obtain ⟨rB, hrB, hsubB⟩ := replaceLoop_mem_found _ _ _ _ _ _ _ hrefA hB A r hr hA
      cases f1 with
      | zero => simp [Replace] at hrB
      | succ f2 =>
        rw [Replace_succ] at hrB
        obtain ⟨rC, hrC, hsubC⟩ := replaceLoop_mem_found _ _ _ _ _ _ _ hrefB hC B rB hrB hvB
        cases f2 with
        | zero => simp [Replace] at hrC
        | succ f3 =>
          rw [Replace_succ] at hrC
          have hmem := replaceLoop_mem_literal _ _ _ _ hlit C rC hrC hl
          rw [if_pos hne] at hmem
          exact hsubB _ (hsubC _ hmem)
  refine ⟨content, ?_⟩
  intro fuel hfuel
  obtain ⟨r, hr⟩ := Replace_terminates blocks fuel A hfuel e
  exact ⟨r, hr, content fuel r hr⟩

/-- C2, at a concrete input: the prefixes one tab, two spaces and four spaces. -/
theorem C2_witness :
    ∃ r, Replace (fun k => if k = "B".toList then
          some [⟨"    <<<C>>>\n".toList, "doc.md".toList, "go".toList, 7⟩]
        else if k = "C".toList then
          some [⟨"x := 1\n".toList, "doc.md".toList, "go".toList, 11⟩]
        else none) 3
        [⟨"  <<<B>>>\n".toList, "doc.md".toList, "go".toList, 3⟩] "\t".toList = some r ∧
      (⟨"\t      x := 1\n".toList, "doc.md".toList, "go".toList, 11⟩ : CodeLine) ∈ r :=
  (C2_three_level_nesting_concatenates_prefixes
      (fun k => if k = "B".toList then
          some [⟨"    <<<C>>>\n".toList, "doc.md".toList, "go".toList, 7⟩]
        else if k = "C".toList then
          some [⟨"x := 1\n".toList, "doc.md".toList, "go".toList, 11⟩]
        else none)
      [⟨"  <<<B>>>\n".toList, "doc.md".toList, "go".toList, 3⟩]
      [⟨"    <<<C>>>\n".toList, "doc.md".toList, "go".toList, 7⟩]
      [⟨"x := 1\n".toList, "doc.md".toList, "go".toList, 11⟩]
      "\t".toList "  ".toList "    ".toList "B".toList "C".toList
      ⟨"  <<<B>>>\n".toList, "doc.md".toList, "go".toList, 3⟩
      ⟨"    <<<C>>>\n".toList, "doc.md".toList, "go".toList, 7⟩
      ⟨"x := 1\n".toList, "doc.md".toList, "go".toList, 11⟩
      (by decide) (by decide) (by decide) (by decide) (by decide) (by decide)
      (by decide) (by decide) (by decide)).2 3 (by decide)

/-- C3, as stated, fails: under the external prefix of two spaces the
unresolved reference line `"<<<nope>>>\n"` is kept with its text unchanged, not
with the prefix in front of it. -/
theorem C3_counterexample :
    Replace (fun _ => none) 1 [⟨"<<<nope>>>\n".toList, "doc.md".toList, "go".toList, 4⟩]
        "  ".toList
      = some [⟨"<<<nope>>>\n".toList, "doc.md".toList, "go".toList, 4⟩] ∧
    Replace (fun _ => none) 1 [⟨"<<<nope>>>\n".toList, "doc.md".toList, "go".toList, 4⟩]
        "  ".toList
      ≠ some [⟨"  ".toList ++ "<<<nope>>>\n".toList, "doc.md".toList, "go".toList, 4⟩] := by
  decide

/-- C3, amended: a reference line whose name is not a key of the registry is
kept in the output as exactly one line, unchanged: its text is the reference
text verbatim, without the external prefix, and its provenance is the same,
whatever stands before and after it in the block. -/
theorem C3_unresolved_reference_kept_unchanged
    (blocks : BlockName → Option CodeBlock) (fuel : Nat) (e p : Str) (bname : BlockName)
    (v : CodeLine) (c1 c2 : CodeBlock)
    (href : replaceRe v.text = some (p, bname)) (hb : blocks bname = none) :
    Replace blocks (fuel + 1) (c1 ++ v :: c2) e =
      (Replace blocks (fuel + 1) c1 e).bind fun a =>
        (Replace blocks (fuel + 1) c2 e).map fun r => a ++ v :: r := by
  simp only [Replace_succ]
  rw [replaceLoop_append, replaceLoop_cons_missing _ _ _ _ _ _ _ href hb]
  cases replaceLoop blocks (Replace blocks fuel) e c1 <;> simp
  cases replaceLoop blocks (Replace blocks fuel) e c2 <;> simp

/-- C3 amended, at a concrete input: an unresolved reference between two
literal lines, under a prefix of two spaces. -/
theorem C3_witness :
    Replace (fun _ => none) 1
      ([⟨"a\n".toList, "doc.md".toList, "go".toList, 3⟩] ++
        ⟨"\t<<<nope>>>\n".toList, "doc.md".toList, "go".toList, 4⟩ ::
        [⟨"b\n".toList, "doc.md".toList, "go".toList, 5⟩]) "  ".toList
      = some [⟨"  a\n".toList, "doc.md".toList, "go".toList, 3⟩,
          ⟨"\t<<<nope>>>\n".toList, "doc.md".toList, "go".toList, 4⟩,
          ⟨"  b\n".toList, "doc.md".toList, "go".toList, 5⟩] := by
  rw [C3_unresolved_reference_kept_unchanged (fun _ => none) 0 "  ".toList "\t".toList
    "nope".toList ⟨"\t<<<nope>>>\n".toList, "doc.md".toList, "go".toList, 4⟩
    [⟨"a\n".toList, "doc.md".toList, "go".toList, 3⟩]
    [⟨"b\n".toList, "doc.md".toList, "go".toList, 5⟩] (by decide) rfl]
  decide

/-- C4: when the expansion of a block under a prefix terminates, every line
with text exactly `"\n"` of the block, or of a block reached from it through
any number of resolved references, is in the result unchanged: at no nesting
depth is a blank line given indentation. -/
theorem C4_blank_line_never_prefixed
    (blocks : BlockName → Option CodeBlock) (c d : CodeBlock) (l : CodeLine)
    (hreach : Reaches blocks c d) (hl : l ∈ d) (hblank : l.text = ['\n']) :
    ∀ (fuel : Nat) (e : Str) (r : CodeBlock), Replace blocks fuel c e = some r → l ∈ r := by
  induction hreach with
  | refl c =>
    intro fuel e r hr
    cases fuel with
    | zero => simp [Replace] at hr
    | succ f =>
      rw [Replace_succ] at hr
      have hlit : replaceRe l.text = none := by rw [hblank]; exact replaceRe_blank
      have hmem := replaceLoop_mem_literal _ _ _ _ hlit c r hr hl
      rw [if_neg (by simp [hblank])] at hmem
      exact hmem
  | step c val d v p bname hv href hb _ ih =>
    intro fuel e r hr
    cases fuel with
    | zero => simp [Replace] at hr
    | succ f =>
      rw [Replace_succ] at hr
      obtain ⟨sub, hsub, hall⟩ := replaceLoop_mem_found _ _ _ _ _ _ _ href hb _ r hr hv
      exact hall l (ih hl f _ sub hsub)

/-- C4, at a concrete input: a blank line two references deep, expanded under
a prefix of one tab. -/
theorem C4_witness :
    ∃ r, Replace (fun k => if k = "B".toList then
          some [⟨"    <<<C>>>\n".toList, "doc.md".toList, "go".toList, 7⟩]
        else if k = "C".toList then
          some [⟨"x\n".toList, "doc.md".toList, "go".toList, 11⟩,
            ⟨"\n".toList, "doc.md".toList, "go".toList, 12⟩]
        else none) 3
        [⟨"  <<<B>>>\n".toList, "doc.md".toList, "go".toList, 3⟩] "\t".toList = some r ∧
      (⟨"\n".toList, "doc.md".toList, "go".toList, 12⟩ : CodeLine) ∈ r :=
  ⟨[⟨"\t      x\n".toList, "doc.md".toList, "go".toList, 11⟩,
      ⟨"\n".toList, "doc.md".toList, "go".toList, 12⟩], by decide,
    C4_blank_line_never_prefixed
      (fun k => if k = "B".toList then
          some [⟨"    <<<C>>>\n".toList, "doc.md".toList, "go".toList, 7⟩]
        else if k = "C".toList then
          some [⟨"x\n".toList, "doc.md".toList, "go".toList, 11⟩,
            ⟨"\n".toList, "doc.md".toList, "go".toList, 12⟩]
        else none)
      [⟨"  <<<B>>>\n".toList, "doc.md".toList, "go".toList, 3⟩]
      [⟨"x\n".toList, "doc.md".toList, "go".toList, 11⟩,
        ⟨"\n".toList, "doc.md".toList, "go".toList, 12⟩]
      ⟨"\n".toList, "doc.md".toList, "go".toList, 12⟩
      (Reaches.step _ [⟨"    <<<C>>>\n".toList, "doc.md".toList, "go".toList, 7⟩] _
        ⟨"  <<<B>>>\n".toList, "doc.md".toList, "go".toList, 3⟩ "  ".toList "B".toList
        (by decide) (by decide) (by decide)
        (Reaches.step _ [⟨"x\n".toList, "doc.md".toList, "go".toList, 11⟩,
            ⟨"\n".toList, "doc.md".toList, "go".toList, 12⟩] _
          ⟨"    <<<C>>>\n".toList, "doc.md".toList, "go".toList, 7⟩ "    ".toList "C".toList
          (by decide) (by decide) (by decide) (Reaches.refl _)))
      (by decide) (by decide) 3 "\t".toList _ (by decide)⟩

/-! ## `Finalize`: the loop -/

theorem directive_eq_none_iff (l : CodeLine) : directive l = none ↔ knownFormat l.lang = false := by
  unfold directive knownFormat
  by_cases h1 : l.lang = ['g', 'o'] <;> by_cases h2 : l.lang = ['g', 'o', 'l', 'a', 'n', 'g'] <;>
    by_cases h3 : l.lang = ['C'] <;> by_cases h4 : l.lang = ['c'] <;>
    by_cases h5 : l.lang = ['c', 'p', 'p'] <;> simp [h1, h2, h3, h4, h5]

theorem directive_isSome_of_known (l : CodeLine) (h : knownFormat l.lang = true) :
    ∃ d, directive l = some d := by
  cases hd : directive l with
  | none => rw [directive_eq_none_iff] at hd; rw [hd] at h; exact absurd h (by simp)
  | some d => exact ⟨d, rfl⟩

theorem finalizeLoop_nil (s : FinalizeState) : finalizeLoop s [] = s := rfl

theorem finalizeLoop_cons (s : FinalizeState) (l : CodeLine) (c : CodeBlock) :
    finalizeLoop s (l :: c) = finalizeLoop (finalizeStep s l) c := rfl

theorem finalizeLoop_append (s : FinalizeState) (c1 c2 : CodeBlock) :
    finalizeLoop s (c1 ++ c2) = finalizeLoop (finalizeLoop s c1) c2 := by
  simp [finalizeLoop, List.foldl_append]

/-- What an iteration does to `linenumber` and `file` does not depend on `ret`,
and what it appends to `ret` does not either. -/
theorem finalizeStep_ret (s : FinalizeState) (l : CodeLine) :
    finalizeStep s l =
      { ret := s.ret ++ (finalizeStep { s with ret := [] } l).ret,
        file := (finalizeStep { s with ret := [] } l).file,
        linenumber := (finalizeStep { s with ret := [] } l).linenumber } := by
  unfold finalizeStep
  by_cases h : wrapInt (s.linenumber + 1) ≠ l.number ∨ s.file ≠ l.file
  · simp only [if_pos h]
    cases directive l <;> simp
  · simp only [if_neg h]
    simp

theorem finalizeLoop_ret (c : CodeBlock) : ∀ s : FinalizeState,
    finalizeLoop s c =
      { ret := s.ret ++ (finalizeLoop { s with ret := [] } c).ret,
        file := (finalizeLoop { s with ret := [] } c).file,
        linenumber := (finalizeLoop { s with ret := [] } c).linenumber } := by
  induction c with
  | nil => intro s; simp [finalizeLoop_nil]
  | cons l c ih =>
    intro s
    rw [finalizeLoop_cons, finalizeLoop_cons, ih (finalizeStep s l),
      ih (finalizeStep { s with ret := [] } l)]
    have h := finalizeStep_ret s l
    have hf : (finalizeStep s l).file = (finalizeStep { s with ret := [] } l).file := by
      rw [h]
    have hn : (finalizeStep s l).linenumber
        = (finalizeStep { s with ret := [] } l).linenumber := by
      rw [h]
    have hr : (finalizeStep s l).ret = s.ret ++ (finalizeStep { s with ret := [] } l).ret := by
      rw [h]
    simp only [hf, hn, hr, List.append_assoc, List.nil_append]

/-- The text rendered for the first lines of a block does not depend on the
lines after them. -/
theorem Finalize_append (c1 c2 : CodeBlock) :
    Finalize (c1 ++ c2) = Finalize c1 ++
      (finalizeLoop
        { ret := [],
          file := (finalizeLoop { ret := [], file := [], linenumber := 0 } c1).file,
          linenumber := (finalizeLoop { ret := [], file := [], linenumber := 0 } c1).linenumber }
        c2).ret := by
  unfold Finalize
  rw [finalizeLoop_append, finalizeLoop_ret c2]

/-- A line of a known language leaves its provenance in `file` and
`linenumber`. -/
theorem finalizeStep_known (s : FinalizeState) (l : CodeLine) (h : knownFormat l.lang = true) :
    (finalizeStep s l).file = l.file ∧ (finalizeStep s l).linenumber = l.number := by
  obtain ⟨d, hd⟩ := directive_isSome_of_known l h
  unfold finalizeStep
  by_cases hc : wrapInt (s.linenumber + 1) ≠ l.number ∨ s.file ≠ l.file
  · simp [if_pos hc, hd]
  · simp [if_neg hc]

theorem wrapInt_succ_of_numbered (q : CodeLine) (n : Int) (hq : numbered q)
    (hn : 1 ≤ n ∧ n < 9223372036854775808) :
    wrapInt (q.number + 1) ≠ n ↔ n ≠ q.number + 1 := by
  unfold numbered at hq
  unfold wrapInt
  omega

theorem wrapInt_one : wrapInt (0 + 1) = 1 := by
  unfold wrapInt
  omega

/-- What one iteration appends to `ret` ends with the text of the line. -/
theorem finalizeStep_ret_text (s : FinalizeState) (l : CodeLine) :
    ∃ head, (finalizeStep s l).ret = s.ret ++ head ++ l.text := by
  unfold finalizeStep
  by_cases hc : wrapInt (s.linenumber + 1) ≠ l.number ∨ s.file ≠ l.file
  · rw [if_pos hc]
    cases directive l with
    | none => exact ⟨[], by simp⟩
    | some d => exact ⟨d, by simp⟩
  · rw [if_neg hc]
    exact ⟨[], by simp⟩

/-- Lines of languages without a directive format that are discontinuous
against the tracked provenance are emitted as they are, and the tracked
provenance stays. -/
theorem finalizeLoop_silent (c : CodeBlock) : ∀ s : FinalizeState,
    (∀ l ∈ c, knownFormat l.lang = false ∧
      (wrapInt (s.linenumber + 1) ≠ l.number ∨ s.file ≠ l.file)) →
    finalizeLoop s c = { s with ret := s.ret ++ texts c } := by
  induction c with
  | nil => intro s _; simp [finalizeLoop_nil, texts]
  | cons l c ih =>
    intro s h
    obtain ⟨hk, hd⟩ := h l (List.mem_cons_self l c)
    have hstep : finalizeStep s l = { s with ret := s.ret ++ l.text } := by
      unfold finalizeStep
      rw [if_pos hd, (directive_eq_none_iff l).mpr hk]
    rw [finalizeLoop_cons, hstep, ih]
    · simp [texts]
    · intro l2 hl2
      exact h l2 (List.mem_cons_of_mem l hl2)

/-- Lines that continue the tracked provenance, each numbered one more than
the line before it and from the same document, are emitted as they are. -/
theorem finalizeLoop_contiguous (c : CodeBlock) : ∀ (q : CodeLine) (s : FinalizeState),
    s.file = q.file → s.linenumber = q.number →
    List.Chain (fun a b : CodeLine => b.number = a.number + 1) q c →
    (∀ l ∈ c, l.file = q.file ∧ numbered l) →
    (finalizeLoop s c).ret = s.ret ++ texts c := by
  induction c with
  | nil => intro q s _ _ _ _; simp [finalizeLoop_nil, texts]
  | cons l c ih =>
    intro q s hf hn hchain hall
    obtain ⟨hfl, hnum⟩ := hall l (List.mem_cons_self l c)
    have hql : l.number = q.number + 1 := (List.chain_cons.mp hchain).1
    have hcont : ¬(wrapInt (s.linenumber + 1) ≠ l.number ∨ s.file ≠ l.file) := by
      unfold numbered at hnum
      rintro (h | h)
      · apply h
        rw [hn]
        unfold wrapInt
        omega
      · exact h (by rw [hf, hfl])
    have hstep : finalizeStep s l
        = { ret := s.ret ++ l.text, file := l.file, linenumber := l.number } := by
      unfold finalizeStep
      rw [if_neg hcont]
    rw [finalizeLoop_cons, hstep, ih l _ rfl rfl (List.chain_cons.mp hchain).2]
    · simp [texts]
    · intro l2 hl2
      obtain ⟨h1, h2⟩ := hall l2 (List.mem_cons_of_mem l hl2)
      exact ⟨by rw [h1, hfl], h2⟩

/-- A block without reference lines expands to its lines, each with the prefix
in front of its text unless it is blank. -/
theorem replaceLoop_no_reference (blocks : BlockName → Option CodeBlock)
    (recurse : CodeBlock → Str → Option CodeBlock) (pre : Str) (c : CodeBlock)
    (h : ∀ v ∈ c, replaceRe v.text = none) :
    replaceLoop blocks recurse pre c =
      some (c.map fun v => if v.text ≠ ['\n'] then { v with text := pre ++ v.text } else v) := by
  induction c with
  | nil => simp [replaceLoop]
  | cons v c ih =>
    rw [replaceLoop_cons_literal _ _ _ _ _ (h v (List.mem_cons_self v c)),
      ih (fun u hu => h u (List.mem_cons_of_mem v hu))]
    simp

theorem Replace_no_reference_empty_prefix (blocks : BlockName → Option CodeBlock) (fuel : Nat)
    (c : CodeBlock) (h : ∀ v ∈ c, replaceRe v.text = none) :
    Replace blocks (fuel + 1) c [] = some c := by
  rw [Replace_succ, replaceLoop_no_reference _ _ _ _ h]
  have hid : (fun v : CodeLine => if v.text ≠ ['\n'] then { v with text := [] ++ v.text } else v)
      = id := by
    funext v
    by_cases hv : v.text ≠ ['\n'] <;> simp [hv]
  rw [hid, List.map_id]

/-! ## Claims about `CodeBlock.Finalize` -/

/-- C5, as stated, fails: a block of one line of language go, line 3 of
`a.md`, has no reference and trivially consecutive numbers, and is rendered
with a directive in front of its text. -/
theorem C5_counterexample :
    Replace (fun _ => none) 1 [⟨"x\n".toList, "a.md".toList, "go".toList, 3⟩] []
      = some [⟨"x\n".toList, "a.md".toList, "go".toList, 3⟩] ∧
    Finalize [⟨"x\n".toList, "a.md".toList, "go".toList, 3⟩] = "//line a.md:3\nx\n".toList ∧
    Finalize [⟨"x\n".toList, "a.md".toList, "go".toList, 3⟩] ≠ "x\n".toList := by
  decide

/-- C5, amended: for a block without reference lines whose lines all come from
one document `d` with consecutive line numbers, where `d` is not the empty
name or no line is numbered 1, `Replace("")` returns the block and `Finalize`
of it is the concatenation of the line texts in order with exactly one
directive inserted, in front of the first line whose language has a directive
format; when no line has such a language nothing is inserted. -/
theorem C5_contiguous_block_rendered_with_one_directive
    (blocks : BlockName → Option CodeBlock) (fuel : Nat) (c : CodeBlock) (d : File)
    (hnoref : ∀ v ∈ c, replaceRe v.text = none)
    (hdoc : ∀ v ∈ c, v.file = d)
    (hconsec : List.Chain' (fun a b : CodeLine => b.number = a.number + 1) c)
    (hnum : ∀ v ∈ c, numbered v)
    (hfirst : d ≠ [] ∨ ∀ v ∈ c, v.number ≠ 1) :
    ∃ r, Replace blocks (fuel + 1) c [] = some r ∧
      Finalize r = texts (c.takeWhile fun l => !knownFormat l.lang) ++
        match c.dropWhile fun l => !knownFormat l.lang with
        | [] => []
        | l :: rest => (directive l).getD [] ++ l.text ++ texts rest := by
  refine ⟨c, Replace_no_reference_empty_prefix blocks fuel c hnoref, ?_⟩
  have hsplit := List.takeWhile_append_dropWhile (fun l : CodeLine => !knownFormat l.lang) c
  have hsuffix := List.dropWhile_suffix (l := c) (fun l : CodeLine => !knownFormat l.lang)
  have hhead := List.head?_dropWhile_not (fun l : CodeLine => !knownFormat l.lang) c
  have hdisc : ∀ l ∈ c, wrapInt ((0 : Int) + 1) ≠ l.number ∨ ([] : File) ≠ l.file := by
    intro l hl
    rw [wrapInt_one]
    rcases hfirst with h | h
    · right
      rw [hdoc l hl]
      exact fun e => h e.symm
    · left
      exact fun e => h l hl e.symm
  have hfront : finalizeLoop { ret := [], file := [], linenumber := 0 }
      (c.takeWhile fun l => !knownFormat l.lang)
      = { ret := texts (c.takeWhile fun l => !knownFormat l.lang), file := [],
          linenumber := 0 } := by
    rw [finalizeLoop_silent]
    · simp
    · intro l hl
      have hp := List.mem_takeWhile_imp hl
      exact ⟨by simpa using hp, hdisc l ((List.takeWhile_prefix _).subset hl)⟩
  have hfin : Finalize c = (finalizeLoop
      (finalizeLoop { ret := [], file := [], linenumber := 0 }
        (c.takeWhile fun l => !knownFormat l.lang))
      (c.dropWhile fun l => !knownFormat l.lang)).ret := by
    rw [← finalizeLoop_append, hsplit]
    rfl
  rw [hfin, hfront]
  cases hdw : c.dropWhile (fun l => !knownFormat l.lang) with
  | nil => simp [finalizeLoop_nil]
  | cons l rest =>
    rw [hdw] at hhead hsuffix
    have hlmem : l ∈ c := hsuffix.subset (List.mem_cons_self l rest)
    have hknown : knownFormat l.lang = true := by simpa using hhead
    obtain ⟨dir, hdir⟩ := directive_isSome_of_known l hknown
    have hstep : finalizeStep
        { ret := texts (c.takeWhile fun l => !knownFormat l.lang), file := [], linenumber := 0 } l
        = { ret := texts (c.takeWhile fun l => !knownFormat l.lang) ++ dir ++ l.text,
            file := l.file, linenumber := l.number } := by
      unfold finalizeStep
      rw [if_pos (hdisc l hlmem), hdir]
    have hchain : List.Chain (fun a b : CodeLine => b.number = a.number + 1) l rest :=
      hconsec.suffix hsuffix
    rw [finalizeLoop_cons, hstep, finalizeLoop_contiguous rest l _ rfl rfl hchain]
    · simp [hdir]
    · intro l2 hl2
      have hmem : l2 ∈ c := hsuffix.subset (List.mem_cons_of_mem l hl2)
      exact ⟨by rw [hdoc l2 hmem, hdoc l hlmem], hnum l2 hmem⟩

/-- C5 amended, at a concrete input: lines 4 to 6 of `a.md`, the first in a
fence without language, the others in language go. -/
theorem C5_witness :
    ∃ r, Replace (fun _ => none) 1
        [⟨"x\n".toList, "a.md".toList, [], 4⟩, ⟨"y\n".toList, "a.md".toList, "go".toList, 5⟩,
          ⟨"z\n".toList, "a.md".toList, "go".toList, 6⟩] [] = some r ∧
      Finalize r = "x\n//line a.md:5\ny\nz\n".toList := by
  obtain ⟨r, hr, hfin⟩ := C5_contiguous_block_rendered_with_one_directive (fun _ => none) 0
    [⟨"x\n".toList, "a.md".toList, [], 4⟩, ⟨"y\n".toList, "a.md".toList, "go".toList, 5⟩,
      ⟨"z\n".toList, "a.md".toList, "go".toList, 6⟩] "a.md".toList
    (by decide) (by decide) (by simp) (by decide) (Or.inl (by decide))
  exact ⟨r, hr, hfin.trans (by decide)⟩

/-- The provenance tracked after a block whose last line has a known
language is the provenance of that line. -/
theorem finalizeLoop_tracked_of_last_known (s : FinalizeState) (pre : CodeBlock) (q : CodeLine)
    (hq : knownFormat q.lang = true) :
    (finalizeLoop s (pre ++ [q])).file = q.file ∧
      (finalizeLoop s (pre ++ [q])).linenumber = q.number := by
  rw [finalizeLoop_append, finalizeLoop_cons, finalizeLoop_nil]
  exact finalizeStep_known _ q hq

/-- What one iteration emits from a tracked provenance that is the provenance
of a numbered line `q`. -/
theorem finalizeStep_after (q l : CodeLine) (hq : numbered q) (hl : numbered l) :
    (finalizeStep { ret := [], file := q.file, linenumber := q.number } l).ret =
      (if knownFormat l.lang = true ∧ (l.number ≠ q.number + 1 ∨ l.file ≠ q.file) then
        (directive l).getD [] else []) ++ l.text := by
  have hiff := wrapInt_succ_of_numbered q l.number hq hl
  unfold finalizeStep
  by_cases hc : wrapInt (q.number + 1) ≠ l.number ∨ q.file ≠ l.file
  · have hc2 : l.number ≠ q.number + 1 ∨ l.file ≠ q.file := by
      rcases hc with h | h
      · exact Or.inl (hiff.mp h)
      · exact Or.inr (fun e => h e.symm)
    rw [if_pos hc]
    cases hk : knownFormat l.lang with
    | false => simp [(directive_eq_none_iff l).mpr hk]
    | true =>
      obtain ⟨dir, hdir⟩ := directive_isSome_of_known l hk
      simp [hdir, hc2]
  · have hc2 : ¬(l.number ≠ q.number + 1 ∨ l.file ≠ q.file) := by
      rintro (h | h)
      · exact hc (Or.inl (hiff.mpr h))
      · exact hc (Or.inr (fun e => h e.symm))
    rw [if_neg hc]
    simp [hc2]

/-- C6, as stated, fails twice. A line of language go that continues the line
before it (line 6 after line 5 of `a.md`) gets a directive when the line
before it has no directive format; and a first line of language go gets no
directive when it is line 1 of the document with the empty name. -/
theorem C6_counterexample :
    Finalize [⟨"x\n".toList, "a.md".toList, [], 5⟩, ⟨"y\n".toList, "a.md".toList, "go".toList, 6⟩]
      = "x\n".toList ++ "//line a.md:6\n".toList ++ "y\n".toList ∧
    Finalize [⟨"x\n".toList, [], "go".toList, 1⟩] = "x\n".toList := by
  decide

/-- One iteration from a state that holds the provenance of the line compared
with: what it emits, and the line compared with after it. -/
theorem finalizeStep_compared (s : FinalizeState) (t : Option CodeLine) (l : CodeLine)
    (ht : tracks s t) (hl : numbered l) :
    (finalizeStep s l).ret = s.ret ++
        (if knownFormat l.lang = true ∧ discontinuous t l then (directive l).getD [] else [])
        ++ l.text ∧
      tracks (finalizeStep s l)
        (if knownFormat l.lang = false ∧ discontinuous t l then t else some l) := by
  have hcond : (wrapInt (s.linenumber + 1) ≠ l.number ∨ s.file ≠ l.file) ↔
      discontinuous t l := by
    cases t with
    | none =>
      obtain ⟨hf, hn⟩ := ht
      rw [hf, hn, wrapInt_one]
      unfold discontinuous
      constructor
      · rintro (h | h)
        · exact Or.inl (fun e => h e.symm)
        · exact Or.inr (fun e => h e.symm)
      · rintro (h | h)
        · exact Or.inl (fun e => h e.symm)
        · exact Or.inr (fun e => h e.symm)
    | some q =>
      obtain ⟨hf, hn, hq⟩ := ht
      have hiff := wrapInt_succ_of_numbered q l.number hq hl
      rw [hf, hn]
      unfold discontinuous
      constructor
      · rintro (h | h)
        · exact Or.inl (hiff.mp h)
        · exact Or.inr (fun e => h e.symm)
      · rintro (h | h)
        · exact Or.inl (hiff.mpr h)
        · exact Or.inr (fun e => h e.symm)
  have hself : tracks { ret := s.ret ++ l.text, file := l.file, linenumber := l.number }
      (some l) := ⟨rfl, rfl, hl⟩
  unfold finalizeStep
  by_cases hd : discontinuous t l
  · rw [if_pos (hcond.mpr hd)]
    cases hk : knownFormat l.lang with
    | false =>
      rw [(directive_eq_none_iff l).mpr hk]
      refine ⟨by simp, ?_⟩
      rw [if_pos ⟨rfl, hd⟩]
      cases t with
      | none => exact ht
      | some q => exact ht
    | true =>
      obtain ⟨dir, hdir⟩ := directive_isSome_of_known l hk
      rw [hdir]
      refine ⟨by simp [hd], ?_⟩
      rw [if_neg (fun h => absurd h.1 (by simp))]
      exact ⟨rfl, rfl, hl⟩
  · rw [if_neg (fun h => hd (hcond.mp h))]
    refine ⟨by simp [hd], ?_⟩
    rw [if_neg (fun h => hd h.2)]
    exact ⟨rfl, rfl, hl⟩

/-- After the loop over lines with positive numbers the state holds the
provenance of the line compared with. -/
theorem finalizeLoop_compared (c : CodeBlock) :
    ∀ (s : FinalizeState) (t : Option CodeLine), tracks s t → (∀ x ∈ c, numbered x) →
      tracks (finalizeLoop s c) (comparedLine t c) := by
  induction c with
  | nil => intro s t ht _; exact ht
  | cons l c ih =>
    intro s t ht hnum
    rw [finalizeLoop_cons]
    exact ih _ _ (finalizeStep_compared s t l ht (hnum l (List.mem_cons_self l c))).2
      (fun x hx => hnum x (List.mem_cons_of_mem l hx))

theorem comparedLine_append (a b : CodeBlock) :
    ∀ t : Option CodeLine, comparedLine t (a ++ b) = comparedLine (comparedLine t a) b := by
  induction a with
  | nil => intro t; rfl
  | cons l a ih => intro t; exact ih _

/-- C6, amended: for every block whose lines have positive line numbers and
every position in it, `Finalize` emits a directive immediately before the text
of the line at that position if and only if the language of the line has a
directive format and the line is discontinuous against the line compared with:
there is none and the line is not line 1 of the document with the empty name,
or its number is not the number of the line compared with plus one, or its
document is not the document of that line. The line compared with is the
immediately preceding line of the block, whatever its language, unless that
line has no directive format and was itself discontinuous: such a line is
passed over, and the comparison is with the line compared with before it. What
is emitted up to the line does not depend on the lines after it. -/
theorem C6_directive_iff_known_format_and_discontinuous
    (pre post : CodeBlock) (l : CodeLine)
    (hpre : ∀ x ∈ pre, numbered x) (hl : numbered l) :
    Finalize (pre ++ [l]) =
        Finalize pre ++
          (if knownFormat l.lang = true ∧ discontinuous (comparedLine none pre) l then
            (directive l).getD [] else []) ++ l.text ∧
      (∃ rest, Finalize (pre ++ l :: post) = Finalize (pre ++ [l]) ++ rest) ∧
      ((pre = [] ∨ ∃ pre1 q, pre = pre1 ++ [q] ∧
          ¬(knownFormat q.lang = false ∧ discontinuous (comparedLine none pre1) q)) →
        comparedLine none pre = pre.getLast?) ∧
      (∀ pre1 q, pre = pre1 ++ [q] → knownFormat q.lang = false →
        discontinuous (comparedLine none pre1) q →
        comparedLine none pre = comparedLine none pre1) := by
  refine ⟨?_, ?_, ?_, ?_⟩
  · have htr := finalizeLoop_compared pre { ret := [], file := [], linenumber := 0 } none
      ⟨rfl, rfl⟩ hpre
    have hstep := (finalizeStep_compared _ _ l htr hl).1
    unfold Finalize
    rw [finalizeLoop_append, finalizeLoop_cons, finalizeLoop_nil, hstep]
  · have e : pre ++ l :: post = (pre ++ [l]) ++ post := by simp
    rw [e, Finalize_append]
    exact ⟨_, rfl⟩
  · rintro (h | ⟨pre1, q, h, hq⟩)
    · rw [h]; rfl
    · rw [h, comparedLine_append, List.getLast?_concat]
      simp only [comparedLine, if_neg hq]
  · intro pre1 q h hk hd
    rw [h, comparedLine_append]
    simp only [comparedLine, if_pos (And.intro hk hd)]

/-- C6 amended, at a concrete input: in `a.md`, line 5 in go, lines 20 and 21
without language, line 22 in go. Lines 20 and 21 are passed over, so line 22
is compared with line 5 and gets a directive; line 6 in go after line 5 gets
none. -/
theorem C6_witness :
    Finalize ([⟨"a\n".toList, "a.md".toList, "go".toList, 5⟩,
        ⟨"b\n".toList, "a.md".toList, [], 20⟩, ⟨"c\n".toList, "a.md".toList, [], 21⟩] ++
        [⟨"d\n".toList, "a.md".toList, "go".toList, 22⟩])
      = Finalize [⟨"a\n".toList, "a.md".toList, "go".toList, 5⟩,
          ⟨"b\n".toList, "a.md".toList, [], 20⟩, ⟨"c\n".toList, "a.md".toList, [], 21⟩] ++
          "//line a.md:22\n".toList ++ "d\n".toList ∧
    Finalize ([⟨"a\n".toList, "a.md".toList, "go".toList, 5⟩] ++
        [⟨"d\n".toList, "a.md".toList, "go".toList, 6⟩])
      = Finalize [⟨"a\n".toList, "a.md".toList, "go".toList, 5⟩] ++ [] ++ "d\n".toList :=
  ⟨(C6_directive_iff_known_format_and_discontinuous
      [⟨"a\n".toList, "a.md".toList, "go".toList, 5⟩,
        ⟨"b\n".toList, "a.md".toList, [], 20⟩, ⟨"c\n".toList, "a.md".toList, [], 21⟩] []
      ⟨"d\n".toList, "a.md".toList, "go".toList, 22⟩ (by decide) (by decide)).1.trans
      (by decide),
    (C6_directive_iff_known_format_and_discontinuous
      [⟨"a\n".toList, "a.md".toList, "go".toList, 5⟩] []
      ⟨"d\n".toList, "a.md".toList, "go".toList, 6⟩ (by decide) (by decide)).1.trans
      (by decide)⟩

/-- C7: for two adjacent lines `a`, `b` of a block that come from the same
document and whose languages have a directive format, wherever the pair stands
in the block, `Finalize` emits between the text of `a` and the text of `b`
exactly one directive, that of `b`, when the number of `b` is not the number
of `a` plus one, and nothing when it is. -/
theorem C7_adjacent_lines_of_one_document
    (pre post : CodeBlock) (a b : CodeLine)
    (ha : knownFormat a.lang = true) (hb : knownFormat b.lang = true)
    (hfile : a.file = b.file) (hna : numbered a) (hnb : numbered b) :
    ∃ head dir rest, directive b = some dir ∧
      Finalize (pre ++ [a]) = head ++ a.text ∧
      Finalize (pre ++ a :: b :: post) =
        head ++ a.text ++ (if b.number = a.number + 1 then [] else dir) ++ b.text ++ rest := by
  obtain ⟨dir, hdir⟩ := directive_isSome_of_known b hb
  obtain ⟨hf, hn⟩ := finalizeLoop_tracked_of_last_known
    { ret := [], file := [], linenumber := 0 } pre a ha
  obtain ⟨head, hhead⟩ := finalizeStep_ret_text
    (finalizeLoop { ret := [], file := [], linenumber := 0 } pre) a
  have hA : Finalize (pre ++ [a]) = (Finalize pre ++ head) ++ a.text := by
    unfold Finalize
    rw [finalizeLoop_append, finalizeLoop_cons, finalizeLoop_nil, hhead]
  obtain ⟨hbf, hbn⟩ := finalizeStep_known
    { ret := [], file := a.file, linenumber := a.number } b hb
  have hstep := finalizeStep_after a b hna hnb
  refine ⟨Finalize pre ++ head, dir,
    (finalizeLoop { ret := [], file := b.file, linenumber := b.number } post).ret, hdir, hA, ?_⟩
  have e : pre ++ a :: b :: post = (pre ++ [a]) ++ b :: post := by simp
  rw [e, Finalize_append, hf, hn, finalizeLoop_cons, finalizeLoop_ret post, hstep, hbf, hbn, hA,
    hdir]
  by_cases hc : b.number = a.number + 1
  · simp [hc, hb, hfile]
  · simp [hc, hb, hfile]

/-- C7, at a concrete input: lines 5 then 9 of `a.md` get one directive between
their texts, lines 5 then 6 get none. -/
theorem C7_witness :
    (∃ head rest,
      Finalize ([⟨"w\n".toList, "b.md".toList, "c".toList, 2⟩] ++
          [⟨"x\n".toList, "a.md".toList, "go".toList, 5⟩]) = head ++ "x\n".toList ∧
      Finalize ([⟨"w\n".toList, "b.md".toList, "c".toList, 2⟩] ++
          ⟨"x\n".toList, "a.md".toList, "go".toList, 5⟩ ::
          ⟨"y\n".toList, "a.md".toList, "go".toList, 9⟩ :: [])
        = head ++ "x\n".toList ++ "//line a.md:9\n".toList ++ "y\n".toList ++ rest) ∧
    (∃ head rest,
      Finalize ([⟨"w\n".toList, "b.md".toList, "c".toList, 2⟩] ++
          [⟨"x\n".toList, "a.md".toList, "go".toList, 5⟩]) = head ++ "x\n".toList ∧
      Finalize ([⟨"w\n".toList, "b.md".toList, "c".toList, 2⟩] ++
          ⟨"x\n".toList, "a.md".toList, "go".toList, 5⟩ ::
          ⟨"y\n".toList, "a.md".toList, "go".toList, 6⟩ :: [])
        = head ++ "x\n".toList ++ [] ++ "y\n".toList ++ rest) := by
  constructor
  · obtain ⟨head, dir, rest, hdir, h1, h2⟩ := C7_adjacent_lines_of_one_document
      [⟨"w\n".toList, "b.md".toList, "c".toList, 2⟩] []
      ⟨"x\n".toList, "a.md".toList, "go".toList, 5⟩ ⟨"y\n".toList, "a.md".toList, "go".toList, 9⟩
      (by decide) (by decide) (by decide) (by decide) (by decide)
    have hd : dir = "//line a.md:9\n".toList := by
      have h : directive ⟨"y\n".toList, "a.md".toList, "go".toList, 9⟩
          = some "//line a.md:9\n".toList := by decide
      rw [h] at hdir
      exact (Option.some.inj hdir).symm
    subst hd
    exact ⟨head, rest, h1, h2⟩
  · obtain ⟨head, dir, rest, _, h1, h2⟩ := C7_adjacent_lines_of_one_document
      [⟨"w\n".toList, "b.md".toList, "c".toList, 2⟩] []
      ⟨"x\n".toList, "a.md".toList, "go".toList, 5⟩ ⟨"y\n".toList, "a.md".toList, "go".toList, 6⟩
      (by decide) (by decide) (by decide) (by decide) (by decide)
    exact ⟨head, rest, h1, h2⟩

/-- C8: a block of its one line with text `t`, document `d`, line number `n`
and language `L`, where `d` is non-empty or `n` is not 1, is rendered as
`"//line "`, `d`, `":"`, the decimal digits of `n`, a newline and `t` when `L`
is go or golang; as `"#line "`, the decimal digits of `n`, a space, `d` in
double quotes, a newline and `t` when `L` is c, C or cpp; and as `t` alone for
every other language. -/
theorem C8_single_line_directive_forms (t : Str) (d : File) (L : language) (n : Int)
    (h : d ≠ [] ∨ n ≠ 1) :
    ((L = "go".toList ∨ L = "golang".toList) →
      Finalize [⟨t, d, L, n⟩] = "//line ".toList ++ d ++ ":".toList ++ decimal n ++ "\n".toList ++ t) ∧
    ((L = "c".toList ∨ L = "C".toList ∨ L = "cpp".toList) →
      Finalize [⟨t, d, L, n⟩]
        = "#line ".toList ++ decimal n ++ " \"".toList ++ d ++ "\"\n".toList ++ t) ∧
    (¬(L = "go".toList ∨ L = "golang".toList ∨ L = "c".toList ∨ L = "C".toList ∨
        L = "cpp".toList) →
      Finalize [⟨t, d, L, n⟩] = t) := by
  have hc : wrapInt ((0 : Int) + 1) ≠ n ∨ ([] : File) ≠ d := by
    rw [wrapInt_one]
    rcases h with h | h
    · exact Or.inr (fun e => h e.symm)
    · exact Or.inl (fun e => h e.symm)
  have hfin : Finalize [⟨t, d, L, n⟩] =
      match directive ⟨t, d, L, n⟩ with
      | none => t
      | some dir => dir ++ t := by
    unfold Finalize
    rw [finalizeLoop_cons, finalizeLoop_nil]
    unfold finalizeStep
    rw [if_pos hc]
    cases directive ⟨t, d, L, n⟩ <;> simp
  refine ⟨?_, ?_, ?_⟩
  · intro hL
    have hd : directive ⟨t, d, L, n⟩ = some (goDirective n d) := by
      unfold directive
      rw [if_pos hL]
    rw [hfin, hd]
    simp [goDirective]
  · intro hL
    have hno : ¬(L = "go".toList ∨ L = "golang".toList) := by
      rcases hL with h1 | h1 | h1 <;> subst h1 <;> decide
    have hL2 : L = "C".toList ∨ L = "c".toList ∨ L = "cpp".toList := by
      rcases hL with h1 | h1 | h1
      · exact Or.inr (Or.inl h1)
      · exact Or.inl h1
      · exact Or.inr (Or.inr h1)
    have hd : directive ⟨t, d, L, n⟩ = some (cDirective n d) := by
      unfold directive
      rw [if_neg hno, if_pos hL2]
    rw [hfin, hd]
    simp [cDirective]
  · intro hL
    have hd : directive ⟨t, d, L, n⟩ = none := by
      unfold directive
      rw [if_neg (fun h1 => hL (by tauto)), if_neg (fun h1 => hL (by tauto))]
    rw [hfin, hd]

/-- C8, at a concrete input: line 42 of `doc.md` in language go, in language
cpp and in language python. -/
theorem C8_witness :
    Finalize [⟨"x := 1\n".toList, "doc.md".toList, "go".toList, 42⟩]
      = "//line doc.md:42\nx := 1\n".toList ∧
    Finalize [⟨"x := 1\n".toList, "doc.md".toList, "cpp".toList, 42⟩]
      = "#line 42 \"doc.md\"\nx := 1\n".toList ∧
    Finalize [⟨"x := 1\n".toList, "doc.md".toList, "python".toList, 42⟩] = "x := 1\n".toList :=
  ⟨((C8_single_line_directive_forms "x := 1\n".toList "doc.md".toList "go".toList 42
      (Or.inl (by decide))).1 (Or.inl rfl)).trans (by decide),
    ((C8_single_line_directive_forms "x := 1\n".toList "doc.md".toList "cpp".toList 42
      (Or.inl (by decide))).2.1 (Or.inr (Or.inr rfl))).trans (by decide),
    (C8_single_line_directive_forms "x := 1\n".toList "doc.md".toList "python".toList 42
      (Or.inl (by decide))).2.2 (by decide)⟩

/-! ## `ProcessFile`: the loop -/

theorem scanLoop_nil (st : ScanState) : scanLoop st [] = st := rfl

theorem scanLoop_cons (st : ScanState) (text : Str) (lines : List Str) :
    scanLoop st (text :: lines) = scanLoop (scanLine st text) lines := rfl

theorem scanLoop_append (st : ScanState) (l1 l2 : List Str) :
    scanLoop st (l1 ++ l2) = scanLoop (scanLoop st l1) l2 := by
  simp [scanLoop, List.foldl_append]

/-- An iteration outside a fence leaves the maps as they are and closes no fence. -/
theorem scanLine_outside (st : ScanState) (text : Str) (h : st.inBlock = false) :
    (scanLine st text).reg = st.reg := by
  unfold scanLine
  simp only [h]
  cases blockStartRe text <;> simp

/-- An iteration inside a fence on a line that is no closing fence leaves the
maps as they are and stays inside. -/
theorem scanLine_content (st : ScanState) (text : Str) (h : st.inBlock = true)
    (hc : isFenceClose (TrimPrefix text st.blockPrefix) = false) :
    scanLine st text =
      { st with
        line := ⟨TrimPrefix text st.blockPrefix, st.line.file, st.line.lang,
          wrapInt (st.line.number + 1)⟩,
        block := st.block ++ [⟨TrimPrefix text st.blockPrefix, st.line.file, st.line.lang,
          wrapInt (st.line.number + 1)⟩] } := by
  unfold scanLine
  simp [h, hc]

/-- An iteration inside a fence on a closing fence line appends the collected
lines under the target path and under the block name, when there is one, and
leaves the fence. -/
theorem scanLine_close (st : ScanState) (text : Str) (h : st.inBlock = true)
    (hc : isFenceClose (TrimPrefix text st.blockPrefix) = true) :
    (scanLine st text).inBlock = false ∧
    (scanLine st text).reg.files =
      (if st.fname ≠ [] then appendAt st.reg.files st.fname st.block else st.reg.files) ∧
    (scanLine st text).reg.blocks =
      (if st.bname ≠ [] then appendAt st.reg.blocks st.bname st.block else st.reg.blocks) := by
  unfold scanLine
  simp [h, hc]

theorem closedFences_cons (st : ScanState) (text : Str) (lines : List Str) :
    closedFences st (text :: lines) =
      (if st.inBlock = true ∧ (scanLine st text).inBlock = false then
        [{ fname := st.fname, bname := st.bname, block := st.block }] else []) ++
      closedFences (scanLine st text) lines := rfl

theorem linesForFile_of_not_registers (k : Str) (fs : List ClosedFence)
    (h : ¬registersFile k fs = true) : linesForFile k fs = [] := by
  induction fs with
  | nil => rfl
  | cons f fs ih =>
    simp only [registersFile, List.any_cons, Bool.or_eq_true, not_or] at h
    have h1 : ¬(f.fname = k ∧ f.fname ≠ []) := by
      intro hk
      apply h.1
      rw [Bool.and_eq_true]
      exact ⟨decide_eq_true hk.1, decide_eq_true hk.2⟩
    simp only [linesForFile, if_neg h1, List.nil_append]
    exact ih h.2

theorem linesForFile_append (k : Str) (a b : List ClosedFence) :
    linesForFile k (a ++ b) = linesForFile k a ++ linesForFile k b := by
  induction a with
  | nil => rfl
  | cons f fs ih => simp [linesForFile, ih]

theorem registersFile_append (k : Str) (a b : List ClosedFence) :
    registersFile k (a ++ b) = (registersFile k a || registersFile k b) := by
  simp [registersFile, List.any_append]

/-- What one iteration does to the value of `files` at the key `k`. -/
theorem scanLine_files (st : ScanState) (text : Str) (k : Str) :
    (scanLine st text).reg.files k =
      if (st.inBlock = true ∧ (scanLine st text).inBlock = false) ∧
          st.fname = k ∧ st.fname ≠ [] then
        some ((st.reg.files k).getD [] ++ st.block)
      else st.reg.files k := by
  cases hin : st.inBlock with
  | false => simp [scanLine_outside st text hin]
  | true =>
    cases hc : isFenceClose (TrimPrefix text st.blockPrefix) with
    | false =>
      rw [scanLine_content st text hin hc]
      simp [hin]
    | true =>
      obtain ⟨h1, h2, h3⟩ := scanLine_close st text hin hc
      rw [h2, h1]
      by_cases hne : st.fname = []
      · simp [hne]
      · by_cases hk : st.fname = k
        · subst hk
          simp [hne, appendAt]
        · have hk2 : ¬k = st.fname := fun e => hk e.symm
          simp [hne, hk, hk2, appendAt]

/-- The value of `files` at a key after the loop: the value before, followed
by the lines of the fences closed under that key. -/
theorem scanLoop_files (lines : List Str) : ∀ (st : ScanState) (k : Str),
    (scanLoop st lines).reg.files k =
      if registersFile k (closedFences st lines) = true then
        some ((st.reg.files k).getD [] ++ linesForFile k (closedFences st lines))
      else st.reg.files k := by
  induction lines with
  | nil => intro st k; simp [scanLoop_nil, closedFences, registersFile]
  | cons text lines ih =>
    intro st k
    rw [scanLoop_cons, closedFences_cons, registersFile_append, linesForFile_append,
      ih (scanLine st text) k]
    by_cases hclose : st.inBlock = true ∧ (scanLine st text).inBlock = false
    · have hev : (if st.inBlock = true ∧ (scanLine st text).inBlock = false then
          [({ fname := st.fname, bname := st.bname, block := st.block } : ClosedFence)]
          else []) = [{ fname := st.fname, bname := st.bname, block := st.block }] :=
        if_pos hclose
      by_cases hk : st.fname = k ∧ st.fname ≠ []
      · have hstep : (scanLine st text).reg.files k
            = some ((st.reg.files k).getD [] ++ st.block) := by
          rw [scanLine_files]
          exact if_pos ⟨hclose, hk⟩
        have hreg : registersFile k
            [{ fname := st.fname, bname := st.bname, block := st.block }] = true := by
          simp only [registersFile, List.any_cons, List.any_nil, Bool.or_false]
          rw [Bool.and_eq_true]
          exact ⟨decide_eq_true hk.1, decide_eq_true hk.2⟩
        have hlines : linesForFile k
            [{ fname := st.fname, bname := st.bname, block := st.block }] = st.block := by
          simp only [linesForFile, if_pos hk, List.append_nil]
        rw [hstep, hev, hreg, hlines]
        by_cases hr : registersFile k (closedFences (scanLine st text) lines) = true
        · simp [hr]
        · simp [hr, linesForFile_of_not_registers k _ hr]
      · have hstep : (scanLine st text).reg.files k = st.reg.files k := by
          rw [scanLine_files]
          exact if_neg (fun h => hk h.2)
        have hreg : registersFile k
            [{ fname := st.fname, bname := st.bname, block := st.block }] = false := by
          simp only [registersFile, List.any_cons, List.any_nil, Bool.or_false]
          rw [Bool.and_eq_false_iff]
          by_cases h1 : st.fname = k
          · right
            exact decide_eq_false (fun h2 => hk ⟨h1, h2⟩)
          · left
            exact decide_eq_false h1
        have hlines : linesForFile k
            [{ fname := st.fname, bname := st.bname, block := st.block }] = [] := by
          simp only [linesForFile, if_neg hk, List.append_nil]
        rw [hstep, hev, hreg, hlines]
        simp
    · have hev : (if st.inBlock = true ∧ (scanLine st text).inBlock = false then
          [({ fname := st.fname, bname := st.bname, block := st.block } : ClosedFence)]
          else []) = [] :=
        if_neg hclose
      have hstep : (scanLine st text).reg.files k = st.reg.files k := by
        rw [scanLine_files]
        exact if_neg (fun h => hclose h.1)
      rw [hstep, hev]
      simp [registersFile, linesForFile]

theorem linesForName_of_not_registers (k : Str) (fs : List ClosedFence)
    (h : ¬registersName k fs = true) : linesForName k fs = [] := by
  induction fs with
  | nil => rfl
  | cons f fs ih =>
    simp only [registersName, List.any_cons, Bool.or_eq_true, not_or] at h
    have h1 : ¬(f.bname = k ∧ f.bname ≠ []) := by
      intro hk
      apply h.1
      rw [Bool.and_eq_true]
      exact ⟨decide_eq_true hk.1, decide_eq_true hk.2⟩
    simp only [linesForName, if_neg h1, List.nil_append]
    exact ih h.2

theorem linesForName_append (k : Str) (a b : List ClosedFence) :
    linesForName k (a ++ b) = linesForName k a ++ linesForName k b := by
  induction a with
  | nil => rfl
  | cons f fs ih => simp [linesForName, ih]

theorem registersName_append (k : Str) (a b : List ClosedFence) :
    registersName k (a ++ b) = (registersName k a || registersName k b) := by
  simp [registersName, List.any_append]

/-- What one iteration does to the value of `blocks` at the key `k`. -/
theorem scanLine_blocks (st : ScanState) (text : Str) (k : Str) :
    (scanLine st text).reg.blocks k =
      if (st.inBlock = true ∧ (scanLine st text).inBlock = false) ∧
          st.bname = k ∧ st.bname ≠ [] then
        some ((st.reg.blocks k).getD [] ++ st.block)
      else st.reg.blocks k := by
  cases hin : st.inBlock with
  | false => simp [scanLine_outside st text hin]
  | true =>
    cases hc : isFenceClose (TrimPrefix text st.blockPrefix) with
    | false =>
      rw [scanLine_content st text hin hc]
      simp [hin]
    | true =>
      obtain ⟨h1, h2, h3⟩ := scanLine_close st text hin hc
      rw [h3, h1]
      by_cases hne : st.bname = []
      · simp [hne]
      · by_cases hk : st.bname = k
        · subst hk
          simp [hne, appendAt]
        · have hk2 : ¬k = st.bname := fun e => hk e.symm
          simp [hne, hk, hk2, appendAt]

/-- The value of `blocks` at a key after the loop: the value before, followed
by the lines of the fences closed under that key. -/
theorem scanLoop_blocks (lines : List Str) : ∀ (st : ScanState) (k : Str),
    (scanLoop st lines).reg.blocks k =
      if registersName k (closedFences st lines) = true then
        some ((st.reg.blocks k).getD [] ++ linesForName k (closedFences st lines))
      else st.reg.blocks k := by
  induction lines with
  | nil => intro st k; simp [scanLoop_nil, closedFences, registersName]
  | cons text lines ih =>
    intro st k
    rw [scanLoop_cons, closedFences_cons, registersName_append, linesForName_append,
      ih (scanLine st text) k]
    by_cases hclose : st.inBlock = true ∧ (scanLine st text).inBlock = false
    · have hev : (if st.inBlock = true ∧ (scanLine st text).inBlock = false then
          [({ fname := st.fname, bname := st.bname, block := st.block } : ClosedFence)]
          else []) = [{ fname := st.fname, bname := st.bname, block := st.block }] :=
        if_pos hclose
      by_cases hk : st.bname = k ∧ st.bname ≠ []
      · have hstep : (scanLine st text).reg.blocks k
            = some ((st.reg.blocks k).getD [] ++ st.block) := by
          rw [scanLine_blocks]
          exact if_pos ⟨hclose, hk⟩
        have hreg : registersName k
            [{ fname := st.fname, bname := st.bname, block := st.block }] = true := by
          simp only [registersName, List.any_cons, List.any_nil, Bool.or_false]
          rw [Bool.and_eq_true]
          exact ⟨decide_eq_true hk.1, decide_eq_true hk.2⟩
        have hlines : linesForName k
            [{ fname := st.fname, bname := st.bname, block := st.block }] = st.block := by
          simp only [linesForName, if_pos hk, List.append_nil]
        rw [hstep, hev, hreg, hlines]
        by_cases hr : registersName k (closedFences (scanLine st text) lines) = true
        · simp [hr]
        · simp [hr, linesForName_of_not_registers k _ hr]
      · have hstep : (scanLine st text).reg.blocks k = st.reg.blocks k := by
          rw [scanLine_blocks]
          exact if_neg (fun h => hk h.2)
        have hreg : registersName k
            [{ fname := st.fname, bname := st.bname, block := st.block }] = false := by
          simp only [registersName, List.any_cons, List.any_nil, Bool.or_false]
          rw [Bool.and_eq_false_iff]
          by_cases h1 : st.bname = k
          · right
            exact decide_eq_false (fun h2 => hk ⟨h1, h2⟩)
          · left
            exact decide_eq_false h1
        have hlines : linesForName k
            [{ fname := st.fname, bname := st.bname, block := st.block }] = [] := by
          simp only [linesForName, if_neg hk, List.append_nil]
        rw [hstep, hev, hreg, hlines]
        simp
    · have hev : (if st.inBlock = true ∧ (scanLine st text).inBlock = false then
          [({ fname := st.fname, bname := st.bname, block := st.block } : ClosedFence)]
          else []) = [] :=
        if_neg hclose
      have hstep : (scanLine st text).reg.blocks k = st.reg.blocks k := by
        rw [scanLine_blocks]
        exact if_neg (fun h => hclose h.1)
      rw [hstep, hev]
      simp [registersName, linesForName]

/-! ## Claims about `ProcessFile` -/

/-- C9: `ProcessFile` only appends to the registry. For every target path and
every block name, the value of `files` and of `blocks` after scanning a
document is the value before the scan followed by the lines of the fences of
the document that were closed and registered under that key, in the order the
fences are met; a key under which no fence is registered keeps its value. So
two fenced regions of a document that both target `out.go` leave
`files["out.go"]` equal to what it held before, then the lines of the first
region, then the lines of the second. -/
theorem C9_ProcessFile_only_appends :
    (∀ (r : Reader) (d : Str) (reg : Registry) (k : Str),
      (ProcessFile r d reg).1.files k =
        (if registersFile k (closedFences (initState reg d) (readStrings [] r.data)) = true then
          some ((reg.files k).getD [] ++
            linesForFile k (closedFences (initState reg d) (readStrings [] r.data)))
        else reg.files k) ∧
      (ProcessFile r d reg).1.blocks k =
        (if registersName k (closedFences (initState reg d) (readStrings [] r.data)) = true then
          some ((reg.blocks k).getD [] ++
            linesForName k (closedFences (initState reg d) (readStrings [] r.data)))
        else reg.blocks k)) ∧
    (ProcessFile
        ⟨"```go > out.go\na\n```\ntext\n~~~go > out.go\nb\n~~~\n".toList, none⟩
        "second.md".toList
        { blocks := fun _ => none,
          files := fun k => if k = "out.go".toList then
            some [⟨"package main\n".toList, "first.md".toList, "go".toList, 2⟩] else none }).1.files
        "out.go".toList
      = some [⟨"package main\n".toList, "first.md".toList, "go".toList, 2⟩,
          ⟨"a\n".toList, "second.md".toList, "go".toList, 2⟩,
          ⟨"b\n".toList, "second.md".toList, "go".toList, 6⟩] := by
  refine ⟨fun r d reg k => ⟨?_, ?_⟩, by decide⟩
  · exact scanLoop_files (readStrings [] r.data) (initState reg d) k
  · exact scanLoop_blocks (readStrings [] r.data) (initState reg d) k

/-! ## Reading lines -/

theorem readStrings_line (u : Str) : ∀ (cur rest : Str), (∀ c ∈ u, c ≠ '\n') →
    readStrings cur (u ++ '\n' :: rest) = (cur ++ u ++ ['\n']) :: readStrings [] rest := by
  induction u with
  | nil => intro cur rest _; simp [readStrings]
  | cons a u ih =>
    intro cur rest h
    have ha : a ≠ '\n' := h a (List.mem_cons_self a u)
    have hu : ∀ c ∈ u, c ≠ '\n' := fun c hc => h c (List.mem_cons_of_mem a hc)
    have e := ih (cur ++ [a]) rest hu
    simp only [List.cons_append, readStrings, if_neg ha]
    exact e.trans (by simp)

theorem isLine_iff (t : Str) (h : isLine t = true) :
    ∃ u, t = u ++ ['\n'] ∧ ∀ c ∈ u, c ≠ '\n' := by
  unfold isLine at h
  cases hr : t.reverse with
  | nil => rw [hr] at h; simp at h
  | cons ch u =>
    rw [hr] at h
    simp only [Bool.and_eq_true, decide_eq_true_eq, List.all_eq_true] at h
    refine ⟨u.reverse, ?_, ?_⟩
    · have e : t = (ch :: u).reverse := by rw [← hr, List.reverse_reverse]
      rw [e, h.1]
      simp
    · intro c hc
      exact h.2 c (List.mem_reverse.mp hc)

theorem readStrings_joinLines (ls : List Str) (h : ∀ t ∈ ls, isLine t = true) (rest : Str) :
    readStrings [] (joinLines ls ++ rest) = ls ++ readStrings [] rest := by
  induction ls with
  | nil => rfl
  | cons t ts ih =>
    obtain ⟨u, hu, hnl⟩ := isLine_iff t (h t (List.mem_cons_self t ts))
    have e : joinLines (t :: ts) ++ rest = u ++ '\n' :: (joinLines ts ++ rest) := by
      simp [joinLines, hu]
    rw [e, readStrings_line u [] _ hnl, ih (fun x hx => h x (List.mem_cons_of_mem t hx)), hu]
    simp

/-! ## Character classes -/

theorem isLangChar_not_isReSpace (c : Char) (h : isLangChar c = true) : isReSpace c = false := by
  cases hs : isReSpace c with
  | false => rfl
  | true =>
    exfalso
    simp only [isReSpace, Bool.or_eq_true, decide_eq_true_eq] at hs
    rcases hs with (((hs | hs) | hs) | hs) | hs <;> subst hs <;> revert h <;> decide

theorem isLangChar_not_unicodeIsSpace (c : Char) (h : isLangChar c = true) :
    unicodeIsSpace c = false := by
  cases hs : unicodeIsSpace c with
  | false => rfl
  | true =>
    exfalso
    simp only [isLangChar, isWord, Bool.or_eq_true, Bool.and_eq_true, decide_eq_true_eq] at h
    simp only [unicodeIsSpace, Bool.or_eq_true, Bool.and_eq_true, decide_eq_true_eq] at hs
    rcases h with h | h
    · omega
    · subst h
      revert hs
      decide

theorem isLangChar_ne_quote (c : Char) (h : isLangChar c = true) : c ≠ '"' := by
  intro e
  subst e
  revert h
  decide

/-! ## Headers -/

theorem cutFence_append (m rest : Str) (hm : m = backtickFence ∨ m = tildeFence) :
    cutFence (m ++ rest) = some rest := by
  unfold cutFence
  rcases hm with hm | hm
  · subst hm
    have h : cutPrefix ['\x60', '\x60', '\x60'] (backtickFence ++ rest) = some rest :=
      cutPrefix_append backtickFence rest
    rw [h]
  · subst hm
    have h1 : cutPrefix ['\x60', '\x60', '\x60'] (tildeFence ++ rest) = none := by
      simp [tildeFence, cutPrefix]
    have h2 : cutPrefix ['~', '~', '~'] (tildeFence ++ rest) = some rest :=
      cutPrefix_append tildeFence rest
    rw [h1, h2]

theorem fence_eq_cons (m : Str) (hm : m = backtickFence ∨ m = tildeFence) :
    ∃ c m1, m = c :: m1 ∧ isReSpace c = false ∧ unicodeIsSpace c = false := by
  rcases hm with hm | hm
  · exact ⟨'\x60', ['\x60', '\x60'], hm, by decide, by decide⟩
  · exact ⟨'~', ['~', '~'], hm, by decide, by decide⟩

theorem takeWhile_lang (L rest : Str) (c : Char) (hL : ∀ x ∈ L, isLangChar x = true)
    (hc : isLangChar c = false) :
    (L ++ c :: rest).takeWhile isLangChar = L ∧ (L ++ c :: rest).dropWhile isLangChar = c :: rest := by
  constructor
  · rw [List.takeWhile_append_of_pos hL, List.takeWhile_cons_of_neg (by simp [hc])]
    simp
  · rw [List.dropWhile_append_of_pos hL, List.dropWhile_cons_of_neg (by simp [hc])]

theorem dropOneSpace_lang (L rest : Str) (hne : L ≠ []) (hL : ∀ x ∈ L, isLangChar x = true) :
    dropOneSpace (L ++ rest) = L ++ rest := by
  cases L with
  | nil => exact absurd rfl hne
  | cons c L1 =>
    have h := isLangChar_not_isReSpace c (hL c (List.mem_cons_self c L1))
    simp [dropOneSpace, h]

/-- The header made of a fence marker, a language token, one space and `>`:
`TrimSpace` removes the newline, the expression of a named block does not
match, and the expression of a file block matches with the empty path. -/
theorem parseHeader_language_and_empty_path (m L : Str)
    (hm : m = backtickFence ∨ m = tildeFence) (hne : L ≠ [])
    (hL : ∀ x ∈ L, isLangChar x = true) :
    parseHeader (m ++ L ++ [' ', '>', '\n']) = ([], [], L) := by
  obtain ⟨c, m1, hc, _, hsp⟩ := fence_eq_cons m hm
  have htrim : TrimSpace (m ++ L ++ [' ', '>', '\n']) = m ++ (L ++ [' ', '>']) := by
    unfold TrimSpace
    have e1 : m ++ L ++ [' ', '>', '\n'] = c :: (m1 ++ L ++ [' ', '>', '\n']) := by
      rw [hc]; simp
    rw [e1, List.dropWhile_cons_of_neg (by simp [hsp]), ← e1]
    have e2 : m ++ L ++ [' ', '>', '\n'] = ((m ++ L ++ [' ']) ++ ['>']) ++ ['\n'] := by simp
    rw [e2, dropWhileEnd_append_of_pos _ _ _ (by decide),
      dropWhileEnd_concat_of_neg _ _ _ (by decide)]
    simp
  have hquote : (L ++ [' ', '>']).dropWhile (fun x => decide (x ≠ '"')) = [] := by
    rw [List.dropWhile_eq_nil_iff]
    intro x hx
    rcases List.mem_append.mp hx with h | h
    · simpa using isLangChar_ne_quote x (hL x h)
    · simp only [List.mem_cons, List.mem_singleton, List.not_mem_nil, or_false] at h
      rcases h with h | h <;> subst h <;> decide
  have hnamed : namedBlockRe (m ++ (L ++ [' ', '>'])) = none := by
    unfold namedBlockRe
    rw [cutFence_append m _ hm]
    simp only [hquote]
  obtain ⟨htw, hdw⟩ := takeWhile_lang L ['>'] ' ' hL (by decide)
  have hfile : fileBlockRe (m ++ (L ++ [' ', '>'])) = some (L, []) := by
    unfold fileBlockRe
    rw [cutFence_append m _ hm]
    simp only [dropOneSpace_lang L _ hne hL]
    have e3 : L ++ [' ', '>'] = L ++ ' ' :: ['>'] := rfl
    rw [e3, htw, hdw]
    have e4 : List.dropWhile isReSpace [' ', '>'] = ['>'] := by decide
    have e5 : List.takeWhile isReSpace [' ', '>'] = [' '] := by decide
    rw [e4]
    simp only [e5]
    simp [hne]
  unfold parseHeader
  simp only [htrim, hnamed, hfile]

/-- The header made of a fence marker and a language token only: neither
expression matches, and `parseHeader` returns the empty language. -/
theorem parseHeader_language_only (m L : Str)
    (hm : m = backtickFence ∨ m = tildeFence) (hL : ∀ x ∈ L, isLangChar x = true) :
    parseHeader (m ++ L ++ ['\n']) = ([], [], []) := by
  obtain ⟨c, m1, hc, _, hsp⟩ := fence_eq_cons m hm
  have hLsp : ∀ x ∈ L, unicodeIsSpace x = false :=
    fun x hx => isLangChar_not_unicodeIsSpace x (hL x hx)
  have hmsp : ∀ x ∈ m, unicodeIsSpace x = false := by
    rcases hm with hm | hm <;> subst hm <;> decide
  have htrim : TrimSpace (m ++ L ++ ['\n']) = m ++ L := by
    unfold TrimSpace
    have e1 : m ++ L ++ ['\n'] = c :: (m1 ++ L ++ ['\n']) := by
      rw [hc]; simp
    rw [e1, List.dropWhile_cons_of_neg (by simp [hsp]), ← e1,
      dropWhileEnd_append_of_pos _ _ _ (by decide)]
    rcases List.eq_nil_or_concat (m ++ L) with h | ⟨s1, x, h⟩
    · rw [hc] at h; simp at h
    · rw [List.concat_eq_append] at h
      have hx : x ∈ m ++ L := by rw [h]; simp
      have hxsp : unicodeIsSpace x = false := by
        rcases List.mem_append.mp hx with h1 | h1
        · exact hmsp x h1
        · exact hLsp x h1
      rw [h, dropWhileEnd_concat_of_neg _ _ _ hxsp]
  have hquote : L.dropWhile (fun x => decide (x ≠ '"')) = [] := by
    rw [List.dropWhile_eq_nil_iff]
    intro x hx
    simpa using isLangChar_ne_quote x (hL x hx)
  have hnamed : namedBlockRe (m ++ L) = none := by
    unfold namedBlockRe
    rw [cutFence_append m _ hm]
    simp only [hquote]
  have hfile : fileBlockRe (m ++ L) = none := by
    unfold fileBlockRe
    rw [cutFence_append m _ hm]
    have hd : (dropOneSpace L).dropWhile isLangChar = [] := by
      rw [List.dropWhile_eq_nil_iff]
      intro x hx
      cases L with
      | nil => simp [dropOneSpace] at hx
      | cons a L1 =>
        have ha := isLangChar_not_isReSpace a (hL a (List.mem_cons_self a L1))
        simp only [dropOneSpace, ha] at hx
        exact hL x (by simpa using hx)
    simp only [hd, List.dropWhile_nil]
  unfold parseHeader
  simp only [htrim, hnamed, hfile]

/-! ## A fence with the implicit target -/

theorem TrimPrefix_nil (t : Str) : TrimPrefix t [] = t := by
  cases t <;> rfl

theorem joinLines_append (a b : List Str) : joinLines (a ++ b) = joinLines a ++ joinLines b := by
  induction a with
  | nil => rfl
  | cons t ts ih => simp [joinLines, ih]

/-- The document identifier carried by the line variable never changes. -/
theorem scanLine_file (st : ScanState) (text : Str) :
    (scanLine st text).line.file = st.line.file := by
  unfold scanLine
  cases st.inBlock with
  | true =>
    simp only [if_true]
    split <;> rfl
  | false =>
    simp only [Bool.false_eq_true, if_false]
    cases blockStartRe text <;> rfl

theorem scanLoop_file (lines : List Str) : ∀ st : ScanState,
    (scanLoop st lines).line.file = st.line.file := by
  induction lines with
  | nil => intro st; rfl
  | cons t ts ih => intro st; rw [scanLoop_cons, ih, scanLine_file]

theorem blockStartRe_fence (m rest : Str) (hm : m = backtickFence ∨ m = tildeFence) :
    blockStartRe (m ++ rest) = some [] := by
  obtain ⟨c, m1, hc, hsp, _⟩ := fence_eq_cons m hm
  have e1 : m ++ rest = c :: (m1 ++ rest) := by rw [hc]; simp
  unfold blockStartRe
  rw [e1, List.dropWhile_cons_of_neg (by simp [hsp]), List.takeWhile_cons_of_neg (by simp [hsp]),
    ← e1, cutFence_append m rest hm]

/-- The iteration that reads, outside a fence, the unindented opening line made
of a fence marker, a language token, one space and `>`. -/
theorem scanLine_open_implicit (st : ScanState) (m L : Str) (hin : st.inBlock = false)
    (hm : m = backtickFence ∨ m = tildeFence) (hne : L ≠ [])
    (hL : ∀ x ∈ L, isLangChar x = true) :
    scanLine st (m ++ L ++ [' ', '>', '\n']) =
      { reg := st.reg,
        line := ⟨m ++ L ++ [' ', '>', '\n'], st.line.file, L, wrapInt (st.line.number + 1)⟩,
        inBlock := true, bname := [], fname := st.line.file ++ ['.'] ++ L, block := [],
        blockPrefix := [] } := by
  have hstart : blockStartRe (m ++ L ++ [' ', '>', '\n']) = some [] := by
    rw [List.append_assoc]
    exact blockStartRe_fence m _ hm
  unfold scanLine
  simp only [hin, Bool.false_eq_true, if_false, hstart, TrimPrefix_nil,
    parseHeader_language_and_empty_path m L hm hne hL]
  simp [hne]

/-- The iterations that read, inside a fence without indentation, lines none of
which is a closing fence: each is appended to the open block with the document
and the language of the fence. -/
theorem scanLoop_body (body : List Str) : ∀ st : ScanState,
    st.inBlock = true → st.blockPrefix = [] → (∀ t ∈ body, isFenceClose t = false) →
    ∃ lines : CodeBlock, lines.map CodeLine.text = body ∧
      (∀ l ∈ lines, l.file = st.line.file ∧ l.lang = st.line.lang) ∧
      (scanLoop st body).inBlock = true ∧ (scanLoop st body).blockPrefix = [] ∧
      (scanLoop st body).reg = st.reg ∧ (scanLoop st body).fname = st.fname ∧
      (scanLoop st body).bname = st.bname ∧ (scanLoop st body).block = st.block ++ lines := by
  induction body with
  | nil => intro st hin hp _; exact ⟨[], rfl, by simp, hin, hp, rfl, rfl, rfl, by simp [scanLoop_nil]⟩
  | cons t ts ih =>
    intro st hin hp hbody
    have hc : isFenceClose (TrimPrefix t st.blockPrefix) = false := by
      rw [hp, TrimPrefix_nil]
      exact hbody t (List.mem_cons_self t ts)
    have hstep := scanLine_content st t hin hc
    rw [hp, TrimPrefix_nil] at hstep
    obtain ⟨lines, h1, h2, h3, h4, h5, h6, h7, h8⟩ := ih (scanLine st t)
      (by rw [hstep]; exact hin) (by rw [hstep])
      (fun x hx => hbody x (List.mem_cons_of_mem t hx))
    refine ⟨⟨t, st.line.file, st.line.lang, wrapInt (st.line.number + 1)⟩ :: lines,
      by simp [h1], ?_, ?_, ?_, ?_, ?_, ?_, ?_⟩
    · intro l hl
      rcases List.mem_cons.mp hl with e | hl
      · subst e; exact ⟨rfl, rfl⟩
      · have h := h2 l hl
        rw [hstep] at h
        exact h
    · rw [scanLoop_cons]; exact h3
    · rw [scanLoop_cons]; exact h4
    · rw [scanLoop_cons, h5, hstep]
    · rw [scanLoop_cons, h6, hstep]
    · rw [scanLoop_cons, h7, hstep]
    · rw [scanLoop_cons, h8, hstep]
      simp

theorem isLine_concat_newline (u : Str) (h : ∀ c ∈ u, c ≠ '\n') : isLine (u ++ ['\n']) = true := by
  unfold isLine
  simp only [List.reverse_append, List.reverse_cons, List.reverse_nil, List.nil_append,
    List.singleton_append, decide_True, Bool.true_and, List.all_eq_true, decide_eq_true_eq]
  intro c hc
  exact h c (List.mem_reverse.mp hc)

theorem isLine_of_isFenceClose (t : Str) (h : isFenceClose t = true) : isLine t = true := by
  simp only [isFenceClose, Bool.or_eq_true, decide_eq_true_eq] at h
  rcases h with h | h <;> subst h <;> decide

/-- C10, as stated, fails: the fence opened by three backticks and `go` alone
is parsed with the empty language, no target is synthesized, and its content
is registered nowhere. -/
theorem C10_counterexample :
    parseHeader ("```go\n".toList) = ([], [], []) ∧
    (ProcessFile ⟨"```go\nx\n```\n".toList, none⟩ "a.md".toList emptyRegistry).1.files
      "a.md.go".toList = none := by
  decide

/-- C10, amended: the implicit target is synthesized for the header with a
language and an empty path. For every document identifier `d` and every fence
whose unindented opening line is a fence marker, a language token `L`, one
space and `>` with no path after it, `ProcessFile` appends, when the fence
closes, the content lines of the fence, with document `d` and language `L`,
to `files[d ++ "." ++ L]`, after what the key held when the fence opened.  A
header made of a fence marker and a language token only is parsed with the
empty language, so that no target is synthesized for it. -/
theorem C10_implicit_target_for_language_and_empty_path
    (reg : Registry) (d m L closer after : Str) (before body : List Str)
    (failure : Option Str)
    (hm : m = backtickFence ∨ m = tildeFence) (hne : L ≠ [])
    (hL : ∀ x ∈ L, isLangChar x = true)
    (hbefore : ∀ t ∈ before, isLine t = true)
    (houtside : (scanLoop (initState reg d) before).inBlock = false)
    (hbody : ∀ t ∈ body, isLine t = true ∧ isFenceClose t = false)
    (hcloser : isFenceClose closer = true) :
    (∃ lines more : CodeBlock,
      (ProcessFile
          ⟨joinLines (before ++ (m ++ L ++ " >\n".toList) :: body ++ [closer]) ++ after,
            failure⟩ d reg).1.files (d ++ ".".toList ++ L)
        = some (((scanLoop (initState reg d) before).reg.files (d ++ ".".toList ++ L)).getD []
            ++ lines ++ more) ∧
      lines.map CodeLine.text = body ∧ ∀ l ∈ lines, l.file = d ∧ l.lang = L) ∧
    parseHeader (m ++ L ++ "\n".toList) = ([], [], []) := by
  refine ⟨?_, parseHeader_language_only m L hm hL⟩
  have hmnl : ∀ c ∈ m, c ≠ '\n' := by
    rcases hm with hm | hm <;> subst hm <;> decide
  have hopen_line : isLine (m ++ L ++ [' ', '>', '\n']) = true := by
    have e : m ++ L ++ [' ', '>', '\n'] = (m ++ L ++ [' ', '>']) ++ ['\n'] := by simp
    rw [e]
    apply isLine_concat_newline
    intro c hc
    rcases List.mem_append.mp hc with h | h
    · rcases List.mem_append.mp h with h | h
      · exact hmnl c h
      · intro e2
        have h2 := hL c h
        rw [e2] at h2
        revert h2
        decide
    · simp only [List.mem_cons, List.mem_singleton, List.not_mem_nil, or_false] at h
      rcases h with h | h <;> subst h <;> decide
  have hall : ∀ t ∈ before ++ (m ++ L ++ [' ', '>', '\n']) :: body ++ [closer],
      isLine t = true := by
    intro t ht
    simp only [List.mem_append, List.mem_cons, List.mem_singleton, List.not_mem_nil,
      or_false] at ht
    rcases ht with (ht | ht | ht) | ht
    · exact hbefore t ht
    · rw [ht]; exact hopen_line
    · exact (hbody t ht).1
    · rw [ht]; exact isLine_of_isFenceClose closer hcloser
  have hread := readStrings_joinLines _ hall after
  have hshape : (before ++ (m ++ L ++ [' ', '>', '\n']) :: body ++ [closer])
      ++ readStrings [] after
      = before ++ ((m ++ L ++ [' ', '>', '\n']) :: (body ++ (closer :: readStrings [] after))) := by
    simp
  -- the state when the fence opens, after its opening line, after its content, after it closes
  have hfileB : (scanLoop (initState reg d) before).line.file = d := scanLoop_file before _
  have hopen := scanLine_open_implicit (scanLoop (initState reg d) before) m L houtside hm hne hL
  obtain ⟨lines, h1, h2, h3, h4, h5, h6, _, h8⟩ := scanLoop_body body
    (scanLine (scanLoop (initState reg d) before) (m ++ L ++ [' ', '>', '\n']))
    (by rw [hopen]) (by rw [hopen]) (fun t ht => (hbody t ht).2)
  have hOfile : (scanLine (scanLoop (initState reg d) before)
      (m ++ L ++ [' ', '>', '\n'])).line.file = d := by rw [hopen]; exact hfileB
  have hOlang : (scanLine (scanLoop (initState reg d) before)
      (m ++ L ++ [' ', '>', '\n'])).line.lang = L := by rw [hopen]
  have hOreg : (scanLine (scanLoop (initState reg d) before)
      (m ++ L ++ [' ', '>', '\n'])).reg = (scanLoop (initState reg d) before).reg := by
    rw [hopen]
  have hOfname : (scanLine (scanLoop (initState reg d) before)
      (m ++ L ++ [' ', '>', '\n'])).fname = d ++ ['.'] ++ L := by rw [hopen, hfileB]
  have hOblock : (scanLine (scanLoop (initState reg d) before)
      (m ++ L ++ [' ', '>', '\n'])).block = [] := by rw [hopen]
  rw [hOfile, hOlang] at h2
  rw [hOreg] at h5
  rw [hOfname] at h6
  rw [hOblock, List.nil_append] at h8
  have hcl : isFenceClose (TrimPrefix closer
      (scanLoop (scanLine (scanLoop (initState reg d) before) (m ++ L ++ [' ', '>', '\n']))
        body).blockPrefix) = true := by
    rw [h4, TrimPrefix_nil]
    exact hcloser
  obtain ⟨_, hfiles, _⟩ := scanLine_close _ closer h3 hcl
  have hkey : d ++ ['.'] ++ L ≠ [] := by simp
  rw [h6, h5, h8, if_pos hkey] at hfiles
  have hafter := scanLoop_files (readStrings [] after)
    (scanLine (scanLoop (scanLine (scanLoop (initState reg d) before)
      (m ++ L ++ [' ', '>', '\n'])) body) closer) (d ++ ['.'] ++ L)
  rw [hfiles] at hafter
  simp only [appendAt, if_true, Option.getD_some] at hafter
  have hfinal : (ProcessFile
      ⟨joinLines (before ++ (m ++ L ++ " >\n".toList) :: body ++ [closer]) ++ after,
        failure⟩ d reg).1.files (d ++ ".".toList ++ L)
      = (scanLoop (scanLine (scanLoop (scanLine (scanLoop (initState reg d) before)
          (m ++ L ++ [' ', '>', '\n'])) body) closer) (readStrings [] after)).reg.files
          (d ++ ['.'] ++ L) := by
    unfold ProcessFile
    simp only []
    have e : (" >\n".toList : Str) = [' ', '>', '\n'] := rfl
    rw [e, hread, hshape, scanLoop_append, scanLoop_cons, scanLoop_append, scanLoop_cons]
    rfl
  rw [hfinal, hafter]
  by_cases hr : registersFile (d ++ ['.'] ++ L) (closedFences
      (scanLine (scanLoop (scanLine (scanLoop (initState reg d) before)
        (m ++ L ++ [' ', '>', '\n'])) body) closer) (readStrings [] after)) = true
  · rw [if_pos hr]
    exact ⟨lines, _, rfl, h1, h2⟩
  · rw [if_neg hr]
    exact ⟨lines, [], by simp, h1, h2⟩

/-- C10 amended, at a concrete input: in `a.md`, after a title line, a fence
opened by three backticks and `go >`, holding two lines, one blank. -/
theorem C10_witness :
    (∃ lines more : CodeBlock,
      (ProcessFile
          ⟨joinLines (["# Title\n".toList] ++ (backtickFence ++ "go".toList ++ " >\n".toList) ::
              ["x := 1\n".toList, "\n".toList] ++ ["```\n".toList]) ++ "end".toList,
            none⟩ "a.md".toList emptyRegistry).1.files ("a.md".toList ++ ".".toList ++ "go".toList)
        = some (((scanLoop (initState emptyRegistry "a.md".toList) ["# Title\n".toList]).reg.files
              ("a.md".toList ++ ".".toList ++ "go".toList)).getD []
            ++ lines ++ more) ∧
      lines.map CodeLine.text = ["x := 1\n".toList, "\n".toList] ∧
      ∀ l ∈ lines, l.file = "a.md".toList ∧ l.lang = "go".toList) ∧
    (ProcessFile ⟨"# Title\n```go >\nx := 1\n\n```\nend".toList, none⟩ "a.md".toList
        emptyRegistry).1.files "a.md.go".toList
      = some [⟨"x := 1\n".toList, "a.md".toList, "go".toList, 3⟩,
          ⟨"\n".toList, "a.md".toList, "go".toList, 4⟩] :=
  ⟨(C10_implicit_target_for_language_and_empty_path emptyRegistry "a.md".toList backtickFence
      "go".toList "```\n".toList "end".toList ["# Title\n".toList]
      ["x := 1\n".toList, "\n".toList] none (Or.inl rfl) (by decide) (by decide) (by decide)
      (by decide) (by decide) (by decide)).1, by decide⟩

/-! ## Closing a fence -/

theorem isFenceClose_iff (t : Str) :
    isFenceClose t = true ↔ t = backtickFence ++ ['\n'] ∨ t = tildeFence ++ ['\n'] := by
  simp [isFenceClose, backtickFence, tildeFence]

/-- C11, as stated, fails: the fence opened by three backticks is closed by
the line of three tildes, which is not appended as content; the lines after it
are outside the fence. -/
theorem C11_counterexample :
    (ProcessFile ⟨"```go > out.go\na\n~~~\nb\n```\n".toList, none⟩ "a.md".toList
        emptyRegistry).1.files "out.go".toList
      = some [⟨"a\n".toList, "a.md".toList, "go".toList, 2⟩] ∧
    (ProcessFile ⟨"```go > out.go\na\n~~~\nb\n```\n".toList, none⟩ "a.md".toList
        emptyRegistry).1.files "out.go".toList
      ≠ some [⟨"a\n".toList, "a.md".toList, "go".toList, 2⟩,
          ⟨"~~~\n".toList, "a.md".toList, "go".toList, 3⟩,
          ⟨"b\n".toList, "a.md".toList, "go".toList, 4⟩] := by
  decide

/-- C11, amended: inside a fence, whichever marker opened it, the iteration of
`ProcessFile` on a line closes the fence if and only if the line, after the
captured indentation of the block is stripped, is exactly three backticks and
a newline or exactly three tildes and a newline; every other line is appended
to the open block as content, with the stripped text, and leaves the maps as
they are. -/
theorem C11_fence_closed_by_either_marker (st : ScanState) (text : Str)
    (hin : st.inBlock = true) :
    ((scanLine st text).inBlock = false ↔
      (TrimPrefix text st.blockPrefix = backtickFence ++ ['\n'] ∨
        TrimPrefix text st.blockPrefix = tildeFence ++ ['\n'])) ∧
    ((scanLine st text).inBlock = true →
      (scanLine st text).block = st.block ++
        [⟨TrimPrefix text st.blockPrefix, st.line.file, st.line.lang,
          wrapInt (st.line.number + 1)⟩] ∧
      (scanLine st text).reg = st.reg) := by
  rw [← isFenceClose_iff]
  cases hc : isFenceClose (TrimPrefix text st.blockPrefix) with
  | true =>
    obtain ⟨h1, _, _⟩ := scanLine_close st text hin hc
    simp [h1]
  | false =>
    rw [scanLine_content st text hin hc]
    simp [hin]

/-- C11 amended, at a concrete input: inside a fence with indentation of two
spaces, the indented line of three tildes closes, and the line of three
tildes and a space is content. -/
theorem C11_witness :
    (scanLine
        { reg := emptyRegistry, line := ⟨"x\n".toList, "a.md".toList, "go".toList, 2⟩,
          inBlock := true, bname := [], fname := "out.go".toList,
          block := [⟨"x\n".toList, "a.md".toList, "go".toList, 2⟩], blockPrefix := "  ".toList }
        "  ~~~\n".toList).inBlock = false ∧
    (scanLine
        { reg := emptyRegistry, line := ⟨"x\n".toList, "a.md".toList, "go".toList, 2⟩,
          inBlock := true, bname := [], fname := "out.go".toList,
          block := [⟨"x\n".toList, "a.md".toList, "go".toList, 2⟩], blockPrefix := "  ".toList }
        "  ~~~ \n".toList).block
      = [⟨"x\n".toList, "a.md".toList, "go".toList, 2⟩,
          ⟨"~~~ \n".toList, "a.md".toList, "go".toList, 3⟩] :=
  ⟨(C11_fence_closed_by_either_marker
      { reg := emptyRegistry, line := ⟨"x\n".toList, "a.md".toList, "go".toList, 2⟩,
        inBlock := true, bname := [], fname := "out.go".toList,
        block := [⟨"x\n".toList, "a.md".toList, "go".toList, 2⟩], blockPrefix := "  ".toList }
      "  ~~~\n".toList rfl).1.mpr (Or.inr (by decide)),
    ((C11_fence_closed_by_either_marker
      { reg := emptyRegistry, line := ⟨"x\n".toList, "a.md".toList, "go".toList, 2⟩,
        inBlock := true, bname := [], fname := "out.go".toList,
        block := [⟨"x\n".toList, "a.md".toList, "go".toList, 2⟩], blockPrefix := "  ".toList }
      "  ~~~ \n".toList rfl).2 (by decide)).1.trans (by decide)⟩

/-! ## The two tracked header forms -/

theorem isReSpace_not_isLangChar (c : Char) (h : isReSpace c = true) : isLangChar c = false := by
  cases hl : isLangChar c with
  | false => rfl
  | true => rw [isLangChar_not_isReSpace c hl] at h; exact absurd h (by simp)

theorem isPathChar_facts (c : Char) (h : isPathChar c = true) :
    isReSpace c = false ∧ unicodeIsSpace c = false ∧ c ≠ '"' := by
  simp only [isPathChar, Bool.or_eq_true, decide_eq_true_eq] at h
  rcases h with ((h | h) | h) | h
  · have hl : isLangChar c = true := by simp [isLangChar, h]
    exact ⟨isLangChar_not_isReSpace c hl, isLangChar_not_unicodeIsSpace c hl,
      isLangChar_ne_quote c hl⟩
  · subst h; decide
  · subst h; decide
  · subst h; decide

theorem isReSpace_ne_quote (c : Char) (h : isReSpace c = true) : c ≠ '"' := by
  intro e
  subst e
  revert h
  decide

/-- `TrimSpace` of a text that starts and ends with characters that are no
spaces, followed by spaces, is that text. -/
theorem TrimSpace_core (c x : Char) (s1 s2 tail : Str) (h : c :: s1 = s2 ++ [x])
    (hc : unicodeIsSpace c = false) (hx : unicodeIsSpace x = false)
    (ht : ∀ y ∈ tail, unicodeIsSpace y = true) :
    TrimSpace (c :: s1 ++ tail) = c :: s1 := by
  unfold TrimSpace
  have e : c :: s1 ++ tail = c :: (s1 ++ tail) := rfl
  rw [e, List.dropWhile_cons_of_neg (by simp [hc]), ← e,
    dropWhileEnd_append_of_pos _ _ _ ht, h, dropWhileEnd_concat_of_neg _ _ _ hx]

theorem takeWhile_lang_space (w : Str) (hw : ∀ x ∈ w, isReSpace x = true) :
    w.takeWhile isLangChar = [] ∧ w.dropWhile isLangChar = w := by
  cases w with
  | nil => exact ⟨rfl, rfl⟩
  | cons a w1 =>
    have ha := isReSpace_not_isLangChar a (hw a (List.mem_cons_self a w1))
    exact ⟨List.takeWhile_cons_of_neg (by simp [ha]), List.dropWhile_cons_of_neg (by simp [ha])⟩

theorem takeWhile_lang_then_space (L rest : Str) (hL : ∀ x ∈ L, isLangChar x = true)
    (hrest : ∀ c r, rest = c :: r → isLangChar c = false) :
    (L ++ rest).takeWhile isLangChar = L ∧ (L ++ rest).dropWhile isLangChar = rest := by
  have h1 : rest.takeWhile isLangChar = [] ∧ rest.dropWhile isLangChar = rest := by
    cases rest with
    | nil => exact ⟨rfl, rfl⟩
    | cons a r =>
      have ha := hrest a r rfl
      exact ⟨List.takeWhile_cons_of_neg (by simp [ha]),
        List.dropWhile_cons_of_neg (by simp [ha])⟩
  constructor
  · rw [List.takeWhile_append_of_pos hL, h1.1, List.append_nil]
  · rw [List.dropWhile_append_of_pos hL, h1.2]

theorem dropOneSpace_space (w : Str) (hw : ∀ x ∈ w, isReSpace x = true) :
    ∀ x ∈ dropOneSpace w, isReSpace x = true := by
  cases w with
  | nil => intro x hx; simp [dropOneSpace] at hx
  | cons a w1 =>
    have ha := hw a (List.mem_cons_self a w1)
    simp only [dropOneSpace, ha, if_true]
    exact fun x hx => hw x (List.mem_cons_of_mem a hx)

/-- The expression of a named block on a fence marker, a language token,
whitespace and a quoted name without newline. -/
theorem namedBlockRe_named (m L w N : Str) (hm : m = backtickFence ∨ m = tildeFence)
    (hL : ∀ x ∈ L, isLangChar x = true) (hw : ∀ x ∈ w, isReSpace x = true)
    (hN : N ≠ []) (hNd : ∀ x ∈ N, x ≠ '\n') :
    namedBlockRe (m ++ (L ++ w ++ '"' :: (N ++ ['"']))) = some (L, N) := by
  have hhead : ∀ x ∈ L ++ w, (fun c : Char => decide (c ≠ '"')) x = true := by
    intro x hx
    rcases List.mem_append.mp hx with h | h
    · simpa using isLangChar_ne_quote x (hL x h)
    · simpa using isReSpace_ne_quote x (hw x h)
  have htake : (L ++ w ++ '"' :: (N ++ ['"'])).takeWhile (fun c => decide (c ≠ '"')) = L ++ w := by
    rw [List.takeWhile_append_of_pos hhead, List.takeWhile_cons_of_neg (by simp)]
    simp
  have hdrop : (L ++ w ++ '"' :: (N ++ ['"'])).dropWhile (fun c => decide (c ≠ '"'))
      = '"' :: (N ++ ['"']) := by
    rw [List.dropWhile_append_of_pos hhead, List.dropWhile_cons_of_neg (by simp)]
  have hsuf : cutSuffix ['"'] (N ++ ['"']) = some N := cutSuffix_append ['"'] N
  -- after the optional space, the head is the language token and whitespace
  have hh : ∃ w2, dropOneSpace (L ++ w) = L ++ w2 ∧ ∀ x ∈ w2, isReSpace x = true := by
    cases L with
    | nil => exact ⟨dropOneSpace w, by simp, dropOneSpace_space w hw⟩
    | cons a L1 =>
      exact ⟨w, dropOneSpace_lang (a :: L1) w (by simp) hL, hw⟩
  obtain ⟨w2, hw2, hw2s⟩ := hh
  obtain ⟨ht, hd⟩ := takeWhile_lang_then_space L w2 hL
    (fun c r e => isReSpace_not_isLangChar c (hw2s c (by rw [e]; exact List.mem_cons_self c r)))
  unfold namedBlockRe
  rw [cutFence_append m _ hm]
  simp only [htake, hdrop, hsuf, hw2, ht, hd]
  have hall : List.all w2 isReSpace = true := by simpa using hw2s
  have hdot : List.all N isDot = true := by simpa [isDot] using hNd
  simp [hall, hdot, hN]

/-- The expressions on a fence marker, a language token, whitespace, `>`,
whitespace and a path: that of a named block does not match, that of a file
block does. -/
theorem fileBlockRe_file (m L w1 w2 P : Str) (hm : m = backtickFence ∨ m = tildeFence)
    (hne : L ≠ []) (hL : ∀ x ∈ L, isLangChar x = true)
    (hw1ne : w1 ≠ []) (hw1 : ∀ x ∈ w1, isReSpace x = true)
    (hw2 : ∀ x ∈ w2, isReSpace x = true) (hP : ∀ x ∈ P, isPathChar x = true) :
    namedBlockRe (m ++ (L ++ (w1 ++ '>' :: (w2 ++ P)))) = none ∧
    fileBlockRe (m ++ (L ++ (w1 ++ '>' :: (w2 ++ P)))) = some (L, P) := by
  have hquote : (L ++ (w1 ++ '>' :: (w2 ++ P))).dropWhile (fun x => decide (x ≠ '"')) = [] := by
    rw [List.dropWhile_eq_nil_iff]
    intro x hx
    simp only [List.mem_append, List.mem_cons] at hx
    rcases hx with h | h | h | h | h
    · simpa using isLangChar_ne_quote x (hL x h)
    · simpa using isReSpace_ne_quote x (hw1 x h)
    · subst h; decide
    · simpa using isReSpace_ne_quote x (hw2 x h)
    · simpa using (isPathChar_facts x (hP x h)).2.2
  constructor
  · unfold namedBlockRe
    rw [cutFence_append m _ hm]
    simp only [hquote]
  · obtain ⟨b, w1r, hb⟩ := List.exists_cons_of_ne_nil hw1ne
    have hbs : isReSpace b = true := hw1 b (by rw [hb]; exact List.mem_cons_self b w1r)
    obtain ⟨ht, hd⟩ := takeWhile_lang_then_space L (w1 ++ '>' :: (w2 ++ P)) hL
      (fun c r e => by
        rw [hb] at e
        have hc : c = b := by
          have := List.head_eq_of_cons_eq e.symm
          exact this
        rw [hc]
        exact isReSpace_not_isLangChar b hbs)
    have hd1 : (w1 ++ '>' :: (w2 ++ P)).dropWhile isReSpace = '>' :: (w2 ++ P) := by
      rw [List.dropWhile_append_of_pos hw1, List.dropWhile_cons_of_neg (by decide)]
    have ht1 : (w1 ++ '>' :: (w2 ++ P)).takeWhile isReSpace = w1 := by
      rw [List.takeWhile_append_of_pos hw1, List.takeWhile_cons_of_neg (by decide)]
      simp
    have hd2 : (w2 ++ P).dropWhile isReSpace = P := by
      rw [List.dropWhile_append_of_pos hw2]
      cases P with
      | nil => rfl
      | cons a P1 =>
        have ha := (isPathChar_facts a (hP a (List.mem_cons_self a P1))).1
        exact List.dropWhile_cons_of_neg (by simp [ha])
    unfold fileBlockRe
    rw [cutFence_append m _ hm]
    simp only [dropOneSpace_lang L _ hne hL, ht, hd, hd1, ht1, hd2]
    have hall : List.all P isPathChar = true := by simpa using hP
    simp [hall, hne, hw1ne]

/-- C12: `parseHeader` recognises the two tracked header forms. On a fence
marker, a language token `L` of word characters and `+`, whitespace and a
double-quoted non-empty name `N` (a header is one line: `N` holds no newline)
it returns no file path, the block name `N` and the language `L`. On a fence
marker, a non-empty language token `L`, whitespace, `>`, optional whitespace
and a non-empty path `P` of word characters, dots, dashes and slashes it
returns the file path `P`, no block name and the language `L`. Spaces after
the header, such as the newline of the line, are ignored. For no input does it
return both a non-empty path and a non-empty name. -/
theorem C12_parseHeader_tracked_forms :
    (∀ (m L w N tail : Str), (m = backtickFence ∨ m = tildeFence) →
      (∀ x ∈ L, isLangChar x = true) → (∀ x ∈ w, isReSpace x = true) →
      N ≠ [] → (∀ x ∈ N, x ≠ '\n') → (∀ x ∈ tail, unicodeIsSpace x = true) →
      parseHeader (m ++ L ++ w ++ ['"'] ++ N ++ ['"'] ++ tail) = ([], N, L)) ∧
    (∀ (m L w1 w2 P tail : Str), (m = backtickFence ∨ m = tildeFence) →
      L ≠ [] → (∀ x ∈ L, isLangChar x = true) →
      w1 ≠ [] → (∀ x ∈ w1, isReSpace x = true) → (∀ x ∈ w2, isReSpace x = true) →
      P ≠ [] → (∀ x ∈ P, isPathChar x = true) → (∀ x ∈ tail, unicodeIsSpace x = true) →
      parseHeader (m ++ L ++ w1 ++ ['>'] ++ w2 ++ P ++ tail) = (P, [], L)) ∧
    (∀ line : Str, ¬((parseHeader line).1 ≠ [] ∧ (parseHeader line).2.1 ≠ [])) := by
  refine ⟨?_, ?_, ?_⟩
  · intro m L w N tail hm hL hw hN hNd ht
    obtain ⟨c, m1, hc, _, hsp⟩ := fence_eq_cons m hm
    have hshape : m ++ L ++ w ++ ['"'] ++ N ++ ['"'] ++ tail
        = c :: (m1 ++ (L ++ w ++ '"' :: (N ++ ['"']))) ++ tail := by
      rw [hc]; simp
    have hcore : c :: (m1 ++ (L ++ w ++ '"' :: (N ++ ['"'])))
        = m ++ (L ++ w ++ '"' :: (N ++ ['"'])) := by
      rw [hc]; simp
    have hlast : c :: (m1 ++ (L ++ w ++ '"' :: (N ++ ['"'])))
        = (m ++ (L ++ w ++ '"' :: N)) ++ ['"'] := by
      rw [hc]; simp
    have htrim := TrimSpace_core c '"' _ _ tail hlast hsp (by decide) ht
    have htrim2 : TrimSpace (m ++ L ++ w ++ ['"'] ++ N ++ ['"'] ++ tail)
        = m ++ (L ++ w ++ '"' :: (N ++ ['"'])) := by
      rw [hshape, htrim, hcore]
    unfold parseHeader
    simp only [htrim2, namedBlockRe_named m L w N hm hL hw hN hNd]
  · intro m L w1 w2 P tail hm hne hL hw1ne hw1 hw2 hPne hP ht
    obtain ⟨c, m1, hc, _, hsp⟩ := fence_eq_cons m hm
    obtain ⟨P1, x, hx⟩ : ∃ P1 x, P = P1 ++ [x] := by
      rcases List.eq_nil_or_concat P with h | ⟨P1, x, h⟩
      · exact absurd h hPne
      · exact ⟨P1, x, by rw [h, List.concat_eq_append]⟩
    have hxs : unicodeIsSpace x = false :=
      (isPathChar_facts x (hP x (by rw [hx]; simp))).2.1
    have hshape : m ++ L ++ w1 ++ ['>'] ++ w2 ++ P ++ tail
        = c :: (m1 ++ (L ++ (w1 ++ '>' :: (w2 ++ P)))) ++ tail := by
      rw [hc]; simp
    have hcore : c :: (m1 ++ (L ++ (w1 ++ '>' :: (w2 ++ P))))
        = m ++ (L ++ (w1 ++ '>' :: (w2 ++ P))) := by
      rw [hc]; simp
    have hlast : c :: (m1 ++ (L ++ (w1 ++ '>' :: (w2 ++ P))))
        = (m ++ (L ++ (w1 ++ '>' :: (w2 ++ P1)))) ++ [x] := by
      rw [hc, hx]; simp
    have htrim := TrimSpace_core c x _ _ tail hlast hsp hxs ht
    obtain ⟨hnamed, hfile⟩ := fileBlockRe_file m L w1 w2 P hm hne hL hw1ne hw1 hw2 hP
    have htrim2 : TrimSpace (m ++ L ++ w1 ++ ['>'] ++ w2 ++ P ++ tail)
        = m ++ (L ++ (w1 ++ '>' :: (w2 ++ P))) := by
      rw [hshape, htrim, hcore]
    unfold parseHeader
    simp only [htrim2, hnamed, hfile]
  · intro line
    cases h1 : namedBlockRe (TrimSpace line) with
    | some ln => simp [parseHeader, h1]
    | none =>
      cases h2 : fileBlockRe (TrimSpace line) with
      | some lp => simp [parseHeader, h1, h2]
      | none => simp [parseHeader, h1, h2]

/-- C12, at concrete inputs: the header of three backticks and `go "helper"`,
and the header of three tildes and `go > main.go` with the newline of its
line. -/
theorem C12_witness :
    parseHeader ("```go \"helper\"".toList) = ([], "helper".toList, "go".toList) ∧
    parseHeader ("~~~go > main.go\n".toList) = ("main.go".toList, [], "go".toList) :=
  ⟨C12_parseHeader_tracked_forms.1 backtickFence "go".toList " ".toList "helper".toList []
      (Or.inl rfl) (by decide) (by decide) (by decide) (by decide) (by decide),
    C12_parseHeader_tracked_forms.2.1 tildeFence "go".toList " ".toList " ".toList
      "main.go".toList "\n".toList (Or.inr rfl) (by decide) (by decide) (by decide) (by decide)
      (by decide) (by decide) (by decide) (by decide)⟩

/-! ## The fences of a document -/

theorem headerOf_lang (d : File) (header : Str) :
    (headerOf d header).2.2 = (parseHeader header).2.2 := rfl

theorem headerOf_bname (d : File) (header : Str) :
    (headerOf d header).2.1 = (parseHeader header).2.1 := rfl

/-- The iteration that reads an opening line outside a fence. -/
theorem scanLine_open (st : ScanState) (text pfx : Str) (hin : st.inBlock = false)
    (hstart : blockStartRe text = some pfx) :
    scanLine st text =
      { reg := st.reg,
        line := ⟨TrimPrefix text pfx, st.line.file,
          (headerOf st.line.file (TrimPrefix text pfx)).2.2, wrapInt (st.line.number + 1)⟩,
        inBlock := true,
        bname := (headerOf st.line.file (TrimPrefix text pfx)).2.1,
        fname := (headerOf st.line.file (TrimPrefix text pfx)).1,
        block := [], blockPrefix := pfx } := by
  unfold scanLine
  simp only [hin, Bool.false_eq_true, if_false, hstart]
  rfl

/-- The iteration that reads, outside a fence, a line that opens none. -/
theorem scanLine_skip (st : ScanState) (text : Str) (hin : st.inBlock = false)
    (hstart : blockStartRe text = none) :
    (scanLine st text).inBlock = false := by
  unfold scanLine
  simp only [hin, Bool.false_eq_true, if_false, hstart]

theorem scanLine_number (st : ScanState) (text : Str) :
    (scanLine st text).line.number = wrapInt (st.line.number + 1) := by
  unfold scanLine
  cases st.inBlock with
  | true =>
    simp only [if_true]
    split <;> rfl
  | false =>
    simp only [Bool.false_eq_true, if_false]
    cases blockStartRe text <;> rfl

/-- The line counter after the lines read, as long as a Go `int` holds it. -/
theorem scanLoop_number (lines : List Str) : ∀ st : ScanState,
    0 ≤ st.line.number → st.line.number + lines.length < 9223372036854775808 →
    (scanLoop st lines).line.number = st.line.number + lines.length := by
  induction lines with
  | nil => intro st _ _; simp [scanLoop_nil]
  | cons t ts ih =>
    intro st h0 hb
    have hlen : ((t :: ts).length : Int) = (ts.length : Int) + 1 := by simp
    rw [hlen] at hb
    have hstep : (scanLine st t).line.number = st.line.number + 1 := by
      rw [scanLine_number]
      unfold wrapInt
      omega
    rw [scanLoop_cons, ih (scanLine st t) (by rw [hstep]; omega) (by rw [hstep]; omega), hstep,
      hlen]
    omega

theorem scanLoop_init_number (reg : Registry) (d : Str) (seen : List Str)
    (hb : (seen.length : Int) < 9223372036854775808) :
    (scanLoop (initState reg d) seen).line.number = seen.length := by
  have h := scanLoop_number seen (initState reg d) (by simp [initState]) (by simpa [initState] using hb)
  simpa [initState] using h

theorem scanLoop_init_file (reg : Registry) (d : Str) (seen : List Str) :
    (scanLoop (initState reg d) seen).line.file = d :=
  scanLoop_file seen (initState reg d)

theorem scanLoop_snoc (st : ScanState) (seen : List Str) (t : Str) :
    scanLoop st (seen ++ [t]) = scanLine (scanLoop st seen) t := by
  rw [scanLoop_append, scanLoop_cons, scanLoop_nil]

theorem contentLines_snoc (d : File) (lang : language) (pfx : Str) (body : List Str) (t : Str) :
    ∀ first : Int, contentLines d lang pfx first (body ++ [t]) =
      contentLines d lang pfx first body ++ [⟨TrimPrefix t pfx, d, lang, first + body.length⟩] := by
  induction body with
  | nil => intro first; simp [contentLines]
  | cons b bs ih =>
    intro first
    have h := ih (first + 1)
    have e : first + 1 + (bs.length : Int) = first + ((bs.length + 1 : Nat) : Int) := by
      push_cast; ring
    calc contentLines d lang pfx first ((b :: bs) ++ [t])
        = ⟨TrimPrefix b pfx, d, lang, first⟩ ::
            contentLines d lang pfx (first + 1) (bs ++ [t]) := rfl
      _ = contentLines d lang pfx first (b :: bs) ++
            [⟨TrimPrefix t pfx, d, lang, first + (b :: bs).length⟩] := by
        rw [h, e]
        rfl

/-- The description of the open fence is kept by one more line read, as long
as the scan stays inside a fence or enters one. -/
theorem openFence_step (reg : Registry) (d : Str) (seen : List Str) (t : Str)
    (hb : (seen.length : Int) + 1 < 9223372036854775808)
    (hinv : (scanLoop (initState reg d) seen).inBlock = true → OpenFence reg d seen) :
    (scanLoop (initState reg d) (seen ++ [t])).inBlock = true →
      OpenFence reg d (seen ++ [t]) := by
  intro hin2
  have hfile := scanLoop_init_file reg d seen
  have hnum := scanLoop_init_number reg d seen (by omega)
  rw [scanLoop_snoc] at hin2
  unfold OpenFence
  rw [scanLoop_snoc]
  cases hin : (scanLoop (initState reg d) seen).inBlock with
  | false =>
    cases hstart : blockStartRe t with
    | none =>
      rw [scanLine_skip _ t hin hstart] at hin2
      exact absurd hin2 (by simp)
    | some pfx =>
      have hopen := scanLine_open _ t pfx hin hstart
      rw [hfile] at hopen
      refine ⟨seen, t, [], pfx, by simp, hin, hstart, by simp, ?_, ?_, ?_, ?_, ?_⟩
      · rw [hopen]
      · rw [hopen]
      · rw [hopen]
      · rw [hopen]
      · rw [hopen]; rfl
  | true =>
    obtain ⟨pre, opener, body, pfx, hseen, hout, hstart, hbody, hpfx, hlang, hbn, hfn, hblock⟩ :=
      hinv hin
    cases hc : isFenceClose (TrimPrefix t (scanLoop (initState reg d) seen).blockPrefix) with
    | true =>
      rw [(scanLine_close _ t hin hc).1] at hin2
      exact absurd hin2 (by simp)
    | false =>
      have hcont := scanLine_content _ t hin hc
      have hlen : (seen.length : Int) = (pre.length : Int) + 1 + (body.length : Int) := by
        rw [hseen]
        simp
        ring
      have hwrap : wrapInt ((scanLoop (initState reg d) seen).line.number + 1)
          = (pre.length : Int) + 2 + (body.length : Int) := by
        rw [hnum]
        unfold wrapInt
        omega
      refine ⟨pre, opener, body ++ [t], pfx, by simp [hseen], hout, hstart, ?_, ?_, ?_, ?_, ?_, ?_⟩
      · intro x hx
        rcases List.mem_append.mp hx with h | h
        · exact hbody x h
        · simp only [List.mem_singleton] at h
          rw [h, ← hpfx]
          exact hc
      · rw [hcont]; exact hpfx
      · rw [hcont]; exact hlang
      · rw [hcont]; exact hbn
      · rw [hcont]; exact hfn
      · rw [hcont, contentLines_snoc]
        simp only [hblock, hwrap, hpfx, hfile, hlang]

/-- The fence that an iteration closes is a fence of the document. -/
theorem fenceOf_close (reg : Registry) (d : Str) (seen post : List Str) (t : Str)
    (hinv : (scanLoop (initState reg d) seen).inBlock = true → OpenFence reg d seen)
    (hin : (scanLoop (initState reg d) seen).inBlock = true)
    (hout : (scanLine (scanLoop (initState reg d) seen) t).inBlock = false) :
    FenceOf reg d (seen ++ t :: post)
      { fname := (scanLoop (initState reg d) seen).fname,
        bname := (scanLoop (initState reg d) seen).bname,
        block := (scanLoop (initState reg d) seen).block } := by
  obtain ⟨pre, opener, body, pfx, hseen, hpre, hstart, hbody, hpfx, _, hbn, hfn, hblock⟩ :=
    hinv hin
  have hc : isFenceClose (TrimPrefix t pfx) = true := by
    cases hc : isFenceClose (TrimPrefix t pfx) with
    | true => rfl
    | false =>
      rw [← hpfx] at hc
      rw [scanLine_content _ t hin hc] at hout
      rw [hin] at hout
      exact absurd hout (by simp)
  exact ⟨pre, opener, body, t, post, pfx, by simp [hseen], hpre, hstart, hbody, hc, hbn, hfn,
    hblock⟩

/-- Every fence closed while the rest of a document is read is a fence of the
document. -/
theorem closedFences_decompose (reg : Registry) (d : Str) :
    ∀ (rest seen : List Str),
      (seen.length : Int) + rest.length < 9223372036854775808 →
      ((scanLoop (initState reg d) seen).inBlock = true → OpenFence reg d seen) →
      ∀ f ∈ closedFences (scanLoop (initState reg d) seen) rest, FenceOf reg d (seen ++ rest) f := by
  intro rest
  induction rest with
  | nil => intro seen _ _ f hf; simp [closedFences] at hf
  | cons t rest ih =>
    intro seen hb hinv f hf
    have hlen : ((t :: rest).length : Int) = (rest.length : Int) + 1 := by simp
    rw [hlen] at hb
    rw [closedFences_cons] at hf
    rcases List.mem_append.mp hf with h | h
    · by_cases hclose : (scanLoop (initState reg d) seen).inBlock = true ∧
          (scanLine (scanLoop (initState reg d) seen) t).inBlock = false
      · rw [if_pos hclose] at h
        simp only [List.mem_singleton] at h
        rw [h]
        exact fenceOf_close reg d seen rest t hinv hclose.1 hclose.2
      · rw [if_neg hclose] at h
        simp at h
    · rw [← scanLoop_snoc] at h
      have hstep := openFence_step reg d seen t (by omega) hinv
      have hres := ih (seen ++ [t]) (by simp; omega) hstep f h
      have e : seen ++ [t] ++ rest = seen ++ t :: rest := by simp
      rw [e] at hres
      exact hres

/-- The fences that `ProcessFile` closes in a document of fewer than 2^63
lines are fences of the document. -/
theorem closedFences_of_document (reg : Registry) (d : Str) (lines : List Str)
    (hb : (lines.length : Int) < 9223372036854775808) :
    ∀ f ∈ closedFences (initState reg d) lines, FenceOf reg d lines f := by
  intro f hf
  have h := closedFences_decompose reg d lines [] (by simpa using hb)
    (by intro h; simp [scanLoop_nil, initState] at h) f hf
  simpa using h

theorem mem_linesForFile (k : Str) (l : CodeLine) (fs : List ClosedFence)
    (h : l ∈ linesForFile k fs) : ∃ f ∈ fs, l ∈ f.block := by
  induction fs with
  | nil => simp [linesForFile] at h
  | cons f fs ih =>
    simp only [linesForFile] at h
    rcases List.mem_append.mp h with h1 | h1
    · by_cases hk : f.fname = k ∧ f.fname ≠ []
      · rw [if_pos hk] at h1
        exact ⟨f, List.mem_cons_self f fs, h1⟩
      · rw [if_neg hk] at h1
        simp at h1
    · obtain ⟨g, hg, hl⟩ := ih h1
      exact ⟨g, List.mem_cons_of_mem f hg, hl⟩

theorem mem_linesForName (k : Str) (l : CodeLine) (fs : List ClosedFence)
    (h : l ∈ linesForName k fs) : ∃ f ∈ fs, l ∈ f.block := by
  induction fs with
  | nil => simp [linesForName] at h
  | cons f fs ih =>
    simp only [linesForName] at h
    rcases List.mem_append.mp h with h1 | h1
    · by_cases hk : f.bname = k ∧ f.bname ≠ []
      · rw [if_pos hk] at h1
        exact ⟨f, List.mem_cons_self f fs, h1⟩
      · rw [if_neg hk] at h1
        simp at h1
    · obtain ⟨g, hg, hl⟩ := ih h1
      exact ⟨g, List.mem_cons_of_mem f hg, hl⟩

/-- A tagged content line comes from the content line at some position. -/
theorem mem_contentLines (d : File) (lang : language) (pfx : Str) (l : CodeLine)
    (body : List Str) : ∀ first : Int, l ∈ contentLines d lang pfx first body →
      ∃ (j : Nat) (t : Str), body[j]? = some t ∧
        l = ⟨TrimPrefix t pfx, d, lang, first + j⟩ := by
  induction body with
  | nil => intro first h; simp [contentLines] at h
  | cons b bs ih =>
    intro first h
    simp only [contentLines, List.mem_cons] at h
    rcases h with h | h
    · exact ⟨0, b, by simp, by simp [h]⟩
    · obtain ⟨j, t, hj, hl⟩ := ih (first + 1) h
      refine ⟨j + 1, t, by simpa using hj, ?_⟩
      rw [hl]
      have e : first + 1 + (j : Int) = first + ((j + 1 : Nat) : Int) := by push_cast; ring
      rw [e]

/-- C13: every line that `ProcessFile` adds to the registry for a document
`d` of fewer than 2^63 lines (the lines of the closed fences registered under
a target path or a block name) is a content line of a fence of the document:
the document is made of lines `pre` after which the scan is outside a fence,
an opening line, content lines `body`, a closing line and lines `post`, and
the line added comes from the line `t` at position `i` of the document, among
`body`. It carries the document `d`, the line number `i + 1` (the 1-based
position, every line read being counted), the language parsed from the
opening line, and the text of `t` without the indentation of the fence. -/
theorem C13_registered_lines_carry_provenance (r : Reader) (d : Str) (reg : Registry)
    (k : Str) (l : CodeLine)
    (hlen : ((readStrings [] r.data).length : Int) < 9223372036854775808)
    (hadded : l ∈ linesForFile k (closedFences (initState reg d) (readStrings [] r.data)) ∨
      l ∈ linesForName k (closedFences (initState reg d) (readStrings [] r.data))) :
    ∃ (pre : List Str) (opener : Str) (body : List Str) (closer : Str) (post : List Str)
        (pfx : Str) (i : Nat) (t : Str),
      readStrings [] r.data = pre ++ opener :: body ++ closer :: post ∧
      (scanLoop (initState reg d) pre).inBlock = false ∧
      blockStartRe opener = some pfx ∧
      (∀ u ∈ body, isFenceClose (TrimPrefix u pfx) = false) ∧
      isFenceClose (TrimPrefix closer pfx) = true ∧
      pre.length < i ∧ i ≤ pre.length + body.length ∧
      (readStrings [] r.data)[i]? = some t ∧
      l.file = d ∧ l.number = (i : Int) + 1 ∧
      l.lang = (parseHeader (TrimPrefix opener pfx)).2.2 ∧
      l.text = TrimPrefix t pfx := by
  have hfence : ∃ f ∈ closedFences (initState reg d) (readStrings [] r.data), l ∈ f.block := by
    rcases hadded with h | h
    · exact mem_linesForFile k l _ h
    · exact mem_linesForName k l _ h
  obtain ⟨f, hf, hl⟩ := hfence
  obtain ⟨pre, opener, body, closer, post, pfx, hdoc, hout, hstart, hbody, hclose, _, _, hblock⟩ :=
    closedFences_of_document reg d _ hlen f hf
  rw [hblock] at hl
  obtain ⟨j, t, hj, hline⟩ := mem_contentLines d _ pfx l body _ hl
  have hjlt : j < body.length := by
    rcases List.getElem?_eq_some.mp hj with ⟨h, _⟩
    exact h
  refine ⟨pre, opener, body, closer, post, pfx, pre.length + 1 + j, t, hdoc, hout, hstart, hbody,
    hclose, by omega, by omega, ?_, ?_, ?_, ?_, ?_⟩
  · rw [hdoc]
    have e : pre ++ opener :: body ++ closer :: post
        = pre ++ ([opener] ++ (body ++ closer :: post)) := by simp
    rw [e, List.getElem?_append_right (by omega), List.getElem?_append_right (by simp; omega)]
    have e2 : pre.length + 1 + j - pre.length - [opener].length = j := by simp; omega
    rw [e2, List.getElem?_append_left hjlt]
    exact hj
  · rw [hline]
  · rw [hline]
    push_cast
    ring
  · rw [hline, headerOf_lang]
  · rw [hline]

/-- C13, at a concrete input: in `a.md`, the indented line `y` is the fourth
line of the document, inside a fence opened on the second line with language
go. -/
theorem C13_witness :
    ∃ (pre : List Str) (opener : Str) (body : List Str) (closer : Str) (post : List Str)
        (pfx : Str) (i : Nat) (t : Str),
      readStrings [] "intro\n```go > out.go\nx\n  y\n```\n".toList
        = pre ++ opener :: body ++ closer :: post ∧
      (scanLoop (initState emptyRegistry "a.md".toList) pre).inBlock = false ∧
      blockStartRe opener = some pfx ∧
      (∀ u ∈ body, isFenceClose (TrimPrefix u pfx) = false) ∧
      isFenceClose (TrimPrefix closer pfx) = true ∧
      pre.length < i ∧ i ≤ pre.length + body.length ∧
      (readStrings [] "intro\n```go > out.go\nx\n  y\n```\n".toList)[i]? = some t ∧
      (⟨"  y\n".toList, "a.md".toList, "go".toList, 4⟩ : CodeLine).file = "a.md".toList ∧
      (⟨"  y\n".toList, "a.md".toList, "go".toList, 4⟩ : CodeLine).number = (i : Int) + 1 ∧
      (⟨"  y\n".toList, "a.md".toList, "go".toList, 4⟩ : CodeLine).lang
        = (parseHeader (TrimPrefix opener pfx)).2.2 ∧
      (⟨"  y\n".toList, "a.md".toList, "go".toList, 4⟩ : CodeLine).text = TrimPrefix t pfx :=
  C13_registered_lines_carry_provenance
    ⟨"intro\n```go > out.go\nx\n  y\n```\n".toList, none⟩ "a.md".toList emptyRegistry
    "out.go".toList ⟨"  y\n".toList, "a.md".toList, "go".toList, 4⟩ (by decide)
    (Or.inl (by decide))

/-! ## Indentation and untracked fences -/

theorem TrimPrefix_append (p t : Str) : TrimPrefix (p ++ t) p = t := by
  simp [TrimPrefix, cutPrefix_append]

/-- An opening line: whitespace `p`, a fence marker, and anything. The group
captured is `p`. -/
theorem blockStartRe_indented (p m rest : Str) (hp : ∀ x ∈ p, isReSpace x = true)
    (hm : m = backtickFence ∨ m = tildeFence) :
    blockStartRe (p ++ (m ++ rest)) = some p := by
  obtain ⟨c, m1, hc, hsp, _⟩ := fence_eq_cons m hm
  have e1 : m ++ rest = c :: (m1 ++ rest) := by rw [hc]; simp
  unfold blockStartRe
  rw [List.dropWhile_append_of_pos hp, List.takeWhile_append_of_pos hp, e1,
    List.dropWhile_cons_of_neg (by simp [hsp]), List.takeWhile_cons_of_neg (by simp [hsp]),
    ← e1, cutFence_append m rest hm]
  simp

theorem headerOf_bare (d : File) (m : Str) (hm : m = backtickFence ∨ m = tildeFence) :
    headerOf d (m ++ ['\n']) = ([], [], []) := by
  have h := parseHeader_language_only m [] hm (by simp)
  rw [List.append_nil] at h
  unfold headerOf
  rw [h]
  simp

/-- Closing a fence without target path and without block name leaves the maps
as they are. -/
theorem scanLine_untracked (st : ScanState) (text : Str) (hin : st.inBlock = true)
    (hf : st.fname = []) (hb : st.bname = []) :
    (scanLine st text).reg = st.reg ∧ (scanLine st text).fname = [] ∧
      (scanLine st text).bname = [] ∧ (scanLine st text).blockPrefix = st.blockPrefix ∧
      (scanLine st text).line.lang = st.line.lang := by
  cases hc : isFenceClose (TrimPrefix text st.blockPrefix) with
  | false =>
    rw [scanLine_content st text hin hc]
    exact ⟨rfl, hf, hb, rfl, rfl⟩
  | true =>
    unfold scanLine
    simp [hin, hc, hf, hb]

theorem openedBy_cons (st : ScanState) (text : Str) (lines : List Str) :
    openedBy st (text :: lines) =
      (if st.inBlock = false then
        match blockStartRe text with
        | some pfx => [TrimPrefix text pfx]
        | none => []
      else []) ++ openedBy (scanLine st text) lines := rfl

/-- When every fence opened is opened by a marker alone, the maps stay as they
are. -/
theorem scanLoop_untracked (lines : List Str) : ∀ st : ScanState,
    (st.inBlock = true → st.fname = [] ∧ st.bname = []) →
    (∀ o ∈ openedBy st lines, o = backtickFence ++ ['\n'] ∨ o = tildeFence ++ ['\n']) →
    (scanLoop st lines).reg = st.reg := by
  induction lines with
  | nil => intro st _ _; rfl
  | cons t ts ih =>
    intro st hinv hop
    rw [openedBy_cons] at hop
    have hrest : ∀ o ∈ openedBy (scanLine st t) ts,
        o = backtickFence ++ ['\n'] ∨ o = tildeFence ++ ['\n'] :=
      fun o ho => hop o (List.mem_append_right _ ho)
    rw [scanLoop_cons]
    cases hin : st.inBlock with
    | true =>
      obtain ⟨hf, hb⟩ := hinv hin
      obtain ⟨h1, h2, h3, _, _⟩ := scanLine_untracked st t hin hf hb
      rw [ih (scanLine st t) (fun _ => ⟨h2, h3⟩) hrest, h1]
    | false =>
      cases hstart : blockStartRe t with
      | none =>
        have hout := scanLine_skip st t hin hstart
        rw [ih (scanLine st t) (fun h => by rw [hout] at h; exact absurd h (by simp)) hrest,
          scanLine_outside st t hin]
      | some pfx =>
        have hbare := hop (TrimPrefix t pfx) (by
          apply List.mem_append_left
          simp [hin, hstart])
        have hopen := scanLine_open st t pfx hin hstart
        have hhead : headerOf st.line.file (TrimPrefix t pfx) = ([], [], []) := by
          rcases hbare with h | h
          · rw [h]; exact headerOf_bare _ backtickFence (Or.inl rfl)
          · rw [h]; exact headerOf_bare _ tildeFence (Or.inr rfl)
        rw [ih (scanLine st t) (fun _ => by rw [hopen, hhead]; exact ⟨rfl, rfl⟩) hrest,
          scanLine_outside st t hin]

/-- C14: a fence opened by the fence marker alone is untracked. The opening
line, a marker alone after its indentation, gives neither target path nor
block name. Inside such a fence every iteration leaves the maps as they are,
whether the line is content or closes the fence, and leaves the indentation,
the language and the empty path and name of the fence untouched: a line inside
is never read as an opening line. So scanning a document whose fences are all
opened by a marker alone leaves both maps unchanged. -/
theorem C14_bare_fence_untracked :
    (∀ (st : ScanState) (p m : Str), st.inBlock = false →
      (∀ x ∈ p, isReSpace x = true) → (m = backtickFence ∨ m = tildeFence) →
      (scanLine st (p ++ (m ++ ['\n']))).inBlock = true ∧
      (scanLine st (p ++ (m ++ ['\n']))).fname = [] ∧
      (scanLine st (p ++ (m ++ ['\n']))).bname = [] ∧
      (scanLine st (p ++ (m ++ ['\n']))).reg = st.reg) ∧
    (∀ (st : ScanState) (text : Str), st.inBlock = true → st.fname = [] → st.bname = [] →
      (scanLine st text).reg = st.reg ∧ (scanLine st text).fname = [] ∧
      (scanLine st text).bname = [] ∧ (scanLine st text).blockPrefix = st.blockPrefix ∧
      (scanLine st text).line.lang = st.line.lang) ∧
    (∀ (r : Reader) (d : Str) (reg : Registry),
      (∀ o ∈ openedBy (initState reg d) (readStrings [] r.data),
        o = backtickFence ++ ['\n'] ∨ o = tildeFence ++ ['\n']) →
      (ProcessFile r d reg).1 = reg) := by
  refine ⟨?_, ?_, ?_⟩
  · intro st p m hin hp hm
    have hstart := blockStartRe_indented p m ['\n'] hp hm
    have hopen := scanLine_open st _ p hin hstart
    rw [TrimPrefix_append, headerOf_bare _ m hm] at hopen
    rw [hopen]
    exact ⟨rfl, rfl, rfl, rfl⟩
  · intro st text hin hf hb
    exact scanLine_untracked st text hin hf hb
  · intro r d reg hop
    exact scanLoop_untracked (readStrings [] r.data) (initState reg d)
      (fun h => by simp [initState] at h) hop

/-- C14, at a concrete input: a document with one fence, opened by three
backticks alone, that holds a line which would open a file block. -/
theorem C14_witness :
    (ProcessFile ⟨"```\n```go > out.go\nx\n```\n".toList, none⟩ "a.md".toList
      { blocks := fun _ => none,
        files := fun k => if k = "out.go".toList then
          some [⟨"package main\n".toList, "first.md".toList, "go".toList, 2⟩] else none }).1
    = { blocks := fun _ => none,
        files := fun k => if k = "out.go".toList then
          some [⟨"package main\n".toList, "first.md".toList, "go".toList, 2⟩] else none } :=
  C14_bare_fence_untracked.2.2 ⟨"```\n```go > out.go\nx\n```\n".toList, none⟩ "a.md".toList
    { blocks := fun _ => none,
      files := fun k => if k = "out.go".toList then
        some [⟨"package main\n".toList, "first.md".toList, "go".toList, 2⟩] else none }
    (by decide)

/-! ## Where the lines of an expansion come from -/

/-- Every line of the result of the loop of `Replace` is a literal line of the
block, with the prefix unless blank; or a line of the expansion of a resolved
reference of the block; or an unresolved reference line of the block. -/
theorem replaceLoop_mem_inv (blocks : BlockName → Option CodeBlock)
    (recurse : CodeBlock → Str → Option CodeBlock) (pre : Str) (l : CodeLine) :
    ∀ (c r : CodeBlock), replaceLoop blocks recurse pre c = some r → l ∈ r →
      (∃ v ∈ c, replaceRe v.text = none ∧
        l = (if v.text ≠ ['\n'] then { v with text := pre ++ v.text } else v)) ∨
      (∃ v ∈ c, ∃ (p : Str) (bname : BlockName) (val sub : CodeBlock),
        replaceRe v.text = some (p, bname) ∧ blocks bname = some val ∧
        recurse val (pre ++ p) = some sub ∧ l ∈ sub) ∨
      (∃ v ∈ c, ∃ (p : Str) (bname : BlockName),
        replaceRe v.text = some (p, bname) ∧ blocks bname = none ∧ l = v) := by
  intro c
  induction c with
  | nil => intro r hr hl; simp [replaceLoop] at hr; subst hr; simp at hl
  | cons v c ih =>
    intro r hr hl
    have lift : ∀ r2, replaceLoop blocks recurse pre c = some r2 → l ∈ r2 →
        (∃ u ∈ v :: c, replaceRe u.text = none ∧
          l = (if u.text ≠ ['\n'] then { u with text := pre ++ u.text } else u)) ∨
        (∃ u ∈ v :: c, ∃ (p : Str) (bname : BlockName) (val sub : CodeBlock),
          replaceRe u.text = some (p, bname) ∧ blocks bname = some val ∧
          recurse val (pre ++ p) = some sub ∧ l ∈ sub) ∨
        (∃ u ∈ v :: c, ∃ (p : Str) (bname : BlockName),
          replaceRe u.text = some (p, bname) ∧ blocks bname = none ∧ l = u) := by
      intro r2 hr2 hl2
      rcases ih r2 hr2 hl2 with ⟨u, hu, h⟩ | ⟨u, hu, h⟩ | ⟨u, hu, h⟩
      · exact Or.inl ⟨u, List.mem_cons_of_mem v hu, h⟩
      · exact Or.inr (Or.inl ⟨u, List.mem_cons_of_mem v hu, h⟩)
      · exact Or.inr (Or.inr ⟨u, List.mem_cons_of_mem v hu, h⟩)
    cases href : replaceRe v.text with
    | none =>
      rw [replaceLoop_cons_literal _ _ _ _ _ href] at hr
      obtain ⟨r2, hr2, rfl⟩ := Option.map_eq_some'.mp hr
      rcases List.mem_cons.mp hl with h | h
      · exact Or.inl ⟨v, List.mem_cons_self v c, href, h⟩
      · exact lift r2 hr2 h
    | some pn =>
      obtain ⟨p, bname⟩ := pn
      cases hb : blocks bname with
      | none =>
        rw [replaceLoop_cons_missing _ _ _ _ _ _ _ href hb] at hr
        obtain ⟨r2, hr2, rfl⟩ := Option.map_eq_some'.mp hr
        rcases List.mem_cons.mp hl with h | h
        · exact Or.inr (Or.inr ⟨v, List.mem_cons_self v c, p, bname, href, hb, h⟩)
        · exact lift r2 hr2 h
      | some val =>
        rw [replaceLoop_cons_found _ _ _ _ _ _ _ _ href hb] at hr
        obtain ⟨sub, hsub, hrest⟩ := Option.bind_eq_some.mp hr
        obtain ⟨r2, hr2, rfl⟩ := Option.map_eq_some'.mp hrest
        rcases List.mem_append.mp hl with h | h
        · exact Or.inr (Or.inl ⟨v, List.mem_cons_self v c, p, bname, val, sub, href, hb, hsub, h⟩)
        · exact lift r2 hr2 h

/-- Whitespace in front of a text that is no reference does not make it one. -/
theorem replaceRe_space_prefix (pre t : Str) (hpre : ∀ x ∈ pre, isReSpace x = true)
    (h : replaceRe t = none) : replaceRe (pre ++ t) = none := by
  unfold replaceRe at h ⊢
  rw [List.dropWhile_append_of_pos hpre]
  cases h1 : cutPrefix ['<', '<', '<'] (List.dropWhile isReSpace t) with
  | none => rfl
  | some body =>
    rw [h1] at h
    simp only [] at h ⊢
    cases h2 : cutSuffix ['>', '>', '>'] (dropWhileEnd isReSpace body) with
    | none => rfl
    | some name =>
      rw [h2] at h
      simp only [] at h ⊢
      by_cases hn : name ≠ [] ∧ name.all isDot = true
      · rw [if_pos hn] at h
        exact absurd h (by simp)
      · rw [if_neg hn]

/-- The indentation captured from a reference line is whitespace. -/
theorem replaceRe_captured_space (t p : Str) (bname : BlockName)
    (h : replaceRe t = some (p, bname)) : ∀ x ∈ p, isReSpace x = true := by
  unfold replaceRe at h
  cases h1 : cutPrefix ['<', '<', '<'] (List.dropWhile isReSpace t) with
  | none => rw [h1] at h; exact absurd h (by simp)
  | some body =>
    rw [h1] at h
    simp only [] at h
    cases h2 : cutSuffix ['>', '>', '>'] (dropWhileEnd isReSpace body) with
    | none => rw [h2] at h; exact absurd h (by simp)
    | some name =>
      rw [h2] at h
      simp only [] at h
      by_cases hn : name ≠ [] ∧ name.all isDot = true
      · rw [if_pos hn] at h
        have hp : List.takeWhile isReSpace t = p := by
          have := Option.some.inj h
          exact (Prod.mk.inj this).1
        intro x hx
        rw [← hp] at hx
        exact List.mem_takeWhile_imp hx
      · rw [if_neg hn] at h
        exact absurd h (by simp)

/-- Under a whitespace prefix, and when every name referenced from the block,
directly or through referenced blocks, is defined, the result of `Replace`
holds no reference line. -/
theorem Replace_reference_free (blocks : BlockName → Option CodeBlock) :
    ∀ (fuel : Nat) (c r : CodeBlock) (pre : Str),
      (∀ x ∈ pre, isReSpace x = true) →
      (∀ d, Reaches blocks c d → ∀ v ∈ d, ∀ (p : Str) (bname : BlockName),
        replaceRe v.text = some (p, bname) → blocks bname ≠ none) →
      Replace blocks fuel c pre = some r → ∀ l ∈ r, replaceRe l.text = none := by
  intro fuel
  induction fuel with
  | zero => intro c r pre _ _ hr; simp [Replace] at hr
  | succ n ih =>
    intro c r pre hpre hdef hr l hl
    rw [Replace_succ] at hr
    rcases replaceLoop_mem_inv blocks _ pre l c r hr hl with
      ⟨v, _, hlit, hlv⟩ | ⟨v, hv, p, bname, val, sub, href, hb, hsub, hlsub⟩ |
      ⟨v, hv, p, bname, href, hb, _⟩
    · by_cases hne : v.text ≠ ['\n']
      · rw [if_pos hne] at hlv
        rw [hlv]
        exact replaceRe_space_prefix pre v.text hpre hlit
      · rw [if_neg hne] at hlv
        rw [hlv]
        exact hlit
    · have hpre2 : ∀ x ∈ pre ++ p, isReSpace x = true := by
        intro x hx
        rcases List.mem_append.mp hx with h | h
        · exact hpre x h
        · exact replaceRe_captured_space v.text p bname href x h
      have hdef2 : ∀ d, Reaches blocks val d → ∀ u ∈ d, ∀ (q : Str) (b2 : BlockName),
          replaceRe u.text = some (q, b2) → blocks b2 ≠ none :=
        fun d hd => hdef d (Reaches.step c val d v p bname hv href hb hd)
      exact ih val sub (pre ++ p) hpre2 hdef2 hsub l hlsub
    · exact absurd hb (hdef c (Reaches.refl c) v hv p bname href)

/-- C15: for every block and every registry in which each block name
referenced from the block, directly or through other referenced blocks, is
defined, every result of `Replace("")` holds no line matching the reference
expression: the expanded block is reference-free. The indentation captured
from a reference line is whitespace, and whitespace put in front of a literal
line never turns it into a reference. -/
theorem C15_expansion_is_reference_free
    (blocks : BlockName → Option CodeBlock) (fuel : Nat) (c r : CodeBlock)
    (hdef : ∀ d, Reaches blocks c d → ∀ v ∈ d, ∀ (p : Str) (bname : BlockName),
      replaceRe v.text = some (p, bname) → blocks bname ≠ none)
    (hr : Replace blocks fuel c [] = some r) :
    (∀ l ∈ r, replaceRe l.text = none) ∧
    (∀ (t p : Str) (bname : BlockName), replaceRe t = some (p, bname) →
      ∀ x ∈ p, isReSpace x = true) ∧
    (∀ pre t : Str, (∀ x ∈ pre, isReSpace x = true) → replaceRe t = none →
      replaceRe (pre ++ t) = none) :=
  ⟨Replace_reference_free blocks fuel c r [] (by simp) hdef hr,
    replaceRe_captured_space, replaceRe_space_prefix⟩

/-- C15, at a concrete input: a block with a reference to the defined block
`B` and a literal line. -/
theorem C15_witness :
    Replace (fun k => if k = "B".toList then
        some [⟨"x\n".toList, "doc.md".toList, "go".toList, 7⟩] else none) 2
      [⟨"  <<<B>>>\n".toList, "doc.md".toList, "go".toList, 3⟩,
        ⟨"y\n".toList, "doc.md".toList, "go".toList, 4⟩] []
      = some [⟨"  x\n".toList, "doc.md".toList, "go".toList, 7⟩,
        ⟨"y\n".toList, "doc.md".toList, "go".toList, 4⟩] ∧
    ∀ l ∈ ([⟨"  x\n".toList, "doc.md".toList, "go".toList, 7⟩,
        ⟨"y\n".toList, "doc.md".toList, "go".toList, 4⟩] : CodeBlock), replaceRe l.text = none := by
  have hr : Replace (fun k => if k = "B".toList then
        some [⟨"x\n".toList, "doc.md".toList, "go".toList, 7⟩] else none) 2
      [⟨"  <<<B>>>\n".toList, "doc.md".toList, "go".toList, 3⟩,
        ⟨"y\n".toList, "doc.md".toList, "go".toList, 4⟩] []
      = some [⟨"  x\n".toList, "doc.md".toList, "go".toList, 7⟩,
        ⟨"y\n".toList, "doc.md".toList, "go".toList, 4⟩] := by decide
  have hreach : ∀ a d : CodeBlock,
      Reaches (fun k => if k = "B".toList then
        some [⟨"x\n".toList, "doc.md".toList, "go".toList, 7⟩] else none) a d →
      (a = [⟨"  <<<B>>>\n".toList, "doc.md".toList, "go".toList, 3⟩,
        ⟨"y\n".toList, "doc.md".toList, "go".toList, 4⟩] ∨
        a = [⟨"x\n".toList, "doc.md".toList, "go".toList, 7⟩]) →
      (d = [⟨"  <<<B>>>\n".toList, "doc.md".toList, "go".toList, 3⟩,
        ⟨"y\n".toList, "doc.md".toList, "go".toList, 4⟩] ∨
        d = [⟨"x\n".toList, "doc.md".toList, "go".toList, 7⟩]) := by
    intro a d h
    induction h with
    | refl a => exact id
    | step a val d v p bname _ _ hb _ ih =>
      intro _
      apply ih
      right
      by_cases hk : bname = "B".toList
      · rw [if_pos hk] at hb
        exact (Option.some.inj hb).symm
      · rw [if_neg hk] at hb
        exact absurd hb (by simp)
  refine ⟨hr, (C15_expansion_is_reference_free _ 2 _ _ ?_ hr).1⟩
  intro d hd v hv p bname href
  rcases hreach _ d hd (Or.inl rfl) with h | h
  · subst h
    simp only [List.mem_cons, List.mem_singleton, List.not_mem_nil, or_false] at hv
    rcases hv with hv | hv
    · subst hv
      have h1 : replaceRe ("  <<<B>>>\n".toList) = some ("  ".toList, "B".toList) := by decide
      have h2 : bname = "B".toList := by
        have h3 : (some ("  ".toList, "B".toList) : Option (Str × Str)) = some (p, bname) :=
          h1.symm.trans href
        exact ((Prod.mk.inj (Option.some.inj h3)).2).symm
      rw [h2]
      decide
    · subst hv
      have h1 : replaceRe ("y\n".toList) = none := by decide
      exact absurd (h1.symm.trans href) (by simp)
  · subst h
    simp only [List.mem_singleton] at hv
    subst hv
    have h1 : replaceRe ("x\n".toList) = none := by decide
    exact absurd (h1.symm.trans href) (by simp)

/-! ## Languages without a directive format -/

/-- A line of a language without a directive format is emitted as it is,
whatever the tracked provenance. -/
theorem finalizeStep_unknown (s : FinalizeState) (l : CodeLine)
    (h : knownFormat l.lang = false) : (finalizeStep s l).ret = s.ret ++ l.text := by
  unfold finalizeStep
  by_cases hc : wrapInt (s.linenumber + 1) ≠ l.number ∨ s.file ≠ l.file
  · rw [if_pos hc, (directive_eq_none_iff l).mpr h]
  · rw [if_neg hc]

theorem finalizeLoop_unknown (c : CodeBlock) : ∀ s : FinalizeState,
    (∀ l ∈ c, knownFormat l.lang = false) → (finalizeLoop s c).ret = s.ret ++ texts c := by
  induction c with
  | nil => intro s _; simp [finalizeLoop_nil, texts]
  | cons l c ih =>
    intro s h
    rw [finalizeLoop_cons, ih _ (fun x hx => h x (List.mem_cons_of_mem l hx)),
      finalizeStep_unknown s l (h l (List.mem_cons_self l c))]
    simp [texts]

/-- C16: for every block in which every line has a language without a known
directive format (any tag other than go, golang, c, C and cpp, the empty tag
included), `Finalize` returns exactly the concatenation of the line texts in
block order, whatever the documents and line numbers of the lines are. -/
theorem C16_no_directive_for_unknown_languages (c : CodeBlock)
    (h : ∀ l ∈ c, knownFormat l.lang = false) : Finalize c = texts c := by
  unfold Finalize
  rw [finalizeLoop_unknown c _ h]
  rfl

/-- C16, at a concrete input: three lines of python and of no language, from
two documents, with line numbers out of order. -/
theorem C16_witness :
    Finalize [⟨"a\n".toList, "x.md".toList, "python".toList, 9⟩,
        ⟨"b\n".toList, "y.md".toList, [], 2⟩,
        ⟨"c\n".toList, "x.md".toList, "python".toList, 3⟩] = "a\nb\nc\n".toList :=
  (C16_no_directive_for_unknown_languages
    [⟨"a\n".toList, "x.md".toList, "python".toList, 9⟩,
      ⟨"b\n".toList, "y.md".toList, [], 2⟩,
      ⟨"c\n".toList, "x.md".toList, "python".toList, 3⟩] (by decide)).trans (by decide)

/-! ## The indentation of a fence -/

theorem cutPrefix_eq_some (p : Str) : ∀ (t u : Str), cutPrefix p t = some u → t = p ++ u := by
  induction p with
  | nil => intro t u h; cases t <;> simp [cutPrefix] at h <;> simp [h]
  | cons a p ih =>
    intro t u h
    cases t with
    | nil => simp [cutPrefix] at h
    | cons b t =>
      simp only [cutPrefix] at h
      by_cases hab : a = b
      · rw [if_pos hab] at h
        rw [hab, ih t u h]
        rfl
      · rw [if_neg hab] at h
        exact absurd h (by simp)

/-- A text that does not start with `p` is left as it is by `TrimPrefix`. -/
theorem TrimPrefix_of_not_prefix (p t : Str) (h : ∀ u, t ≠ p ++ u) : TrimPrefix t p = t := by
  unfold TrimPrefix
  cases hc : cutPrefix p t with
  | none => rfl
  | some u => exact absurd (cutPrefix_eq_some p t u hc) (h u)

theorem scanLine_content_fields (st : ScanState) (text : Str) (hin : st.inBlock = true)
    (hc : isFenceClose (TrimPrefix text st.blockPrefix) = false) :
    (scanLine st text).block = st.block ++
        [⟨TrimPrefix text st.blockPrefix, st.line.file, st.line.lang,
          wrapInt (st.line.number + 1)⟩] ∧
      (scanLine st text).inBlock = true ∧
      (scanLine st text).blockPrefix = st.blockPrefix ∧
      (scanLine st text).reg = st.reg := by
  rw [scanLine_content st text hin hc]
  exact ⟨rfl, hin, rfl, rfl⟩

/-- A marker line with whitespace in front of the marker is no closing line. -/
theorem isFenceClose_indented (q m : Str) (hq : q ≠ []) (hqs : ∀ x ∈ q, isReSpace x = true) :
    isFenceClose (q ++ (m ++ ['\n'])) = false := by
  obtain ⟨a, q1, hq1⟩ := List.exists_cons_of_ne_nil hq
  have ha : isReSpace a = true := hqs a (by rw [hq1]; exact List.mem_cons_self a q1)
  cases hcl : isFenceClose (q ++ (m ++ ['\n'])) with
  | false => rfl
  | true =>
    exfalso
    rw [isFenceClose_iff, hq1] at hcl
    rcases hcl with h | h
    · have e : a = '\x60' := by
        have := List.head_eq_of_cons_eq h
        exact this
      rw [e] at ha
      revert ha
      decide
    · have e : a = '~' := by
        have := List.head_eq_of_cons_eq h
        exact this
      rw [e] at ha
      revert ha
      decide

/-- C17: the opening line of a fence that starts with whitespace `p` before
the marker sets the indentation of the fence to `p`. Inside that fence
`ProcessFile` records a content line `p ++ u` as `u`, one leading copy of `p`
removed; records a content line that does not start with `p` unchanged;
closes the fence on the line `p`, marker, newline; and keeps a marker line
indented deeper than `p` as content, with one copy of `p` removed. A content
line is a line that, without the indentation, is no closing line. -/
theorem C17_indentation_stripped_once (st : ScanState) (p m rest : Str)
    (hout : st.inBlock = false) (hp : ∀ x ∈ p, isReSpace x = true)
    (hm : m = backtickFence ∨ m = tildeFence) :
    ((scanLine st (p ++ (m ++ rest))).inBlock = true ∧
      (scanLine st (p ++ (m ++ rest))).blockPrefix = p ∧
      (scanLine st (p ++ (m ++ rest))).block = []) ∧
    (∀ st2 : ScanState, st2.inBlock = true → st2.blockPrefix = p →
      (∀ u : Str, isFenceClose u = false →
        (scanLine st2 (p ++ u)).block = st2.block ++
            [⟨u, st2.line.file, st2.line.lang, wrapInt (st2.line.number + 1)⟩] ∧
          (scanLine st2 (p ++ u)).inBlock = true ∧ (scanLine st2 (p ++ u)).blockPrefix = p) ∧
      (∀ t : Str, (∀ u, t ≠ p ++ u) → isFenceClose t = false →
        (scanLine st2 t).block = st2.block ++
            [⟨t, st2.line.file, st2.line.lang, wrapInt (st2.line.number + 1)⟩] ∧
          (scanLine st2 t).inBlock = true ∧ (scanLine st2 t).blockPrefix = p) ∧
      (∀ m2 : Str, (m2 = backtickFence ∨ m2 = tildeFence) →
        (scanLine st2 (p ++ (m2 ++ ['\n']))).inBlock = false) ∧
      (∀ m2 q : Str, (m2 = backtickFence ∨ m2 = tildeFence) → q ≠ [] →
        (∀ x ∈ q, isReSpace x = true) →
        (scanLine st2 (p ++ (q ++ (m2 ++ ['\n'])))).block = st2.block ++
            [⟨q ++ (m2 ++ ['\n']), st2.line.file, st2.line.lang,
              wrapInt (st2.line.number + 1)⟩] ∧
          (scanLine st2 (p ++ (q ++ (m2 ++ ['\n'])))).inBlock = true)) := by
  constructor
  · have hopen := scanLine_open st _ p hout (blockStartRe_indented p m rest hp hm)
    rw [hopen]
    exact ⟨rfl, rfl, rfl⟩
  · intro st2 hin hpfx
    refine ⟨?_, ?_, ?_, ?_⟩
    · intro u hu
      have hc : isFenceClose (TrimPrefix (p ++ u) st2.blockPrefix) = false := by
        rw [hpfx, TrimPrefix_append]; exact hu
      obtain ⟨h1, h2, h3, _⟩ := scanLine_content_fields st2 (p ++ u) hin hc
      rw [hpfx, TrimPrefix_append] at h1
      exact ⟨h1, h2, h3.trans hpfx⟩
    · intro t ht hcl
      have htrim : TrimPrefix t st2.blockPrefix = t := by
        rw [hpfx]; exact TrimPrefix_of_not_prefix p t ht
      have hc : isFenceClose (TrimPrefix t st2.blockPrefix) = false := by
        rw [htrim]; exact hcl
      obtain ⟨h1, h2, h3, _⟩ := scanLine_content_fields st2 t hin hc
      rw [htrim] at h1
      exact ⟨h1, h2, h3.trans hpfx⟩
    · intro m2 hm2
      have hc : isFenceClose (TrimPrefix (p ++ (m2 ++ ['\n'])) st2.blockPrefix) = true := by
        rw [hpfx, TrimPrefix_append, isFenceClose_iff]
        rcases hm2 with h | h
        · exact Or.inl (by rw [h])
        · exact Or.inr (by rw [h])
      exact (scanLine_close st2 _ hin hc).1
    · intro m2 q _ hq hqs
      have hc : isFenceClose (TrimPrefix (p ++ (q ++ (m2 ++ ['\n']))) st2.blockPrefix)
          = false := by
        rw [hpfx, TrimPrefix_append]
        exact isFenceClose_indented q m2 hq hqs
      obtain ⟨h1, h2, _, _⟩ := scanLine_content_fields st2 _ hin hc
      rw [hpfx, TrimPrefix_append] at h1
      exact ⟨h1, h2⟩

/-- C17, at a concrete input: a fence of `a.md` opened with an indentation of
two spaces; a line indented by four spaces, a line without indentation, the
closing line indented by two spaces, and a marker line indented by four
spaces. -/
theorem C17_witness :
    (scanLine (initState emptyRegistry "a.md".toList) "  ```go > out.go\n".toList).blockPrefix
      = "  ".toList ∧
    (scanLine
        { reg := emptyRegistry, line := ⟨"```go > out.go\n".toList, "a.md".toList, "go".toList, 1⟩,
          inBlock := true, bname := [], fname := "out.go".toList, block := [],
          blockPrefix := "  ".toList }
        "    x\n".toList).block = [⟨"  x\n".toList, "a.md".toList, "go".toList, 2⟩] ∧
    (scanLine
        { reg := emptyRegistry, line := ⟨"```go > out.go\n".toList, "a.md".toList, "go".toList, 1⟩,
          inBlock := true, bname := [], fname := "out.go".toList, block := [],
          blockPrefix := "  ".toList }
        "x\n".toList).block = [⟨"x\n".toList, "a.md".toList, "go".toList, 2⟩] ∧
    (scanLine
        { reg := emptyRegistry, line := ⟨"```go > out.go\n".toList, "a.md".toList, "go".toList, 1⟩,
          inBlock := true, bname := [], fname := "out.go".toList, block := [],
          blockPrefix := "  ".toList }
        "  ~~~\n".toList).inBlock = false ∧
    (scanLine
        { reg := emptyRegistry, line := ⟨"```go > out.go\n".toList, "a.md".toList, "go".toList, 1⟩,
          inBlock := true, bname := [], fname := "out.go".toList, block := [],
          blockPrefix := "  ".toList }
        "    ```\n".toList).block = [⟨"  ```\n".toList, "a.md".toList, "go".toList, 2⟩] ∧
    (ProcessFile ⟨"  ```go > out.go\n    x\nx\n    ```\n  ```\n".toList, none⟩ "a.md".toList
        emptyRegistry).1.files "out.go".toList
      = some [⟨"  x\n".toList, "a.md".toList, "go".toList, 2⟩,
          ⟨"x\n".toList, "a.md".toList, "go".toList, 3⟩,
          ⟨"  ```\n".toList, "a.md".toList, "go".toList, 4⟩] :=
  ⟨(C17_indentation_stripped_once (initState emptyRegistry "a.md".toList) "  ".toList
      backtickFence "go > out.go\n".toList rfl (by decide) (Or.inl rfl)).1.2.1,
    (((C17_indentation_stripped_once (initState emptyRegistry "a.md".toList) "  ".toList
      backtickFence "go > out.go\n".toList rfl (by decide) (Or.inl rfl)).2
        { reg := emptyRegistry, line := ⟨"```go > out.go\n".toList, "a.md".toList, "go".toList, 1⟩,
          inBlock := true, bname := [], fname := "out.go".toList, block := [],
          blockPrefix := "  ".toList } rfl rfl).1 "  x\n".toList (by decide)).1.trans (by decide),
    (((C17_indentation_stripped_once (initState emptyRegistry "a.md".toList) "  ".toList
      backtickFence "go > out.go\n".toList rfl (by decide) (Or.inl rfl)).2
        { reg := emptyRegistry, line := ⟨"```go > out.go\n".toList, "a.md".toList, "go".toList, 1⟩,
          inBlock := true, bname := [], fname := "out.go".toList, block := [],
          blockPrefix := "  ".toList } rfl rfl).2.1 "x\n".toList
          (by intro u h; revert h; simp) (by decide)).1.trans (by decide),
    ((C17_indentation_stripped_once (initState emptyRegistry "a.md".toList) "  ".toList
      backtickFence "go > out.go\n".toList rfl (by decide) (Or.inl rfl)).2
        { reg := emptyRegistry, line := ⟨"```go > out.go\n".toList, "a.md".toList, "go".toList, 1⟩,
          inBlock := true, bname := [], fname := "out.go".toList, block := [],
          blockPrefix := "  ".toList } rfl rfl).2.2.1 tildeFence (Or.inr rfl),
    (((C17_indentation_stripped_once (initState emptyRegistry "a.md".toList) "  ".toList
      backtickFence "go > out.go\n".toList rfl (by decide) (Or.inl rfl)).2
        { reg := emptyRegistry, line := ⟨"```go > out.go\n".toList, "a.md".toList, "go".toList, 1⟩,
          inBlock := true, bname := [], fname := "out.go".toList, block := [],
          blockPrefix := "  ".toList } rfl rfl).2.2.2 backtickFence "  ".toList (Or.inl rfl) (by decide)
          (by decide)).1.trans (by decide),
    by decide⟩

/-! ## `Replace` changes only text -/

/-- Every line of a result of `Replace` has the provenance of a line of the
block or of a registry block, and the text of that line, possibly after a
prefix. -/
theorem Replace_provenance (blocks : BlockName → Option CodeBlock) :
    ∀ (fuel : Nat) (c r : CodeBlock) (e : Str), Replace blocks fuel c e = some r →
      ∀ l ∈ r, ∃ src : CodeLine,
        (src ∈ c ∨ ∃ (bname : BlockName) (val : CodeBlock),
          blocks bname = some val ∧ src ∈ val) ∧
        l.file = src.file ∧ l.lang = src.lang ∧ l.number = src.number ∧
        (l.text = src.text ∨ ∃ q : Str, l.text = q ++ src.text) := by
  intro fuel
  induction fuel with
  | zero => intro c r e hr; simp [Replace] at hr
  | succ n ih =>
    intro c r e hr l hl
    rw [Replace_succ] at hr
    rcases replaceLoop_mem_inv blocks _ e l c r hr hl with
      ⟨v, hv, _, hlv⟩ | ⟨v, _, p, bname, val, sub, _, hb, hsub, hlsub⟩ |
      ⟨v, hv, _, _, _, _, hlv⟩
    · by_cases hne : v.text ≠ ['\n']
      · rw [if_pos hne] at hlv
        rw [hlv]
        exact ⟨v, Or.inl hv, rfl, rfl, rfl, Or.inr ⟨e, rfl⟩⟩
      · rw [if_neg hne] at hlv
        rw [hlv]
        exact ⟨v, Or.inl hv, rfl, rfl, rfl, Or.inl rfl⟩
    · obtain ⟨src, hsrc, h1, h2, h3, h4⟩ := ih val sub (e ++ p) hsub l hlsub
      refine ⟨src, Or.inr ?_, h1, h2, h3, h4⟩
      rcases hsrc with h | h
      · exact ⟨bname, val, hb, h⟩
      · exact h
    · rw [hlv]
      exact ⟨v, Or.inl hv, rfl, rfl, rfl, Or.inl rfl⟩

/-- C18: `Replace` changes only text. Every line of a result has the
document, language and line number of one line of the input block or of a
registry block, and its text is the text of that line or that text with a
prefix in front. For a block without reference lines `Replace(p)` returns a
block of the same length whose i-th line has the provenance of the i-th input
line and the text `p ++ text`, or the text unchanged for a blank line. -/
theorem C18_replace_changes_only_text :
    (∀ (blocks : BlockName → Option CodeBlock) (fuel : Nat) (c r : CodeBlock) (e : Str),
      Replace blocks fuel c e = some r →
      ∀ l ∈ r, ∃ src : CodeLine,
        (src ∈ c ∨ ∃ (bname : BlockName) (val : CodeBlock),
          blocks bname = some val ∧ src ∈ val) ∧
        l.file = src.file ∧ l.lang = src.lang ∧ l.number = src.number ∧
        (l.text = src.text ∨ ∃ q : Str, l.text = q ++ src.text)) ∧
    (∀ (blocks : BlockName → Option CodeBlock) (fuel : Nat) (blk : CodeBlock) (p : Str),
      (∀ v ∈ blk, replaceRe v.text = none) →
      ∃ r, Replace blocks (fuel + 1) blk p = some r ∧ r.length = blk.length ∧
        ∀ (i : Nat) (v : CodeLine), blk[i]? = some v →
          ∃ l, r[i]? = some l ∧ l.file = v.file ∧ l.lang = v.lang ∧ l.number = v.number ∧
            l.text = if v.text = ['\n'] then v.text else p ++ v.text) := by
  refine ⟨Replace_provenance, ?_⟩
  intro blocks fuel c p hc
  refine ⟨_, by rw [Replace_succ]; exact replaceLoop_no_reference blocks _ p c hc, by simp, ?_⟩
  intro i v hv
  rw [List.getElem?_map, hv]
  refine ⟨_, rfl, ?_⟩
  by_cases hb : v.text = ['\n']
  · simp [hb]
  · simp [hb]

/-- C18, at a concrete input: a block of a literal line and a blank line,
expanded under a prefix of one tab. -/
theorem C18_witness :
    ∃ r, Replace (fun _ => none) 1
        [⟨"x\n".toList, "a.md".toList, "go".toList, 3⟩,
          ⟨"\n".toList, "a.md".toList, "go".toList, 4⟩] "\t".toList = some r ∧
      r.length = 2 ∧
      r = [⟨"\tx\n".toList, "a.md".toList, "go".toList, 3⟩,
          ⟨"\n".toList, "a.md".toList, "go".toList, 4⟩] := by
  obtain ⟨r, hr, hlen, _⟩ := C18_replace_changes_only_text.2 (fun _ => none) 0
    [⟨"x\n".toList, "a.md".toList, "go".toList, 3⟩,
      ⟨"\n".toList, "a.md".toList, "go".toList, 4⟩] "\t".toList (by decide)
  refine ⟨r, hr, hlen, ?_⟩
  have h2 : Replace (fun _ => none) 1
      [⟨"x\n".toList, "a.md".toList, "go".toList, 3⟩,
        ⟨"\n".toList, "a.md".toList, "go".toList, 4⟩] "\t".toList
      = some [⟨"\tx\n".toList, "a.md".toList, "go".toList, 3⟩,
          ⟨"\n".toList, "a.md".toList, "go".toList, 4⟩] := by decide
  exact Option.some.inj (hr.symm.trans h2)

/-! ## Termination of `Replace` -/

theorem reaches_of_refs (blocks : BlockName → Option CodeBlock) (c val d : CodeBlock)
    (h : Refs blocks c val) (hd : Reaches blocks val d) : Reaches blocks c d := by
  obtain ⟨v, hv, p, bname, href, hb⟩ := h
  exact Reaches.step c val d v p bname hv href hb hd

theorem reaches_trans (blocks : BlockName → Option CodeBlock) (a b d : CodeBlock)
    (hab : Reaches blocks a b) (hbd : Reaches blocks b d) : Reaches blocks a d := by
  induction hab with
  | refl a => exact hbd
  | step a val b v p bname hv href hb _ ih =>
    exact Reaches.step a val d v p bname hv href hb (ih hbd)

theorem reaches_tail (blocks : BlockName → Option CodeBlock) (a b d : CodeBlock)
    (hab : Reaches blocks a b) (hbd : Refs blocks b d) : Reaches blocks a d :=
  reaches_trans blocks a b d hab (reaches_of_refs blocks b d d hbd (Reaches.refl d))

/-- When `Replace` returns on a block, it returned, at a lower depth, on the
block of each of its resolved references. -/
theorem Replace_of_refs (blocks : BlockName → Option CodeBlock) (fuel : Nat)
    (c val r : CodeBlock) (e : Str) (h : Refs blocks c val)
    (hr : Replace blocks fuel c e = some r) :
    ∃ (n : Nat) (e2 : Str) (r2 : CodeBlock), n < fuel ∧ Replace blocks n val e2 = some r2 := by
  obtain ⟨v, hv, p, bname, href, hb⟩ := h
  cases fuel with
  | zero => simp [Replace] at hr
  | succ n =>
    rw [Replace_succ] at hr
    obtain ⟨sub, hsub, _⟩ := replaceLoop_mem_found _ _ _ _ _ _ _ href hb c r hr hv
    exact ⟨n, e ++ p, sub, Nat.lt_succ_self n, hsub⟩

/-- When `Replace` returns on a block, it returned, at no higher depth, on
every block reached from it. -/
theorem Replace_of_reaches (blocks : BlockName → Option CodeBlock) (c d : CodeBlock)
    (h : Reaches blocks c d) :
    ∀ (fuel : Nat) (e : Str) (r : CodeBlock), Replace blocks fuel c e = some r →
      ∃ (n : Nat) (e2 : Str) (r2 : CodeBlock), n ≤ fuel ∧ Replace blocks n d e2 = some r2 := by
  induction h with
  | refl c => intro fuel e r hr; exact ⟨fuel, e, r, Nat.le_refl fuel, hr⟩
  | step c val d v p bname hv href hb _ ih =>
    intro fuel e r hr
    obtain ⟨n, e2, r2, hn, hr2⟩ := Replace_of_refs blocks fuel c val r e
      ⟨v, hv, p, bname, href, hb⟩ hr
    obtain ⟨n3, e3, r3, hn3, hr3⟩ := ih n e2 r2 hr2
    exact ⟨n3, e3, r3, by omega, hr3⟩

/-- On a block that references itself no recursion depth suffices. -/
theorem Replace_none_of_selfReferencing (blocks : BlockName → Option CodeBlock)
    (val : CodeBlock) (h : SelfReferencing blocks val) :
    ∀ (fuel : Nat) (e : Str), Replace blocks fuel val e = none := by
  intro fuel
  induction fuel using Nat.strong_induction_on with
  | _ fuel ih =>
    intro e
    cases hr : Replace blocks fuel val e with
    | none => rfl
    | some r =>
      exfalso
      obtain ⟨mid, hrefs, hback⟩ := h
      obtain ⟨n, e2, r2, hn, hr2⟩ := Replace_of_refs blocks fuel val mid r e hrefs hr
      obtain ⟨n3, e3, r3, hn3, hr3⟩ := Replace_of_reaches blocks mid val hback n e2 r2 hr2
      have hnone := ih n3 (by omega) e3
      rw [hnone] at hr3
      exact absurd hr3 (by simp)

/-- On a block that reaches a block referencing itself no recursion depth
suffices. -/
theorem Replace_none_of_reaches_selfReferencing (blocks : BlockName → Option CodeBlock)
    (c val : CodeBlock) (hreach : Reaches blocks c val) (h : SelfReferencing blocks val)
    (fuel : Nat) (e : Str) : Replace blocks fuel c e = none := by
  cases hr : Replace blocks fuel c e with
  | none => rfl
  | some r =>
    exfalso
    obtain ⟨n, e2, r2, _, hr2⟩ := Replace_of_reaches blocks c val hreach fuel e r hr
    rw [Replace_none_of_selfReferencing blocks val h n e2] at hr2
    exact absurd hr2 (by simp)

theorem expandsWithin_succ_iff (blocks : BlockName → Option CodeBlock) (k : Nat)
    (c : CodeBlock) :
    expandsWithin blocks (k + 1) c = true ↔
      ∀ v ∈ c, ∀ (p : Str) (bname : BlockName) (val : CodeBlock),
        replaceRe v.text = some (p, bname) → blocks bname = some val →
        expandsWithin blocks k val = true := by
  simp only [expandsWithin, List.all_eq_true]
  constructor
  · intro h v hv p bname val href hb
    have hv2 := h v hv
    simp only [href, hb] at hv2
    exact hv2
  · intro h v hv
    cases href : replaceRe v.text with
    | none => rfl
    | some pn =>
      obtain ⟨p, bname⟩ := pn
      cases hb : blocks bname with
      | none => simp only [hb]
      | some val =>
        simp only [hb]
        exact h v hv p bname val href hb

/-- What a registry reaches, a registry that extends it reaches. -/
theorem reaches_mono (small big : BlockName → Option CodeBlock)
    (hsub : ∀ k val, small k = some val → big k = some val) (a d : CodeBlock)
    (h : Reaches small a d) : Reaches big a d := by
  induction h with
  | refl a => exact Reaches.refl a
  | step a val d v p bname hv href hb _ ih =>
    exact Reaches.step a val d v p bname hv href (hsub bname val hb) ih

theorem selfReferencing_mono (small big : BlockName → Option CodeBlock)
    (hsub : ∀ k val, small k = some val → big k = some val) (val : CodeBlock)
    (h : SelfReferencing small val) : SelfReferencing big val := by
  obtain ⟨mid, ⟨v, hv, p, bname, href, hb⟩, hback⟩ := h
  exact ⟨mid, ⟨v, hv, p, bname, href, hsub bname mid hb⟩,
    reaches_mono small big hsub mid val hback⟩

/-- A block that reaches a block holding a resolved reference to it references
itself. -/
theorem selfReferencing_of_cycle (blocks : BlockName → Option CodeBlock) (val d : CodeBlock)
    (hreach : Reaches blocks val d) (hback : Refs blocks d val) :
    SelfReferencing blocks val := by
  have hcases : ∀ a d2 : CodeBlock, Reaches blocks a d2 →
      a = d2 ∨ ∃ mid, Refs blocks a mid ∧ Reaches blocks mid d2 := by
    intro a d2 h
    induction h with
    | refl a => exact Or.inl rfl
    | step a mid d2 v p bname hv href hb hrest _ =>
      exact Or.inr ⟨mid, ⟨v, hv, p, bname, href, hb⟩, hrest⟩
  rcases hcases val d hreach with h | ⟨mid, hrefs, hrest⟩
  · subst h
    exact ⟨val, hback, Reaches.refl val⟩
  · exact ⟨mid, hrefs, reaches_tail blocks mid d val hrest hback⟩

/-- Putting back a name that no block reached from `d` references does not
lengthen the chains of resolved references from `d`. -/
theorem expandsWithin_restore (blocks : BlockName → Option CodeBlock) (b : BlockName) :
    ∀ (k : Nat) (d : CodeBlock),
      (∀ d2, Reaches blocks d d2 → ∀ u ∈ d2, ∀ q : Str, replaceRe u.text ≠ some (q, b)) →
      expandsWithin (fun x => if x = b then none else blocks x) k d = true →
      expandsWithin blocks k d = true := by
  intro k
  induction k with
  | zero => intro d _ h; simp [expandsWithin] at h
  | succ k ih =>
    intro d hno h
    rw [expandsWithin_succ_iff] at h ⊢
    intro v hv p bname val href hb
    have hne : bname ≠ b := by
      intro e
      rw [e] at href
      exact hno d (Reaches.refl d) v hv p href
    have hb2 : (fun x => if x = b then none else blocks x) bname = some val := by
      simp only [if_neg hne, hb]
    apply ih val
    · intro d2 hd2
      exact hno d2 (Reaches.step d val d2 v p bname hv href hb hd2)
    · exact h v hv p bname val href hb2

/-- Over a registry with finitely many names, a block that reaches no block
referencing itself has chains of resolved references of bounded length. -/
theorem expandsWithin_of_acyclic :
    ∀ (n : Nat) (names : List BlockName) (blocks : BlockName → Option CodeBlock),
      names.length = n → (∀ k, blocks k ≠ none → k ∈ names) →
      ∀ c : CodeBlock, (∀ val, Reaches blocks c val → ¬SelfReferencing blocks val) →
      expandsWithin blocks (n + 1) c = true := by
  intro n
  induction n with
  | zero =>
    intro names blocks hlen hsupp c _
    rw [expandsWithin_succ_iff]
    intro v _ p bname val _ hb
    have hmem := hsupp bname (by rw [hb]; simp)
    rw [List.length_eq_zero.mp hlen] at hmem
    simp at hmem
  | succ n ih =>
    intro names blocks hlen hsupp c hacyc
    rw [expandsWithin_succ_iff]
    intro v hv p b val href hb
    have hbn : b ∈ names := hsupp b (by rw [hb]; simp)
    have hsub : ∀ k w, (fun x => if x = b then none else blocks x) k = some w →
        blocks k = some w := by
      intro k w hk
      by_cases e : k = b
      · simp [e] at hk
      · simpa [e] using hk
    have hlen2 : (names.erase b).length = n := by
      rw [List.length_erase_of_mem hbn, hlen]
      rfl
    have hsupp2 : ∀ k, (fun x => if x = b then none else blocks x) k ≠ none →
        k ∈ names.erase b := by
      intro k hk
      by_cases e : k = b
      · simp [e] at hk
      · exact (List.mem_erase_of_ne e).mpr (hsupp k (by simpa [e] using hk))
    have hreach : Reaches blocks c val :=
      Reaches.step c val val v p b hv href hb (Reaches.refl val)
    have hacyc2 : ∀ d, Reaches (fun x => if x = b then none else blocks x) val d →
        ¬SelfReferencing (fun x => if x = b then none else blocks x) d := by
      intro d hd hs
      exact hacyc d (reaches_trans blocks c val d hreach (reaches_mono _ blocks hsub val d hd))
        (selfReferencing_mono _ blocks hsub d hs)
    have hih := ih (names.erase b) _ hlen2 hsupp2 val hacyc2
    apply expandsWithin_restore blocks b (n + 1) val _ hih
    intro d2 hd2 u hu q hq
    exact hacyc val hreach (selfReferencing_of_cycle blocks val d2 hd2 ⟨u, hu, q, b, hq, hb⟩)

/-- C19: over a registry with finitely many names, as a Go map has,
`Replace` terminates on a block, at some recursion depth, if and only if no
block reached from it through resolved reference lines references itself,
directly or transitively. A block that reaches a self-referencing block gets
no result at any depth; and over a registry in which no block references
itself `Replace` returns on every block and prefix. -/
theorem C19_replace_terminates_iff_acyclic
    (blocks : BlockName → Option CodeBlock) (c : CodeBlock) (e : Str)
    (hfin : ∃ names : List BlockName, ∀ k, blocks k ≠ none → k ∈ names) :
    ((∃ (fuel : Nat) (r : CodeBlock), Replace blocks fuel c e = some r) ↔
      ∀ val, Reaches blocks c val → ¬SelfReferencing blocks val) ∧
    ((∃ val, Reaches blocks c val ∧ SelfReferencing blocks val) →
      ∀ fuel : Nat, Replace blocks fuel c e = none) ∧
    ((∀ val, ¬SelfReferencing blocks val) →
      ∀ (c2 : CodeBlock) (e2 : Str), ∃ (fuel : Nat) (r : CodeBlock),
        Replace blocks fuel c2 e2 = some r) := by
  obtain ⟨names, hnames⟩ := hfin
  have hterm : ∀ (c2 : CodeBlock) (e2 : Str),
      (∀ val, Reaches blocks c2 val → ¬SelfReferencing blocks val) →
      ∃ (fuel : Nat) (r : CodeBlock), Replace blocks fuel c2 e2 = some r := by
    intro c2 e2 hacyc
    have hexp := expandsWithin_of_acyclic names.length names blocks rfl hnames c2 hacyc
    obtain ⟨r, hr⟩ := Replace_terminates blocks (names.length + 1) c2 hexp e2
    exact ⟨names.length + 1, r, hr⟩
  refine ⟨⟨?_, hterm c e⟩, ?_, ?_⟩
  · rintro ⟨fuel, r, hr⟩ val hreach hself
    rw [Replace_none_of_reaches_selfReferencing blocks c val hreach hself fuel e] at hr
    exact absurd hr (by simp)
  · rintro ⟨val, hreach, hself⟩ fuel
    exact Replace_none_of_reaches_selfReferencing blocks c val hreach hself fuel e
  · intro hacyc c2 e2
    exact hterm c2 e2 (fun val _ => hacyc val)

/-- C19, at concrete inputs: the block `A` that references itself gets no
result at depth 1000, and a block referencing the literal block `B` gets a
result. -/
theorem C19_witness :
    Replace (fun k => if k = "A".toList then
        some [⟨"<<<A>>>\n".toList, "doc.md".toList, "go".toList, 7⟩] else none) 1000
      [⟨"<<<A>>>\n".toList, "doc.md".toList, "go".toList, 7⟩] [] = none ∧
    ∃ (fuel : Nat) (r : CodeBlock),
      Replace (fun k => if k = "B".toList then
        some [⟨"x\n".toList, "doc.md".toList, "go".toList, 7⟩] else none) fuel
        [⟨"  <<<B>>>\n".toList, "doc.md".toList, "go".toList, 3⟩] [] = some r := by
  constructor
  · refine (C19_replace_terminates_iff_acyclic _
      [⟨"<<<A>>>\n".toList, "doc.md".toList, "go".toList, 7⟩] []
      ⟨["A".toList], ?_⟩).2.1 ⟨_, Reaches.refl _, ?_⟩ 1000
    · intro k hk
      by_cases e : k = "A".toList
      · rw [e]
        exact List.mem_singleton.mpr rfl
      · exfalso
        apply hk
        show (if k = "A".toList then _ else none) = none
        rw [if_neg e]
    · exact ⟨_, ⟨⟨"<<<A>>>\n".toList, "doc.md".toList, "go".toList, 7⟩, by simp,
        [], "A".toList, by decide, by decide⟩, Reaches.refl _⟩
  · have hrefs : ∀ a mid : CodeBlock,
        Refs (fun k => if k = "B".toList then
        some [⟨"x\n".toList, "doc.md".toList, "go".toList, 7⟩] else none) a mid →
        mid = [⟨"x\n".toList, "doc.md".toList, "go".toList, 7⟩] := by
      rintro a mid ⟨v, _, p, bname, _, hb⟩
      have hb2 : (if bname = "B".toList then
          some [(⟨"x\n".toList, "doc.md".toList, "go".toList, 7⟩ : CodeLine)] else none)
          = some mid := hb
      by_cases hk : bname = "B".toList
      · rw [if_pos hk] at hb2
        exact (Option.some.inj hb2).symm
      · rw [if_neg hk] at hb2
        exact absurd hb2 (by simp)
    have hleaf : ∀ mid : CodeBlock,
        ¬Refs (fun k => if k = "B".toList then
        some [⟨"x\n".toList, "doc.md".toList, "go".toList, 7⟩] else none)
          [⟨"x\n".toList, "doc.md".toList, "go".toList, 7⟩] mid := by
      rintro mid ⟨v, hv, p, bname, href, _⟩
      simp only [List.mem_singleton] at hv
      subst hv
      have h1 : replaceRe ("x\n".toList) = none := by decide
      exact absurd (h1.symm.trans href) (by simp)
    have hstay : ∀ a d : CodeBlock,
        Reaches (fun k => if k = "B".toList then
        some [⟨"x\n".toList, "doc.md".toList, "go".toList, 7⟩] else none) a d →
        a = [⟨"x\n".toList, "doc.md".toList, "go".toList, 7⟩] →
        d = [⟨"x\n".toList, "doc.md".toList, "go".toList, 7⟩] := by
      intro a d h
      induction h with
      | refl a => exact id
      | step a val d v p bname hv href hb _ _ =>
        intro ha
        subst ha
        exact absurd ⟨v, hv, p, bname, href, hb⟩ (hleaf val)
    refine (C19_replace_terminates_iff_acyclic _
      [⟨"  <<<B>>>\n".toList, "doc.md".toList, "go".toList, 3⟩] []
      ⟨["B".toList], ?_⟩).1.mpr ?_
    · intro k hk
      by_cases e : k = "B".toList
      · rw [e]
        exact List.mem_singleton.mpr rfl
      · exfalso
        apply hk
        show (if k = "B".toList then _ else none) = none
        rw [if_neg e]
    · rintro val _ ⟨mid, hmid, hback⟩
      have h1 := hrefs val mid hmid
      have h2 := hstay mid val hback h1
      rw [h2] at hmid
      exact hleaf mid hmid

/-! ## The end of the input -/

/-- What `ReadString` returns with the error, the text after the last newline,
is no line for the loop. -/
theorem readStrings_no_newline (tail : Str) (h : ∀ x ∈ tail, x ≠ '\n') :
    ∀ cur : Str, readStrings cur tail = [] := by
  induction tail with
  | nil => intro cur; rfl
  | cons a t ih =>
    intro cur
    have ha : a ≠ '\n' := h a (List.mem_cons_self a t)
    simp only [readStrings, if_neg ha]
    exact ih (fun x hx => h x (List.mem_cons_of_mem a hx)) _

/-- Content lines leave the maps as they are. -/
theorem scanLoop_content_reg (body : List Str) : ∀ st : ScanState, st.inBlock = true →
    (∀ t ∈ body, isFenceClose (TrimPrefix t st.blockPrefix) = false) →
    (scanLoop st body).reg = st.reg ∧ (scanLoop st body).inBlock = true := by
  induction body with
  | nil => intro st hin _; exact ⟨rfl, hin⟩
  | cons t ts ih =>
    intro st hin hbody
    obtain ⟨_, h2, h3, h4⟩ := scanLine_content_fields st t hin (hbody t (List.mem_cons_self t ts))
    obtain ⟨h5, h6⟩ := ih (scanLine st t) h2
      (fun x hx => by rw [h3]; exact hbody x (List.mem_cons_of_mem t hx))
    rw [scanLoop_cons]
    exact ⟨h5.trans h4, h6⟩

/-- C20: when the input ends while a fence is still open, `ProcessFile`
returns success and the maps are what they were when the fence opened: the
result is that of scanning the lines before the opening line, and the lines
collected for the fence are registered nowhere. The text after the last
newline, such as a closing marker without newline, is not processed. -/
theorem C20_open_fence_at_end_of_input (reg : Registry) (d : Str) (pre body : List Str)
    (opener pfx tail : Str)
    (hpre : ∀ t ∈ pre, isLine t = true)
    (hout : (scanLoop (initState reg d) pre).inBlock = false)
    (hopener : isLine opener = true) (hstart : blockStartRe opener = some pfx)
    (hbody : ∀ t ∈ body, isLine t = true ∧ isFenceClose (TrimPrefix t pfx) = false)
    (htail : ∀ x ∈ tail, x ≠ '\n') :
    ProcessFile ⟨joinLines (pre ++ opener :: body) ++ tail, none⟩ d reg
        = ProcessFile ⟨joinLines pre, none⟩ d reg ∧
      (ProcessFile ⟨joinLines (pre ++ opener :: body) ++ tail, none⟩ d reg).2 = none ∧
      (scanLoop (initState reg d) (readStrings []
        (joinLines (pre ++ opener :: body) ++ tail))).inBlock = true := by
  have hall : ∀ t ∈ pre ++ opener :: body, isLine t = true := by
    intro t ht
    simp only [List.mem_append, List.mem_cons] at ht
    rcases ht with h | h | h
    · exact hpre t h
    · rw [h]; exact hopener
    · exact (hbody t h).1
  have hread : readStrings [] (joinLines (pre ++ opener :: body) ++ tail)
      = pre ++ opener :: body := by
    rw [readStrings_joinLines _ hall tail, readStrings_no_newline tail htail, List.append_nil]
  have hread2 : readStrings [] (joinLines pre) = pre := by
    have h := readStrings_joinLines pre hpre []
    simpa [readStrings] using h
  have hopen := scanLine_open _ opener pfx hout hstart
  have hin : (scanLine (scanLoop (initState reg d) pre) opener).inBlock = true := by rw [hopen]
  have hpf : (scanLine (scanLoop (initState reg d) pre) opener).blockPrefix = pfx := by rw [hopen]
  obtain ⟨hreg, hstill⟩ := scanLoop_content_reg body _ hin
    (fun t ht => by rw [hpf]; exact (hbody t ht).2)
  have hscan : (scanLoop (initState reg d) (pre ++ opener :: body)).reg
      = (scanLoop (initState reg d) pre).reg := by
    rw [scanLoop_append, scanLoop_cons, hreg, scanLine_outside _ opener hout]
  refine ⟨?_, rfl, ?_⟩
  · unfold ProcessFile
    simp only [hread, hread2, hscan]
  · rw [hread, scanLoop_append, scanLoop_cons]
    exact hstill

/-- C20, at a concrete input: the closing marker is the last line of the
document and has no newline. -/
theorem C20_witness :
    ProcessFile ⟨joinLines ([] ++ "```go > out.go\n".toList :: ["x\n".toList]) ++ "```".toList,
        none⟩ "a.md".toList emptyRegistry
      = ProcessFile ⟨joinLines [], none⟩ "a.md".toList emptyRegistry ∧
    (ProcessFile ⟨"```go > out.go\nx\n```".toList, none⟩ "a.md".toList emptyRegistry).1.files
      "out.go".toList = none ∧
    (ProcessFile ⟨"```go > out.go\nx\n```".toList, none⟩ "a.md".toList emptyRegistry).2 = none :=
  ⟨(C20_open_fence_at_end_of_input emptyRegistry "a.md".toList [] ["x\n".toList]
      "```go > out.go\n".toList [] "```".toList (by decide) (by decide) (by decide) (by decide)
      (by decide) (by decide)).1, by decide, by decide⟩

end Lmt
